import Mathlib

/-! # Kaleidoscope front end (`lexer.cpp`): tokenizer and operator-precedence parser

A shallow embedding of `gettok` and of the recursive-descent parser built on
it.  Standard input is a finite list of bytes; `getchar` hands them out one by
one and answers `EOF` once the list is exhausted.  The process-wide variables
of the program (`LastChar`, `IdentifierStr`, `NumVal`, `CurTok`) are the fields
of an explicit `State`.  Every loop and every call spends one unit of a fuel
budget; a computation that exhausts every budget is a computation that does
not return.
-/

namespace Kaleidoscope

/-- One `char` of the input stream. -/
abbrev Byte := Fin 256

/-- The value `getchar` answers at the end of the stream. -/
def EOF : Int := -1

/-! ## `enum Token` -/

def tok_eof : Int := -1
def tok_def : Int := -2
def tok_extern : Int := -3
def tok_identifier : Int := -4
def tok_number : Int := -5

/-! ## `<cctype>` in the "C" locale -/

def isspace (c : Int) : Bool := c == 32 || (9 ≤ c && c ≤ 13)

def isdigit (c : Int) : Bool := 48 ≤ c && c ≤ 57

def isalpha (c : Int) : Bool := (65 ≤ c && c ≤ 90) || (97 ≤ c && c ≤ 122)

def isalnum (c : Int) : Bool := isalpha c || isdigit c

def isascii (c : Int) : Bool := 0 ≤ c && c ≤ 127

/-- Conversion of an `int` to the `char` stored in a `std::string`. -/
def toChar (c : Int) : Byte := ⟨(c % 256).toNat, by omega⟩

/-- The bytes of a text, one per character (the encoding of ASCII text). -/
def bytes (s : String) : List Byte := s.toList.map (fun c => Fin.ofNat c.toNat)

/-! ## Program state -/

/-- The static variables of the program together with the unread input.
`NumVal` holds the text that `gettok` hands to `strtod`. -/
structure State where
  LastChar : Int
  input : List Byte
  IdentifierStr : List Byte
  NumVal : List Byte
  CurTok : Int
deriving DecidableEq, Repr

/-- The state in which `main` starts: `LastChar` is a blank, nothing is read. -/
def init (text : List Byte) : State :=
  { LastChar := 32, input := text, IdentifierStr := [], NumVal := [], CurTok := 0 }

/-- The statement `LastChar = getchar();`. -/
def readChar (s : State) : State :=
  match s.input with
  | [] => { s with LastChar := EOF }
  | b :: rest => { s with LastChar := (b.val : Int), input := rest }

/-! ## `gettok` -/

/-- The loop `while (isspace(LastChar)) LastChar = getchar();`. -/
def skipSpaces : Nat → State → Option State
  | 0, _ => none
  | n + 1, s => if isspace s.LastChar then skipSpaces n (readChar s) else some s

/-- The loop `while (isalnum(LastChar = getchar())) IdentifierStr += LastChar;`. -/
def readIdentifier : Nat → State → Option State
  | 0, _ => none
  | n + 1, s =>
    let s1 := readChar s
    if isalnum s1.LastChar then
      readIdentifier n { s1 with IdentifierStr := s1.IdentifierStr ++ [toChar s1.LastChar] }
    else some s1

/-- The loop `while (!isdigit(LastChar) && decimal) LastChar = getchar();`. -/
def skipNonDigits : Nat → Bool → State → Option State
  | 0, _, _ => none
  | n + 1, decimal, s =>
    if !isdigit s.LastChar && decimal then skipNonDigits n decimal (readChar s) else some s

/-- The loop `do { ... } while (isdigit(LastChar) || LastChar == '.');` over the
locals `NumStr` and `decimal`; it answers the final `NumStr`. -/
def readNumber : Nat → List Byte → Bool → State → Option (List Byte × State)
  | 0, _, _, _ => none
  | n + 1, NumStr, decimal, s =>
    let NumStr1 := NumStr ++ [toChar s.LastChar]
    let decimal1 := if !isdigit s.LastChar then true else decimal
    match skipNonDigits n decimal1 (readChar s) with
    | none => none
    | some s2 =>
      if isdigit s2.LastChar || s2.LastChar == 46 then readNumber n NumStr1 decimal1 s2
      else some (NumStr1, s2)

/-- The loop `do LastChar = getchar(); while (LastChar != EOF && LastChar != '\n'
&& LastChar != '\r');`. -/
def skipComment : Nat → State → Option State
  | 0, _ => none
  | n + 1, s =>
    let s1 := readChar s
    if s1.LastChar != EOF && s1.LastChar != 10 && s1.LastChar != 13 then skipComment n s1
    else some s1

/-- The last two statements of `gettok`: the end-of-input test and the
single-character token. -/
def gettokTail (s : State) : Int × State :=
  if s.LastChar == EOF then (tok_eof, s) else (s.LastChar, readChar s)

/-- The function `gettok`: the token code it returns and the state it leaves. -/
def gettok : Nat → State → Option (Int × State)
  | 0, _ => none
  | n + 1, s =>
    match skipSpaces n s with
    | none => none
    | some s1 =>
      if isalpha s1.LastChar then
        match readIdentifier n { s1 with IdentifierStr := [toChar s1.LastChar] } with
        | none => none
        | some s2 =>
          if s2.IdentifierStr = bytes "def" then some (tok_def, s2)
          else if s2.IdentifierStr = bytes "extern" then some ( tok_extern, s2)
          else some (tok_identifier, s2)
      else if isdigit s1.LastChar || s1.LastChar == 46 then
        match readNumber n [] false s1 with
        | none => none
        | some (NumStr, s2) => some (tok_number, { s2 with NumVal := NumStr })
      else if s1.LastChar == 35 then
        match skipComment n s1 with
        | none => none
        | some s2 => if s2.LastChar != EOF then gettok n s2 else some (gettokTail s2)
      else some (gettokTail s1)

/-- The function `getNextToken`: `CurTok = gettok()`. -/
def getNextToken (n : Nat) (s : State) : Option State :=
  match gettok n s with
  | none => none
  | some (t, s1) => some { s1 with CurTok := t }

/-! ## The abstract syntax tree -/

/-- The classes derived from `ExprAST` that the expression parser builds.
`Number` carries the text of the literal, `Binary` the operator character. -/
inductive ExprAST where
  | Number (Val : List Byte)
  | Variable (Name : List Byte)
  | Binary (Op : Int) (LHS RHS : ExprAST)
  | Call (Callee : List Byte) (Args : List ExprAST)
deriving Repr

mutual

/-- Equality of two expression trees is decidable. -/
def ExprAST.decEq : (a b : ExprAST) → Decidable (a = b)
  | .Number x, .Number y =>
    if h : x = y then isTrue (by rw [h]) else isFalse (fun e => h (by injection e))
  | .Variable x, .Variable y =>
    if h : x = y then isTrue (by rw [h]) else isFalse (fun e => h (by injection e))
  | .Binary o l r, .Binary o2 l2 r2 =>
    if h : o = o2 then
      match ExprAST.decEq l l2, ExprAST.decEq r r2 with
      | isTrue h1, isTrue h2 => isTrue (by rw [h, h1, h2])
      | isFalse h1, _ => isFalse (fun e => h1 (by injection e))
      | _, isFalse h2 => isFalse (fun e => h2 (by injection e))
    else isFalse (fun e => h (by injection e))
  | .Call f as, .Call g bs =>
    if h : f = g then
      match ExprAST.decEqList as bs with
      | isTrue h1 => isTrue (by rw [h, h1])
      | isFalse h1 => isFalse (fun e => h1 (by injection e))
    else isFalse (fun e => h (by injection e))
  | .Number _, .Variable _ => isFalse (fun e => by cases e)
  | .Number _, .Binary _ _ _ => isFalse (fun e => by cases e)
  | .Number _, .Call _ _ => isFalse (fun e => by cases e)
  | .Variable _, .Number _ => isFalse (fun e => by cases e)
  | .Variable _, .Binary _ _ _ => isFalse (fun e => by cases e)
  | .Variable _, .Call _ _ => isFalse (fun e => by cases e)
  | .Binary _ _ _, .Number _ => isFalse (fun e => by cases e)
  | .Binary _ _ _, .Variable _ => isFalse (fun e => by cases e)
  | .Binary _ _ _, .Call _ _ => isFalse (fun e => by cases e)
  | .Call _ _, .Number _ => isFalse (fun e => by cases e)
  | .Call _ _, .Variable _ => isFalse (fun e => by cases e)
  | .Call _ _, .Binary _ _ _ => isFalse (fun e => by cases e)

/-- Equality of two lists of expression trees is decidable. -/
def ExprAST.decEqList : (as bs : List ExprAST) → Decidable (as = bs)
  | [], [] => isTrue rfl
  | [], _ :: _ => isFalse (fun e => by cases e)
  | _ :: _, [] => isFalse (fun e => by cases e)
  | a :: as, b :: bs =>
    match ExprAST.decEq a b, ExprAST.decEqList as bs with
    | isTrue h1, isTrue h2 => isTrue (by rw [h1, h2])
    | isFalse h1, _ => isFalse (fun e => h1 (by injection e))
    | _, isFalse h2 => isFalse (fun e => h2 (by injection e))

end

instance : DecidableEq ExprAST := ExprAST.decEq

/-- The class `PrototypeAST`. -/
structure PrototypeAST where
  Name : List Byte
  Args : List (List Byte)
deriving DecidableEq, Repr

/-- The class `FunctionAST`. -/
structure FunctionAST where
  Proto : PrototypeAST
  Body : ExprAST
deriving DecidableEq, Repr

deriving instance DecidableEq for Except

/-- What a parsing function hands back: a node, or the null pointer together
with the message `LogError` printed when the null pointer was made. -/
abbrev Parsed (α : Type) := Except String α

/-! ## The parser -/

/-- The table `BinopPrecendence` read through `operator[]`: a key that is
absent reads as `0`. -/
def BinopPrecendence (c : Int) : Int :=
  if c == 60 then 10
  else if c == 43 then 20
  else if c == 45 then 20
  else if c == 42 then 40
  else if c == 47 then 40
  else 0

/-- The function `GetTokPrecendence`. -/
def GetTokPrecendence (s : State) : Int :=
  if !isascii s.CurTok then -1
  else
    let TokPrec := BinopPrecendence s.CurTok
    if TokPrec ≤ 0 then -1 else TokPrec

/-- The function `ParseNumberExpr`. -/
def ParseNumberExpr (n : Nat) (s : State) : Option (Parsed ExprAST × State) :=
  match getNextToken n s with
  | none => none
  | some s1 => some (.ok (.Number s.NumVal), s1)

mutual

/-- The function `ParseParenExpr`. -/
def ParseParenExpr : Nat → State → Option (Parsed ExprAST × State)
  | 0, _ => none
  | n + 1, s =>
    match getNextToken n s with
    | none => none
    | some s1 =>
      match ParseExpression n s1 with
      | none => none
      | some (.error e, s2) => some (.error e, s2)
      | some (.ok V, s2) =>
        if s2.CurTok != 41 then some (.error "expected ')'", s2)
        else
          match getNextToken n s2 with
          | none => none
          | some s3 => some (.ok V, s3)

/-- The loop `while (true)` of `ParseIdentifierExpr` that collects `Args`. -/
def ParseArgs : Nat → List ExprAST → State → Option (Parsed (List ExprAST) × State)
  | 0, _, _ => none
  | n + 1, Args, s =>
    match ParseExpression n s with
    | none => none
    | some (.error e, s1) => some (.error e, s1)
    | some (.ok Arg, s1) =>
      let Args1 := Args ++ [Arg]
      if s1.CurTok == 41 then some (.ok Args1, s1)
      else if s1.CurTok != 44 then some (.error "Expected ')' or ',' in argument list", s1)
      else
        match getNextToken n s1 with
        | none => none
        | some s2 => ParseArgs n Args1 s2

/-- The function `ParseIdentifierExpr`. -/
def ParseIdentifierExpr : Nat → State → Option (Parsed ExprAST × State)
  | 0, _ => none
  | n + 1, s =>
    let IdName := s.IdentifierStr
    match getNextToken n s with
    | none => none
    | some s1 =>
      if s1.CurTok != 40 then some (.ok (.Variable IdName), s1)
      else
        match getNextToken n s1 with
        | none => none
        | some s2 =>
          if s2.CurTok != 41 then
            match ParseArgs n [] s2 with
            | none => none
            | some (.error e, s3) => some (.error e, s3)
            | some (.ok Args, s3) =>
              match getNextToken n s3 with
              | none => none
              | some s4 => some (.ok (.Call IdName Args), s4)
          else
            match getNextToken n s2 with
            | none => none
            | some s4 => some (.ok (.Call IdName []), s4)

/-- The function `ParsePrimary`. -/
def ParsePrimary : Nat → State → Option (Parsed ExprAST × State)
  | 0, _ => none
  | n + 1, s =>
    if s.CurTok == tok_identifier then ParseIdentifierExpr n s
    else if s.CurTok == tok_number then ParseNumberExpr n s
    else if s.CurTok == 40 then ParseParenExpr n s
    else some (.error "unknown token when expecting an expression", s)

/-- The function `ParseBinOpRHS`; one unit of fuel per turn of its loop. -/
def ParseBinOpRHS : Nat → Int → ExprAST → State → Option (Parsed ExprAST × State)
  | 0, _, _, _ => none
  | n + 1, ExprPrec, LHS, s =>
    let TokPrec := GetTokPrecendence s
    if TokPrec < ExprPrec then some (.ok LHS, s)
    else
      let BinOp := s.CurTok
      match getNextToken n s with
      | none => none
      | some s1 =>
        match ParsePrimary n s1 with
        | none => none
        | some (.error e, s2) => some (.error e, s2)
        | some (.ok RHS, s2) =>
          let NextPrec := GetTokPrecendence s2
          if TokPrec < NextPrec then
            match ParseBinOpRHS n (TokPrec + 1) RHS s2 with
            | none => none
            | some (.error e, s3) => some (.error e, s3)
            | some (.ok RHS1, s3) => ParseBinOpRHS n ExprPrec (.Binary BinOp LHS RHS1) s3
          else ParseBinOpRHS n ExprPrec (.Binary BinOp LHS RHS) s2

/-- The function `ParseExpression`. -/
def ParseExpression : Nat → State → Option (Parsed ExprAST × State)
  | 0, _ => none
  | n + 1, s =>
    match ParsePrimary n s with
    | none => none
    | some (.error e, s1) => some (.error e, s1)
    | some (.ok LHS, s1) => ParseBinOpRHS n 0 LHS s1

end

/-- The loop `while (getNextToken() == tok_identifier) ArgNames.push_back(IdentifierStr);`
of `ParsePrototype`. -/
def readArgNames : Nat → List (List Byte) → State → Option (List (List Byte) × State)
  | 0, _, _ => none
  | n + 1, ArgNames, s =>
    match getNextToken n s with
    | none => none
    | some s1 =>
      if s1.CurTok == tok_identifier then readArgNames n (ArgNames ++ [s1.IdentifierStr]) s1
      else some (ArgNames, s1)

/-- The function `ParsePrototype`. -/
def ParsePrototype (n : Nat) (s : State) : Option (Parsed PrototypeAST × State) :=
  if s.CurTok != tok_identifier then some (.error "Expected function name in prototype", s)
  else
    let FnName := s.IdentifierStr
    match getNextToken n s with
    | none => none
    | some s1 =>
      if s1.CurTok != 40 then some (.error "Expected '(' in prototype", s1)
      else
        match readArgNames n [] s1 with
        | none => none
        | some (ArgNames, s2) =>
          if s2.CurTok != 41 then some (.error "Expected ')' in prototype", s2)
          else
            match getNextToken n s2 with
            | none => none
            | some s3 => some (.ok ⟨FnName, ArgNames⟩, s3)

/-- The function `ParseDefinition`. -/
def ParseDefinition (n : Nat) (s : State) : Option (Parsed FunctionAST × State) :=
  match getNextToken n s with
  | none => none
  | some s1 =>
    match ParsePrototype n s1 with
    | none => none
    | some (.error e, s2) => some (.error e, s2)
    | some (.ok Proto, s2) =>
      match ParseExpression n s2 with
      | none => none
      | some (.error e, s3) => some (.error e, s3)
      | some (.ok E, s3) => some (.ok ⟨Proto, E⟩, s3)

/-- The function `ParseExtern`. -/
def ParseExtern (n : Nat) (s : State) : Option (Parsed PrototypeAST × State) :=
  match getNextToken n s with
  | none => none
  | some s1 => ParsePrototype n s1

/-- The function `ParseTopLevelExpr`. -/
def ParseTopLevelExpr (n : Nat) (s : State) : Option (Parsed FunctionAST × State) :=
  match ParseExpression n s with
  | none => none
  | some (.error e, s1) => some (.error e, s1)
  | some (.ok E, s1) => some (.ok ⟨⟨[], []⟩, E⟩, s1)

/-- Priming of the first token as in `main` (`getNextToken();` from the
initial state), followed by a parsing function. -/
def onText {α : Type} (parse : Nat → State → Option (Parsed α × State)) (n : Nat)
    (text : List Byte) : Option (Parsed α × State) :=
  match getNextToken n (init text) with
  | none => none
  | some s => parse n s

/-! ## Tokens and texts -/

/-- The tokens of the language, with the data `gettok` captures for them. -/
inductive Token where
  | eof
  | kwDef
  | kwExtern
  | ident (w : List Byte)
  | number (ds : List Byte)
  | sym (c : Byte)
deriving DecidableEq, Repr

/-- The value `gettok` returns for a token. -/
def Token.code : Token → Int
  | .eof => tok_eof
  | .kwDef => tok_def
  | .kwExtern => tok_extern
  | .ident _ => tok_identifier
  | .number _ => tok_number
  | .sym c => (c.val : Int)

/-- The characters a token is written with. -/
def Token.text : Token → List Byte
  | .eof => []
  | .kwDef => bytes "def"
  | .kwExtern => bytes "extern"
  | .ident w => w
  | .number ds => ds
  | .sym c => [c]

/-- A run of whitespace characters. -/
def blank (ws : List Byte) : Bool := ws.all (fun b => isspace (b.val : Int))

/-- An identifier that is not a keyword: a letter followed by letters and digits. -/
def isIdentifier (w : List Byte) : Bool :=
  match w with
  | [] => false
  | c :: cs =>
    isalpha (c.val : Int) && cs.all (fun b => isalnum (b.val : Int)) &&
      decide (w ≠ bytes "def") && decide (w ≠ bytes "extern")

/-- An integer literal: a non-empty run of digits. -/
def isIntLiteral (ds : List Byte) : Bool :=
  !ds.isEmpty && ds.all (fun b => isdigit (b.val : Int))

/-- A character that `gettok` returns as a token of its own. -/
def isSymbol (c : Byte) : Bool :=
  !isspace (c.val : Int) && !isalnum (c.val : Int) && (c.val : Int) != 46 && (c.val : Int) != 35

/-- A token written as the specification describes it. -/
def Token.wf : Token → Bool
  | .eof => false
  | .kwDef => true
  | .kwExtern => true
  | .ident w => isIdentifier w
  | .number ds => isIntLiteral ds
  | .sym c => isSymbol c

/-- The character the lexer looks at when the text `t` is ahead of it. -/
def next (t : List Byte) : Int :=
  match t with
  | [] => EOF
  | b :: _ => (b.val : Int)

/-- The state `s` with the lexer placed in front of the text `t`: `LastChar` is
the first character of `t` (or `EOF`), the unread input is the remainder. -/
def State.atText (s : State) (t : List Byte) : State :=
  { s with LastChar := next t, input := t.tail }

/-- A character that ends an identifier and a number alike. -/
def delim (x : Int) : Bool := !isalnum x && x != 46

/-- The token `t` ends where the text `rest` starts. -/
def boundary (t : Token) (rest : List Byte) : Bool :=
  match t with
  | .sym _ => true
  | _ => delim (next rest)

/-- The text of a list of tokens, each after its own run of whitespace, closed
by the run `tail`. -/
def render : List (List Byte × Token) → List Byte → List Byte
  | [], tail => tail
  | (ws, t) :: r, tail => ws ++ (t.text ++ render r tail)

/-- The runs are whitespace, the tokens are well written, and two tokens
neither of which is a symbol have whitespace between them. -/
def wellSpaced : List (List Byte × Token) → List Byte → Bool
  | [], tail => blank tail
  | (ws, t) :: r, tail => blank ws && t.wf && boundary t (render r tail) && wellSpaced r tail

/-- The state `getNextToken` leaves after reading the token `t` in state `s`,
with the text `rest` ahead. -/
def lexed (t : Token) (s : State) (rest : List Byte) : State :=
  { LastChar := next rest
    input := rest.tail
    IdentifierStr :=
      match t with
      | .kwDef | .kwExtern | .ident _ => t.text
      | _ => s.IdentifierStr
    NumVal :=
      match t with
      | .number ds => ds
      | _ => s.NumVal
    CurTok := t.code }

/-- The current token of `s` is `t`, with its data in `IdentifierStr` or `NumVal`. -/
def Shows (s : State) (t : Token) : Prop :=
  s.CurTok = t.code ∧
    match t with
    | .ident w => s.IdentifierStr = w
    | .number ds => s.NumVal = ds
    | _ => True

/-- The computation `f` returns `r`: every budget from some budget on gives `r`. -/
def Returns {α : Type} (f : Nat → Option α) (r : α) : Prop :=
  ∃ n0, ∀ n, n0 ≤ n → f n = some r

/-- The computation `f` does not return: every budget is exhausted. -/
def Diverges {α : Type} (f : Nat → Option α) : Prop :=
  ∀ n, f n = none

/-- From state `s` on, successive calls of `getNextToken` return the tokens
`ts`, one after the other. -/
def Feeds : State → List Token → Prop
  | _, [] => True
  | s, t :: ts => ∃ s1, Returns (fun n => getNextToken n s) s1 ∧ Shows s1 t ∧ Feeds s1 ts

/-- A simple operand: an integer literal or the name of a variable. -/
inductive Operand where
  | lit (ds : List Byte)
  | var (w : List Byte)
deriving DecidableEq, Repr

/-- The token an operand is written as. -/
def Operand.token : Operand → Token
  | .lit ds => .number ds
  | .var w => .ident w

/-- The characters of an operand. -/
def Operand.text (a : Operand) : List Byte := a.token.text

/-- The node `ParsePrimary` builds for an operand. -/
def Operand.ast : Operand → ExprAST
  | .lit ds => .Number ds
  | .var w => .Variable w

/-- An integer literal, or an identifier that is not a keyword. -/
def Operand.wf (a : Operand) : Bool := a.token.wf

/-- An operator of the precedence table. -/
def isBinop (o : Byte) : Bool := decide (0 < BinopPrecendence (o.val : Int))

/-- The current token of `s` is the first of `ts` and `getNextToken` returns
the others in turn. -/
def Reads (s : State) : List Token → Prop
  | [] => True
  | t :: ts => Shows s t ∧ Feeds s ts

/-- The left-nested tree over `L` and the pairs of an operator and an operand. -/
def leftNested (L : ExprAST) (pairs : List (Byte × Operand)) : ExprAST :=
  pairs.foldl (fun acc x => .Binary (x.1.val : Int) acc x.2.ast) L

/-- The tokens of a run of pairs of an operator and an operand. -/
def chainTokens : List (Byte × Operand) → List Token
  | [] => []
  | x :: r => .sym x.1 :: x.2.token :: chainTokens r

/-- One more operand of a chain: whitespace, an operator, whitespace, an operand. -/
structure Link where
  pre : List Byte
  op : Byte
  mid : List Byte
  arg : Operand
deriving DecidableEq, Repr

/-- The operator and the operand of a link. -/
def Link.pair (l : Link) : Byte × Operand := (l.op, l.arg)

/-- The runs of a link are whitespace, its operator is in the precedence
table, its operand is well written. -/
def Link.wf (l : Link) : Bool := blank l.pre && blank l.mid && isBinop l.op && l.arg.wf

/-- The characters of a run of links. -/
def linksText : List Link → List Byte
  | [] => []
  | l :: r => l.pre ++ [l.op] ++ l.mid ++ l.arg.text ++ linksText r

/-- The text `a0 o1 a1 ... on an` of a chain. -/
def chainText (a0 : Operand) (links : List Link) : List Byte := a0.text ++ linksText links

/-- The tokens of a run of links, each with the whitespace before it. -/
def linksItems : List Link → List (List Byte × Token)
  | [] => []
  | l :: r => (l.pre, .sym l.op) :: (l.mid, l.arg.token) :: linksItems r

/-- The characters of the arguments after the first: a comma, whitespace, an
operand, and so on. -/
def moreText : List (List Byte × Operand) → List Byte
  | [] => []
  | y :: r => [44] ++ y.1 ++ y.2.text ++ moreText r

/-- The characters of an argument list `x1, ..., xn`: operands separated by
commas, each after a run of whitespace. -/
def argsText : List (List Byte × Operand) → List Byte
  | [] => []
  | x :: r => x.1 ++ x.2.text ++ moreText r

/-- The tokens of the arguments after the first, each with the whitespace
before it. -/
def moreItems : List (List Byte × Operand) → List (List Byte × Token)
  | [] => []
  | y :: r => ([], .sym 44) :: (y.1, y.2.token) :: moreItems r

/-- The tokens of an argument list, each with the whitespace before it. -/
def argsItems : List (List Byte × Operand) → List (List Byte × Token)
  | [] => []
  | x :: r => (x.1, x.2.token) :: moreItems r

/-- The tokens of the arguments after the first. -/
def moreTokens : List Operand → List Token
  | [] => []
  | y :: r => .sym 44 :: y.token :: moreTokens r

/-- What `gettok` answers for a run of letters and digits. -/
def classify (w : List Byte) : Int :=
  if w = bytes "def" then tok_def else if w = bytes "extern" then tok_extern else tok_identifier

/-- Stability under more fuel of the six mutually recursive parsing functions,
stated for one budget `n`. -/
def ParserStable (n : Nat) : Prop :=
  (∀ m s r, n ≤ m → ParseParenExpr n s = some r → ParseParenExpr m s = some r) ∧
  (∀ m a s r, n ≤ m → ParseArgs n a s = some r → ParseArgs m a s = some r) ∧
  (∀ m s r, n ≤ m → ParseIdentifierExpr n s = some r → ParseIdentifierExpr m s = some r) ∧
  (∀ m s r, n ≤ m → ParsePrimary n s = some r → ParsePrimary m s = some r) ∧
  (∀ m p l s r, n ≤ m → ParseBinOpRHS n p l s = some r → ParseBinOpRHS m p l s = some r) ∧
  (∀ m s r, n ≤ m → ParseExpression n s = some r → ParseExpression m s = some r)

/-- The token is a single-character symbol. -/
def Token.isSym : Token → Bool
  | .sym _ => true
  | _ => false

/-- The whitespace the specification asks for: the run in front of a token may
be empty when the token or the token before it is a symbol, and in front of
the first token; between two tokens neither of which is a symbol it is not
empty. -/
def spaced : List (List Byte × Token) → Bool
  | [] => true
  | [_] => true
  | (_, t1) :: (ws, t2) :: r => (t1.isSym || t2.isSym || !ws.isEmpty) && spaced ((ws, t2) :: r)

/-- The data of the token `t` is what `gettok` left in `IdentifierStr` or in
`NumVal`. -/
def Carries (s : State) (t : Token) : Prop :=
  match t with
  | .ident w => s.IdentifierStr = w
  | .number ds => s.NumVal = ds
  | _ => True

/-- From state `s` on, successive calls of `gettok` return the tokens `ts`, one
after the other, each with its data. -/
def Lexes : State → List Token → Prop
  | _, [] => True
  | s, t :: ts => ∃ s1, Returns (fun n => gettok n s) (t.code, s1) ∧ Carries s1 t ∧ Lexes s1 ts

/-- The state `gettok` leaves after reading the token `t` in state `s`, with
the text `rest` ahead: the state `lexed t s rest` with `CurTok` untouched. -/
def scanned (t : Token) (s : State) (rest : List Byte) : State :=
  { lexed t s rest with CurTok := s.CurTok }

/-- A character that ends a comment: `'\n'` or `'\r'`. -/
def isNewline (x : Int) : Bool := x == 10 || x == 13

/-- The maximal run of identifier tokens at the head of a token list: the
names, and the tokens from the first that is not an identifier on. -/
def identRun : List Token → List (List Byte) × List Token
  | .ident p :: r => (p :: (identRun r).1, (identRun r).2)
  | r => ([], r)

/-- Following the specification of prototype parsing, on the tokens from the
current one on: an identifier, `(`, a maximal run of identifiers and `)` give
the prototype; otherwise one of three messages.  The second component is the
list of tokens from the current one on when parsing stops. -/
def prototypeSpec : List Token → Parsed PrototypeAST × List Token
  | .ident name :: t :: r =>
    if t = .sym 40 then
      match (identRun r).2 with
      | u :: after =>
        if u = .sym 41 then (.ok ⟨name, (identRun r).1⟩, after)
        else (.error "Expected ')' in prototype", u :: after)
      | [] => (.error "Expected ')' in prototype", [])
    else (.error "Expected '(' in prototype", t :: r)
  | [.ident _] => (.error "Expected '(' in prototype", [])
  | toks => (.error "Expected function name in prototype", toks)

/-- The anonymous function `ParseTopLevelExpr` wraps an expression in: a
prototype with the empty name and no parameters, and the expression as body. -/
def anonymous (E : ExprAST) : FunctionAST := ⟨⟨[], []⟩, E⟩

/-- An operator registered in the precedence table: `<`, `+`, `-`, `*` or `/`. -/
def isTableOp (op : Int) : Bool := op == 60 || op == 43 || op == 45 || op == 42 || op == 47

mutual

/-- Every `Binary` node of the tree, at every depth, has an operator of the
precedence table. -/
def ExprAST.opsOk : ExprAST → Bool
  | .Number _ => true
  | .Variable _ => true
  | .Binary op l r => isTableOp op && l.opsOk && r.opsOk
  | .Call _ args => ExprAST.opsOkList args

/-- Every tree of the list satisfies `opsOk`. -/
def ExprAST.opsOkList : List ExprAST → Bool
  | [] => true
  | a :: r => a.opsOk && ExprAST.opsOkList r

end

/-- The operator invariant of the six mutually recursive parsing functions,
stated for one budget `n`. -/
def ParserOpsOk (n : Nat) : Prop :=
  (∀ s e s1, ParseParenExpr n s = some (.ok e, s1) → e.opsOk = true) ∧
  (∀ a s l s1, ParseArgs n a s = some (.ok l, s1) → ExprAST.opsOkList a = true →
    ExprAST.opsOkList l = true) ∧
  (∀ s e s1, ParseIdentifierExpr n s = some (.ok e, s1) → e.opsOk = true) ∧
  (∀ s e s1, ParsePrimary n s = some (.ok e, s1) → e.opsOk = true) ∧
  (∀ p L s e s1, ParseBinOpRHS n p L s = some (.ok e, s1) → 0 ≤ p → L.opsOk = true →
    e.opsOk = true) ∧
  (∀ s e s1, ParseExpression n s = some (.ok e, s1) → e.opsOk = true)

/-! ## The driver -/

/-- What `LogError` writes to `stderr` for the message `Str`. -/
def errorLine (Str : String) : String := "Error " ++ Str ++ "\n"

/-- The function `HandleDefinition`: what it writes to `stderr` (with the line
`LogError` wrote inside a failed parse) and the state it leaves. -/
def HandleDefinition (n : Nat) (s : State) : Option (List String × State) :=
  match ParseDefinition n s with
  | none => none
  | some (.ok _, s1) => some (["Parsed a function definition.\n"], s1)
  | some (.error e, s1) =>
    match getNextToken n s1 with
    | none => none
    | some s2 => some ([errorLine e], s2)

/-- The function `HandleExtern`. -/
def HandleExtern (n : Nat) (s : State) : Option (List String × State) :=
  match ParseExtern n s with
  | none => none
  | some (.ok _, s1) => some (["Parsed an extern\n"], s1)
  | some (.error e, s1) =>
    match getNextToken n s1 with
    | none => none
    | some s2 => some ([errorLine e], s2)

/-- The function `HandleTopLevelExpression`. -/
def HandleTopLevelExpression (n : Nat) (s : State) : Option (List String × State) :=
  match ParseTopLevelExpr n s with
  | none => none
  | some (.ok _, s1) => some (["Parsed a top-level expr\n"], s1)
  | some (.error e, s1) =>
    match getNextToken n s1 with
    | none => none
    | some s2 => some ([errorLine e], s2)

/-- The `switch` of `MainLoop` on a current token other than `tok_eof`: one turn
of the loop. -/
def MainLoopCase (n : Nat) (s : State) : Option (List String × State) :=
  if s.CurTok == 59 then
    match getNextToken n s with
    | none => none
    | some s1 => some ([], s1)
  else if s.CurTok == tok_def then HandleDefinition n s
  else if s.CurTok == tok_extern then HandleExtern n s
  else HandleTopLevelExpression n s

/-- The function `MainLoop`: everything it writes to `stderr` and the state in
which it returns; one unit of fuel per turn of the loop. -/
def MainLoop : Nat → State → Option (List String × State)
  | 0, _ => none
  | n + 1, s =>
    if s.CurTok == tok_eof then some (["ready> "], s)
    else
      match MainLoopCase n s with
      | none => none
      | some (out, s1) =>
        match MainLoop n s1 with
        | none => none
        | some (out2, s2) => some ("ready> " :: out ++ out2, s2)

/-- The lexer has `k` more tokens to hand out from state `s`: after `k` calls
of `getNextToken` the current token is end-of-input and the input is
exhausted. -/
def Left : Nat → State → Prop
  | 0, s => s.CurTok = tok_eof ∧ s.LastChar = EOF
  | k + 1, s => ∃ s1, Returns (fun n => getNextToken n s) s1 ∧ Left k s1

/-- The parsing computation `f` returns, with at most `k` tokens left. -/
def Stops {α : Type} (f : Nat → Option (Parsed α × State)) (k : Nat) : Prop :=
  ∃ r s1 j, Returns f (r, s1) ∧ Left j s1 ∧ j ≤ k

/-- The parsing computation `f` returns with at most `k` tokens left, and with
fewer than `k` when it returns a node. -/
def StopsAhead {α : Type} (f : Nat → Option (Parsed α × State)) (k : Nat) : Prop :=
  ∃ r s1 j, Returns f (r, s1) ∧ Left j s1 ∧ j ≤ k ∧ ∀ v, r = .ok v → j < k

/-- Totality of the expression parser on a state with `k` tokens left. -/
def ParserTotal (k : Nat) : Prop :=
  ∀ s, Left k s →
    StopsAhead (fun n => ParsePrimary n s) k ∧
    StopsAhead (fun n => ParseExpression n s) k ∧
    (∀ a, StopsAhead (fun n => ParseArgs n a s) k) ∧
    (∀ p L, 0 ≤ p → Stops (fun n => ParseBinOpRHS n p L s) k)

/-- The function `main` on the standard input `text`: everything written to
`stderr` and the final state. -/
def main (n : Nat) (text : List Byte) : Option (List String × State) :=
  match getNextToken n (init text) with
  | none => none
  | some s =>
    match MainLoop n s with
    | none => none
    | some (out, s1) => some ("ready> " :: out, s1)

/-- One entry of an in-order traversal: an operand (a leaf of the tree) or an
operator. -/
inductive Entry where
  | operand (e : ExprAST)
  | operator (op : Int)
deriving DecidableEq

/-- The in-order traversal of a tree: the left subtree, the operator, the right
subtree; every node other than a `Binary` node is a leaf. -/
def ExprAST.inorder : ExprAST → List Entry
  | .Binary op l r => l.inorder ++ [.operator op] ++ r.inorder
  | .Number v => [.operand (.Number v)]
  | .Variable v => [.operand (.Variable v)]
  | .Call f args => [.operand (.Call f args)]

/-- The sequence `o1, a1, ..., on, an` of a run of pairs of an operator and an
operand, as entries of a traversal. -/
def pairEntries : List (Byte × Operand) → List Entry
  | [] => []
  | x :: r => .operator (x.1.val : Int) :: .operand x.2.ast :: pairEntries r

/-- Repeated calls of `gettok` from state `s` return `j` tokens other than
end-of-input, and then end-of-input, in a state where every later call returns
end-of-input again. -/
def Drains : Nat → State → Prop
  | 0, s => ∃ s1, Returns (fun n => gettok n s) (tok_eof, s1) ∧
      Returns (fun n => gettok n s1) (tok_eof, s1)
  | j + 1, s => ∃ t s1, Returns (fun n => gettok n s) (t, s1) ∧ t ≠ tok_eof ∧ Drains j s1

/-- The number of characters of a text that are not whitespace. -/
def nonBlank (t : List Byte) : Nat := t.countP (fun b => !isspace (b.val : Int))

/-! ## A completed run is stable under more fuel -/

theorem skipSpaces_mono {n m : Nat} {s r : State} (h : skipSpaces n s = some r)
    (hnm : n ≤ m) : skipSpaces m s = some r := by
  induction n generalizing m s with
  | zero => simp [skipSpaces] at h
  | succ n ih =>
    obtain ⟨m, rfl⟩ : ∃ k, m = k + 1 := ⟨m - 1, by omega⟩
    rw [skipSpaces] at h ⊢
    split at h
    · rw [if_pos ‹_›]; exact ih h (by omega)
    · rw [if_neg ‹_›]; exact h

theorem readIdentifier_mono {n m : Nat} {s r : State} (h : readIdentifier n s = some r)
    (hnm : n ≤ m) : readIdentifier m s = some r := by
  induction n generalizing m s with
  | zero => simp [readIdentifier] at h
  | succ n ih =>
    obtain ⟨m, rfl⟩ : ∃ k, m = k + 1 := ⟨m - 1, by omega⟩
    rw [readIdentifier] at h ⊢
    try dsimp only at h ⊢
    split at h
    · rw [if_pos ‹_›]; exact ih h (by omega)
    · rw [if_neg ‹_›]; exact h

theorem skipNonDigits_mono {n m : Nat} {d : Bool} {s r : State}
    (h : skipNonDigits n d s = some r) (hnm : n ≤ m) : skipNonDigits m d s = some r := by
  induction n generalizing m s with
  | zero => simp [skipNonDigits] at h
  | succ n ih =>
    obtain ⟨m, rfl⟩ : ∃ k, m = k + 1 := ⟨m - 1, by omega⟩
    rw [skipNonDigits] at h ⊢
    split at h
    · rw [if_pos ‹_›]; exact ih h (by omega)
    · rw [if_neg ‹_›]; exact h

theorem readNumber_mono {n m : Nat} {str : List Byte} {d : Bool} {s : State}
    {r : List Byte × State} (h : readNumber n str d s = some r) (hnm : n ≤ m) :
    readNumber m str d s = some r := by
  induction n generalizing m s str d with
  | zero => simp [readNumber] at h
  | succ n ih =>
    obtain ⟨m, rfl⟩ : ∃ k, m = k + 1 := ⟨m - 1, by omega⟩
    rw [readNumber] at h ⊢
    try dsimp only at h ⊢
    generalize (if (!isdigit s.LastChar) = true then true else d) = d1 at h ⊢
    cases h1 : skipNonDigits n d1 (readChar s) with
    | none => rw [h1] at h; simp at h
    | some s2 =>
      rw [skipNonDigits_mono h1 (by omega)]
      rw [h1] at h
      dsimp only at h ⊢
      by_cases hc : (isdigit s2.LastChar || s2.LastChar == 46) = true
      · rw [if_pos hc] at h ⊢; exact ih h (by omega)
      · rw [if_neg hc] at h ⊢; exact h

theorem skipComment_mono {n m : Nat} {s r : State} (h : skipComment n s = some r)
    (hnm : n ≤ m) : skipComment m s = some r := by
  induction n generalizing m s with
  | zero => simp [skipComment] at h
  | succ n ih =>
    obtain ⟨m, rfl⟩ : ∃ k, m = k + 1 := ⟨m - 1, by omega⟩
    rw [skipComment] at h ⊢
    try dsimp only at h ⊢
    split at h
    · rw [if_pos ‹_›]; exact ih h (by omega)
    · rw [if_neg ‹_›]; exact h

theorem gettok_mono {n m : Nat} {s : State} {r : Int × State} (h : gettok n s = some r)
    (hnm : n ≤ m) : gettok m s = some r := by
  induction n generalizing m s with
  | zero => simp [gettok] at h
  | succ n ih =>
    obtain ⟨m, rfl⟩ : ∃ k, m = k + 1 := ⟨m - 1, by omega⟩
    have hle : n ≤ m := by omega
    rw [gettok] at h ⊢
    cases h1 : skipSpaces n s with
    | none => simp [h1] at h
    | some s1 =>
      rw [skipSpaces_mono h1 hle]
      simp only [h1] at h ⊢
      by_cases ha : isalpha s1.LastChar = true
      · rw [if_pos ha] at h ⊢
        cases h2 : readIdentifier n { s1 with IdentifierStr := [toChar s1.LastChar] } with
        | none => simp [h2] at h
        | some s2 => rw [readIdentifier_mono h2 hle]; simpa only [h2] using h
      · rw [if_neg ha] at h ⊢
        by_cases hd : (isdigit s1.LastChar || s1.LastChar == 46) = true
        · rw [if_pos hd] at h ⊢
          cases h2 : readNumber n [] false s1 with
          | none => simp [h2] at h
          | some r2 => rw [readNumber_mono h2 hle]; simpa only [h2] using h
        · rw [if_neg hd] at h ⊢
          by_cases hc : (s1.LastChar == 35) = true
          · rw [if_pos hc] at h ⊢
            cases h2 : skipComment n s1 with
            | none => simp [h2] at h
            | some s2 =>
              rw [skipComment_mono h2 hle]
              simp only [h2] at h ⊢
              by_cases he : (s2.LastChar != EOF) = true
              · rw [if_pos he] at h ⊢; exact ih h hle
              · rw [if_neg he] at h ⊢; exact h
          · rw [if_neg hc] at h ⊢; exact h

theorem getNextToken_mono {n m : Nat} {s r : State} (h : getNextToken n s = some r)
    (hnm : n ≤ m) : getNextToken m s = some r := by
  unfold getNextToken at h ⊢
  cases h1 : gettok n s with
  | none => simp [h1] at h
  | some r1 => rw [gettok_mono h1 hnm]; simpa [h1] using h

theorem ParseNumberExpr_mono {n m : Nat} {s : State} {r : Parsed ExprAST × State}
    (h : ParseNumberExpr n s = some r) (hnm : n ≤ m) : ParseNumberExpr m s = some r := by
  unfold ParseNumberExpr at h ⊢
  cases h1 : getNextToken n s with
  | none => rw [h1] at h; simp at h
  | some s1 => rw [getNextToken_mono h1 hnm]; rw [h1] at h; exact h

theorem parserStable (n : Nat) : ParserStable n := by
  induction n with
  | zero =>
    refine ⟨?_, ?_, ?_, ?_, ?_, ?_⟩ <;> intros <;>
      simp_all [ParseParenExpr, ParseArgs, ParseIdentifierExpr, ParsePrimary, ParseBinOpRHS,
        ParseExpression]
  | succ n ih =>
    obtain ⟨ihParen, ihArgs, ihId, ihPrim, ihRHS, ihExpr⟩ := ih
    refine ⟨?_, ?_, ?_, ?_, ?_, ?_⟩
    · intro m s r hnm h
      obtain ⟨m, rfl⟩ : ∃ k, m = k + 1 := ⟨m - 1, by omega⟩
      have hle : n ≤ m := by omega
      rw [ParseParenExpr] at h ⊢
      cases h1 : getNextToken n s with
      | none => rw [h1] at h; simp at h
      | some s1 =>
        rw [getNextToken_mono h1 hle]; rw [h1] at h; dsimp only at h ⊢
        cases h2 : ParseExpression n s1 with
        | none => rw [h2] at h; simp at h
        | some r2 =>
          rw [ihExpr _ _ _ hle h2]; rw [h2] at h
          obtain ⟨res, s2⟩ := r2
          cases res with
          | error e => exact h
          | ok V =>
            dsimp only at h ⊢
            by_cases hc : (s2.CurTok != 41) = true
            · rw [if_pos hc] at h ⊢; exact h
            · rw [if_neg hc] at h ⊢
              cases h3 : getNextToken n s2 with
              | none => rw [h3] at h; simp at h
              | some s3 => rw [getNextToken_mono h3 hle]; rw [h3] at h; exact h
    · intro m a s r hnm h
      obtain ⟨m, rfl⟩ : ∃ k, m = k + 1 := ⟨m - 1, by omega⟩
      have hle : n ≤ m := by omega
      rw [ParseArgs] at h ⊢
      cases h2 : ParseExpression n s with
      | none => rw [h2] at h; simp at h
      | some r2 =>
        rw [ihExpr _ _ _ hle h2]; rw [h2] at h
        obtain ⟨res, s1⟩ := r2
        cases res with
        | error e => exact h
        | ok Arg =>
          dsimp only at h ⊢
          by_cases hc : (s1.CurTok == 41) = true
          · rw [if_pos hc] at h ⊢; exact h
          · rw [if_neg hc] at h ⊢
            by_cases hd : (s1.CurTok != 44) = true
            · rw [if_pos hd] at h ⊢; exact h
            · rw [if_neg hd] at h ⊢
              cases h3 : getNextToken n s1 with
              | none => rw [h3] at h; simp at h
              | some s2 =>
                rw [getNextToken_mono h3 hle]; rw [h3] at h
                exact ihArgs _ _ _ _ hle h
    · intro m s r hnm h
      obtain ⟨m, rfl⟩ : ∃ k, m = k + 1 := ⟨m - 1, by omega⟩
      have hle : n ≤ m := by omega
      rw [ParseIdentifierExpr] at h ⊢
      try dsimp only at h ⊢
      cases h1 : getNextToken n s with
      | none => rw [h1] at h; simp at h
      | some s1 =>
        rw [getNextToken_mono h1 hle]; rw [h1] at h; dsimp only at h ⊢
        by_cases hc : (s1.CurTok != 40) = true
        · rw [if_pos hc] at h ⊢; exact h
        · rw [if_neg hc] at h ⊢
          cases h2 : getNextToken n s1 with
          | none => rw [h2] at h; simp at h
          | some s2 =>
            rw [getNextToken_mono h2 hle]; rw [h2] at h; dsimp only at h ⊢
            by_cases hd : (s2.CurTok != 41) = true
            · rw [if_pos hd] at h ⊢
              cases h3 : ParseArgs n [] s2 with
              | none => rw [h3] at h; simp at h
              | some r3 =>
                rw [ihArgs _ _ _ _ hle h3]; rw [h3] at h
                obtain ⟨res, s3⟩ := r3
                cases res with
                | error e => exact h
                | ok Args =>
                  dsimp only at h ⊢
                  cases h4 : getNextToken n s3 with
                  | none => rw [h4] at h; simp at h
                  | some s4 => rw [getNextToken_mono h4 hle]; rw [h4] at h; exact h
            · rw [if_neg hd] at h ⊢
              cases h4 : getNextToken n s2 with
              | none => rw [h4] at h; simp at h
              | some s4 => rw [getNextToken_mono h4 hle]; rw [h4] at h; exact h
    · intro m s r hnm h
      obtain ⟨m, rfl⟩ : ∃ k, m = k + 1 := ⟨m - 1, by omega⟩
      have hle : n ≤ m := by omega
      rw [ParsePrimary] at h ⊢
      by_cases hc : (s.CurTok == tok_identifier) = true
      · rw [if_pos hc] at h ⊢; exact ihId _ _ _ hle h
      · rw [if_neg hc] at h ⊢
        by_cases hd : (s.CurTok == tok_number) = true
        · rw [if_pos hd] at h ⊢; exact ParseNumberExpr_mono h hle
        · rw [if_neg hd] at h ⊢
          by_cases he : (s.CurTok == 40) = true
          · rw [if_pos he] at h ⊢; exact ihParen _ _ _ hle h
          · rw [if_neg he] at h ⊢; exact h
    · intro m p l s r hnm h
      obtain ⟨m, rfl⟩ : ∃ k, m = k + 1 := ⟨m - 1, by omega⟩
      have hle : n ≤ m := by omega
      rw [ParseBinOpRHS] at h ⊢
      try dsimp only at h ⊢
      by_cases hc : GetTokPrecendence s < p
      · rw [if_pos hc] at h ⊢; exact h
      · rw [if_neg hc] at h ⊢
        cases h1 : getNextToken n s with
        | none => rw [h1] at h; simp at h
        | some s1 =>
          rw [getNextToken_mono h1 hle]; rw [h1] at h; dsimp only at h ⊢
          cases h2 : ParsePrimary n s1 with
          | none => rw [h2] at h; simp at h
          | some r2 =>
            rw [ihPrim _ _ _ hle h2]; rw [h2] at h
            obtain ⟨res, s2⟩ := r2
            cases res with
            | error e => exact h
            | ok RHS =>
              dsimp only at h ⊢
              by_cases hd : GetTokPrecendence s < GetTokPrecendence s2
              · rw [if_pos hd] at h ⊢
                cases h3 : ParseBinOpRHS n (GetTokPrecendence s + 1) RHS s2 with
                | none => rw [h3] at h; simp at h
                | some r3 =>
                  rw [ihRHS _ _ _ _ _ hle h3]; rw [h3] at h
                  obtain ⟨res3, s3⟩ := r3
                  cases res3 with
                  | error e => exact h
                  | ok RHS1 => exact ihRHS _ _ _ _ _ hle h
              · rw [if_neg hd] at h ⊢; exact ihRHS _ _ _ _ _ hle h
    · intro m s r hnm h
      obtain ⟨m, rfl⟩ : ∃ k, m = k + 1 := ⟨m - 1, by omega⟩
      have hle : n ≤ m := by omega
      rw [ParseExpression] at h ⊢
      cases h2 : ParsePrimary n s with
      | none => rw [h2] at h; simp at h
      | some r2 =>
        rw [ihPrim _ _ _ hle h2]; rw [h2] at h
        obtain ⟨res, s1⟩ := r2
        cases res with
        | error e => exact h
        | ok LHS => exact ihRHS _ _ _ _ _ hle h

theorem ParseExpression_mono {n m : Nat} {s : State} {r : Parsed ExprAST × State}
    (h : ParseExpression n s = some r) (hnm : n ≤ m) : ParseExpression m s = some r :=
  (parserStable n).2.2.2.2.2 m s r hnm h

theorem ParsePrimary_mono {n m : Nat} {s : State} {r : Parsed ExprAST × State}
    (h : ParsePrimary n s = some r) (hnm : n ≤ m) : ParsePrimary m s = some r :=
  (parserStable n).2.2.2.1 m s r hnm h

theorem ParseBinOpRHS_mono {n m : Nat} {p : Int} {l : ExprAST} {s : State}
    {r : Parsed ExprAST × State} (h : ParseBinOpRHS n p l s = some r) (hnm : n ≤ m) :
    ParseBinOpRHS m p l s = some r :=
  (parserStable n).2.2.2.2.1 m p l s r hnm h

theorem ParseIdentifierExpr_mono {n m : Nat} {s : State} {r : Parsed ExprAST × State}
    (h : ParseIdentifierExpr n s = some r) (hnm : n ≤ m) : ParseIdentifierExpr m s = some r :=
  (parserStable n).2.2.1 m s r hnm h

theorem ParseArgs_mono {n m : Nat} {a : List ExprAST} {s : State}
    {r : Parsed (List ExprAST) × State} (h : ParseArgs n a s = some r) (hnm : n ≤ m) :
    ParseArgs m a s = some r :=
  (parserStable n).2.1 m a s r hnm h

theorem ParseParenExpr_mono {n m : Nat} {s : State} {r : Parsed ExprAST × State}
    (h : ParseParenExpr n s = some r) (hnm : n ≤ m) : ParseParenExpr m s = some r :=
  (parserStable n).1 m s r hnm h

/-! ## `gettok` on well-written text -/

theorem Returns.unique {α : Type} {f : Nat → Option α} {r1 r2 : α} (h1 : Returns f r1)
    (h2 : Returns f r2) : r1 = r2 := by
  obtain ⟨n1, h1⟩ := h1
  obtain ⟨n2, h2⟩ := h2
  have a := h1 (max n1 n2) (le_max_left _ _)
  have b := h2 (max n1 n2) (le_max_right _ _)
  rw [a] at b
  exact Option.some.inj b

theorem toChar_val (b : Byte) : toChar (b.val : Int) = b := by
  apply Fin.ext
  simp only [toChar]
  omega

theorem readChar_atText (s : State) (b : Byte) (t : List Byte) :
    readChar (s.atText (b :: t)) = s.atText t := by
  cases t <;> rfl

theorem readChar_atText_nil (s : State) : readChar (s.atText []) = s.atText [] := rfl

theorem next_append_cons (ws : List Byte) (c : Byte) (t : List Byte) :
    next (ws ++ c :: t) = next (ws ++ [c]) := by
  cases ws <;> rfl

theorem skipSpaces_blank (s : State) (ws rest : List Byte) (hws : blank ws = true)
    (hr : isspace (next rest) = false) (n : Nat) (hn : ws.length < n) :
    skipSpaces n (s.atText (ws ++ rest)) = some (s.atText rest) := by
  induction ws generalizing n with
  | nil =>
    obtain ⟨n, rfl⟩ : ∃ k, n = k + 1 := ⟨n - 1, by simp at hn; omega⟩
    rw [skipSpaces]
    have : isspace (s.atText ([] ++ rest)).LastChar = false := hr
    rw [this]; rfl
  | cons b ws ih =>
    obtain ⟨n, rfl⟩ : ∃ k, n = k + 1 := ⟨n - 1, by simp at hn; omega⟩
    simp only [blank, List.all_cons, Bool.and_eq_true] at hws
    rw [skipSpaces]
    have : isspace (s.atText (b :: ws ++ rest)).LastChar = true := hws.1
    rw [this, if_pos rfl]
    have e : readChar (s.atText (b :: ws ++ rest)) = s.atText (ws ++ rest) :=
      readChar_atText s b (ws ++ rest)
    rw [e]
    exact ih hws.2 n (by simp at hn; omega)

theorem readIdentifier_run (s : State) (c : Byte) (cs rest : List Byte)
    (hcs : cs.all (fun b => isalnum (b.val : Int)) = true)
    (hr : isalnum (next rest) = false) (n : Nat) (hn : cs.length < n) :
    readIdentifier n (s.atText (c :: (cs ++ rest))) =
      some ({ s with IdentifierStr := s.IdentifierStr ++ cs }.atText rest) := by
  induction cs generalizing n s c with
  | nil =>
    obtain ⟨n, rfl⟩ : ∃ k, n = k + 1 := ⟨n - 1, by simp at hn; omega⟩
    rw [readIdentifier]
    try dsimp only
    rw [List.nil_append, readChar_atText]
    have : isalnum (s.atText rest).LastChar = false := hr
    rw [this]
    simp
  | cons x cs ih =>
    obtain ⟨n, rfl⟩ : ∃ k, n = k + 1 := ⟨n - 1, by simp at hn; omega⟩
    simp only [List.all_cons, Bool.and_eq_true] at hcs
    rw [readIdentifier]
    try dsimp only
    rw [readChar_atText]
    have : isalnum (s.atText (x :: cs ++ rest)).LastChar = true := hcs.1
    rw [this, if_pos rfl]
    have e : (s.atText (x :: cs ++ rest)).LastChar = (x.val : Int) := rfl
    rw [e, toChar_val]
    have h3 := ih { s with IdentifierStr := s.IdentifierStr ++ [x] } x hcs.2 n
      (by simp at hn; omega)
    simp only [List.append_assoc, List.singleton_append] at h3
    exact h3

theorem readNumber_digits (s : State) (acc : List Byte) (d : Byte) (ds rest : List Byte)
    (hd : isdigit (d.val : Int) = true)
    (hds : ds.all (fun b => isdigit (b.val : Int)) = true)
    (hr : isdigit (next rest) = false) (hr2 : next rest ≠ 46) (n : Nat)
    (hn : ds.length + 1 < n) :
    readNumber n acc false (s.atText (d :: (ds ++ rest))) =
      some (acc ++ d :: ds, s.atText rest) := by
  induction ds generalizing n acc d with
  | nil =>
    obtain ⟨n, rfl⟩ : ∃ k, n = k + 2 := ⟨n - 2, by simp at hn; omega⟩
    rw [readNumber]
    try dsimp only
    have e : (s.atText (d :: ([] ++ rest))).LastChar = (d.val : Int) := rfl
    rw [e, hd, toChar_val, List.nil_append, readChar_atText]
    simp only [Bool.not_true, Bool.false_eq_true, if_false, skipNonDigits, Bool.and_false]
    have e2 : (s.atText rest).LastChar = next rest := rfl
    simp [e2, hr, hr2]
  | cons x ds ih =>
    obtain ⟨n, rfl⟩ : ∃ k, n = k + 2 := ⟨n - 2, by simp at hn; omega⟩
    simp only [List.all_cons, Bool.and_eq_true] at hds
    rw [readNumber]
    try dsimp only
    have e : (s.atText (d :: (x :: ds ++ rest))).LastChar = (d.val : Int) := rfl
    rw [e, hd, toChar_val, readChar_atText]
    simp only [Bool.not_true, Bool.false_eq_true, if_false, skipNonDigits, Bool.and_false]
    have e2 : (s.atText (x :: ds ++ rest)).LastChar = (x.val : Int) := rfl
    simp only [e2, hds.1, Bool.true_or, if_true]
    have := ih (acc ++ [d]) x hds.1 hds.2 (n + 1) (by simp at hn ⊢; omega)
    simpa using this

theorem isalpha_not_isspace {x : Int} (h : isalpha x = true) : isspace x = false := by
  simp [isalpha, isspace] at h ⊢
  omega

theorem isalpha_not_isdigit {x : Int} (h : isalpha x = true) : isdigit x = false := by
  simp [isalpha, isdigit] at h ⊢
  omega

theorem isdigit_not_isspace {x : Int} (h : isdigit x = true) : isspace x = false := by
  simp [isdigit, isspace] at h ⊢
  omega

theorem isdigit_not_isalpha {x : Int} (h : isdigit x = true) : isalpha x = false := by
  simp [isalpha, isdigit] at h ⊢
  omega

theorem delim_not_isalnum {x : Int} (h : delim x = true) : isalnum x = false := by
  simp [delim] at h
  exact h.1

theorem delim_not_isdigit {x : Int} (h : delim x = true) : isdigit x = false := by
  have := delim_not_isalnum h
  simp [isalnum] at this
  exact this.2

theorem delim_ne_dot {x : Int} (h : delim x = true) : x ≠ 46 := by
  simp [delim] at h
  exact h.2

theorem gettok_step_word {n : Nat} {s s1 s2 : State} (h1 : skipSpaces n s = some s1)
    (ha : isalpha s1.LastChar = true)
    (h2 : readIdentifier n { s1 with IdentifierStr := [toChar s1.LastChar] } = some s2) :
    gettok (n + 1) s = some (classify s2.IdentifierStr, s2) := by
  rw [gettok, h1]
  simp only [ha, if_true, h2, classify]
  split <;> [rfl; (split <;> rfl)]

theorem gettok_step_number {n : Nat} {s s1 s2 : State} {str : List Byte}
    (h1 : skipSpaces n s = some s1) (ha : isalpha s1.LastChar = false)
    (hd : (isdigit s1.LastChar || s1.LastChar == 46) = true)
    (h2 : readNumber n [] false s1 = some (str, s2)) :
    gettok (n + 1) s = some (tok_number, { s2 with NumVal := str }) := by
  rw [gettok, h1]
  simp only [ha, Bool.false_eq_true, if_false, hd, if_true, h2]

theorem gettok_step_other {n : Nat} {s s1 : State} (h1 : skipSpaces n s = some s1)
    (ha : isalpha s1.LastChar = false)
    (hd : (isdigit s1.LastChar || s1.LastChar == 46) = false)
    (hc : (s1.LastChar == 35) = false) :
    gettok (n + 1) s = some (gettokTail s1) := by
  rw [gettok, h1]
  simp only [ha, Bool.false_eq_true, if_false, hd, hc]

theorem gettok_word (s : State) (ws : List Byte) (c : Byte) (cs rest : List Byte)
    (hws : blank ws = true) (hc : isalpha (c.val : Int) = true)
    (hcs : cs.all (fun b => isalnum (b.val : Int)) = true)
    (hr : isalnum (next rest) = false) (n : Nat) (hn : ws.length + cs.length + 2 < n) :
    gettok n (s.atText (ws ++ (c :: cs ++ rest))) =
      some (classify (c :: cs), { s with IdentifierStr := c :: cs }.atText rest) := by
  obtain ⟨n, rfl⟩ : ∃ k, n = k + 1 := ⟨n - 1, by omega⟩
  have h1 := skipSpaces_blank s ws (c :: cs ++ rest) hws (isalpha_not_isspace hc) n (by omega)
  have h3 := readIdentifier_run { s with IdentifierStr := [c] } c cs rest hcs hr n (by omega)
  simp only [List.singleton_append] at h3
  have h2 : readIdentifier n { s.atText (c :: cs ++ rest) with
      IdentifierStr := [toChar (s.atText (c :: cs ++ rest)).LastChar] } =
      some ({ s with IdentifierStr := c :: cs }.atText rest) := by
    rw [show toChar (s.atText (c :: cs ++ rest)).LastChar = c from toChar_val c]
    exact h3
  exact gettok_step_word h1 hc h2

theorem gettok_number (s : State) (ws : List Byte) (d : Byte) (ds rest : List Byte)
    (hws : blank ws = true) (hd : isdigit (d.val : Int) = true)
    (hds : ds.all (fun b => isdigit (b.val : Int)) = true)
    (hr : delim (next rest) = true) (n : Nat) (hn : ws.length + ds.length + 2 < n) :
    gettok n (s.atText (ws ++ (d :: ds ++ rest))) =
      some (tok_number, { s with NumVal := d :: ds }.atText rest) := by
  obtain ⟨n, rfl⟩ : ∃ k, n = k + 1 := ⟨n - 1, by omega⟩
  have h1 := skipSpaces_blank s ws (d :: ds ++ rest) hws (isdigit_not_isspace hd) n (by omega)
  have h3 := readNumber_digits s [] d ds rest hd hds (delim_not_isdigit hr) (delim_ne_dot hr) n
    (by omega)
  have hd2 : (isdigit (s.atText (d :: ds ++ rest)).LastChar ||
      (s.atText (d :: ds ++ rest)).LastChar == 46) = true := by
    rw [show (s.atText (d :: ds ++ rest)).LastChar = (d.val : Int) from rfl, hd]; rfl
  exact gettok_step_number h1 (isdigit_not_isalpha hd) hd2 h3

theorem gettok_symbol (s : State) (ws : List Byte) (c : Byte) (rest : List Byte)
    (hws : blank ws = true) (hc : isSymbol c = true) (n : Nat) (hn : ws.length + 1 < n) :
    gettok n (s.atText (ws ++ (c :: rest))) = some ((c.val : Int), s.atText rest) := by
  obtain ⟨n, rfl⟩ : ∃ k, n = k + 1 := ⟨n - 1, by omega⟩
  simp only [isSymbol, Bool.and_eq_true, Bool.not_eq_true', bne_iff_ne, ne_eq] at hc
  obtain ⟨⟨⟨h1, h2⟩, h3⟩, h4⟩ := hc
  simp only [isalnum, Bool.or_eq_false_iff] at h2
  have hs := skipSpaces_blank s ws (c :: rest) hws h1 n (by omega)
  have e : (s.atText (c :: rest)).LastChar = (c.val : Int) := rfl
  have h5 : ((c.val : Int) == EOF) = false := by
    simp only [EOF, beq_eq_false_iff_ne, ne_eq]; omega
  have hg := gettok_step_other hs (by rw [e]; exact h2.1)
    (by rw [e, h2.2]; simpa using h3) (by rw [e]; simpa using h4)
  rw [hg]
  simp only [gettokTail, e, h5, Bool.false_eq_true, if_false, readChar_atText]

theorem gettok_eof (s : State) (ws : List Byte) (hws : blank ws = true) (n : Nat)
    (hn : ws.length + 1 < n) :
    gettok n (s.atText ws) = some (tok_eof, s.atText []) := by
  obtain ⟨n, rfl⟩ : ∃ k, n = k + 1 := ⟨n - 1, by omega⟩
  have h := skipSpaces_blank s ws [] hws rfl n (by omega)
  rw [List.append_nil] at h
  rw [gettok, h]
  rfl

theorem getNextToken_token (s : State) (ws : List Byte) (t : Token) (rest : List Byte)
    (hws : blank ws = true) (ht : t.wf = true) (hb : boundary t rest = true) (n : Nat)
    (hn : ws.length + t.text.length + 2 < n) :
    getNextToken n (s.atText (ws ++ (t.text ++ rest))) = some (lexed t s rest) := by
  cases t with
  | eof => simp [Token.wf] at ht
  | kwDef =>
    have h := gettok_word s ws 100 [101, 102] rest hws (by decide) (by decide)
      (delim_not_isalnum hb) n (by simp [Token.text, bytes] at hn ⊢; omega)
    rw [getNextToken]
    have e : (Token.kwDef).text ++ rest = 100 :: [101, 102] ++ rest := rfl
    rw [e, h]
    rfl
  | kwExtern =>
    have h := gettok_word s ws 101 [120, 116, 101, 114, 110] rest hws (by decide) (by decide)
      (delim_not_isalnum hb) n (by simp [Token.text, bytes] at hn ⊢; omega)
    rw [getNextToken]
    have e : (Token.kwExtern).text ++ rest = 101 :: [120, 116, 101, 114, 110] ++ rest := rfl
    rw [e, h]
    rfl
  | ident w =>
    cases w with
    | nil => simp [Token.wf, isIdentifier] at ht
    | cons c cs =>
      simp only [Token.wf, isIdentifier, Bool.and_eq_true, decide_eq_true_eq] at ht
      obtain ⟨⟨⟨h1, h2⟩, h3⟩, h4⟩ := ht
      have h := gettok_word s ws c cs rest hws h1 h2 (delim_not_isalnum hb) n
        (by simp [Token.text] at hn ⊢; omega)
      rw [getNextToken]
      simp only [Token.text]
      rw [h]
      simp [classify, h3, h4, lexed, State.atText, Token.code, Token.text]
  | number ds =>
    cases ds with
    | nil => simp [Token.wf, isIntLiteral] at ht
    | cons d ds =>
      simp only [Token.wf, isIntLiteral, List.all_cons, Bool.and_eq_true] at ht
      have h := gettok_number s ws d ds rest hws ht.2.1 ht.2.2 hb n
        (by simp [Token.text] at hn ⊢; omega)
      rw [getNextToken]
      simp only [Token.text]
      rw [h]
      rfl
  | sym c =>
    have h := gettok_symbol s ws c rest hws ht n (by simp [Token.text] at hn ⊢; omega)
    rw [getNextToken]
    simp only [Token.text, List.singleton_append]
    rw [h]
    rfl

theorem getNextToken_eof (s : State) (ws : List Byte) (hws : blank ws = true) (n : Nat)
    (hn : ws.length + 1 < n) :
    getNextToken n (s.atText ws) = some (lexed Token.eof s []) := by
  rw [getNextToken, gettok_eof s ws hws n hn]
  rfl

/-! ## Token streams -/

theorem shows_lexed (t : Token) (s : State) (rest : List Byte) : Shows (lexed t s rest) t := by
  cases t <;> exact ⟨rfl, by simp [lexed, Token.text]⟩

theorem feeds_render (items : List (List Byte × Token)) (tail : List Byte)
    (hw : wellSpaced items tail = true) (s : State) :
    Feeds (s.atText (render items tail)) (items.map (fun p => p.2) ++ [Token.eof]) := by
  induction items generalizing s with
  | nil =>
    refine ⟨lexed Token.eof s [], ⟨tail.length + 2, fun n hn => ?_⟩, shows_lexed _ _ _, trivial⟩
    exact getNextToken_eof s tail hw n (by omega)
  | cons p r ih =>
    obtain ⟨ws, t⟩ := p
    simp only [wellSpaced, Bool.and_eq_true] at hw
    obtain ⟨⟨⟨h1, h2⟩, h3⟩, h4⟩ := hw
    refine ⟨lexed t s (render r tail), ⟨ws.length + t.text.length + 3, fun n hn => ?_⟩,
      shows_lexed _ _ _, ?_⟩
    · exact getNextToken_token s ws t (render r tail) h1 h2 h3 n (by omega)
    · exact ih h4 (lexed t s (render r tail))

theorem feeds_init (items : List (List Byte × Token)) (tail : List Byte)
    (hw : wellSpaced items tail = true) :
    Feeds (init (render items tail)) (items.map (fun p => p.2) ++ [Token.eof]) := by
  cases items with
  | nil => exact feeds_render [] (32 :: tail) hw (init [])
  | cons p r =>
    obtain ⟨ws, t⟩ := p
    exact feeds_render ((32 :: ws, t) :: r) tail hw (init [])

theorem onText_returns {α : Type} {parse : Nat → State → Option (Parsed α × State)}
    {text : List Byte} {s : State} {r : Parsed α × State}
    (h1 : Returns (fun n => getNextToken n (init text)) s)
    (h2 : Returns (fun n => parse n s) r) : Returns (fun n => onText parse n text) r := by
  obtain ⟨n1, h1⟩ := h1
  obtain ⟨n2, h2⟩ := h2
  refine ⟨max n1 n2, fun n hn => ?_⟩
  simp only [onText, h1 n (le_trans (le_max_left _ _) hn), h2 n (le_trans (le_max_right _ _) hn)]

/-! ## The parsing functions, one step at a time -/

theorem ParsePrimary_number {s s1 : State} (hs : s.CurTok = tok_number)
    (h1 : Returns (fun n => getNextToken n s) s1) :
    Returns (fun n => ParsePrimary n s) (.ok (.Number s.NumVal), s1) := by
  obtain ⟨n1, h1⟩ := h1
  refine ⟨n1 + 1, fun n hn => ?_⟩
  obtain ⟨m, rfl⟩ : ∃ k, n = k + 1 := ⟨n - 1, by omega⟩
  simp [ParsePrimary, ParseNumberExpr, hs, tok_number, tok_identifier, h1 m (by omega)]

theorem ParsePrimary_variable {s s1 : State} (hs : s.CurTok = tok_identifier)
    (h1 : Returns (fun n => getNextToken n s) s1) (hc : s1.CurTok ≠ 40) :
    Returns (fun n => ParsePrimary n s) (.ok (.Variable s.IdentifierStr), s1) := by
  obtain ⟨n1, h1⟩ := h1
  refine ⟨n1 + 2, fun n hn => ?_⟩
  obtain ⟨m, rfl⟩ : ∃ k, n = k + 2 := ⟨n - 2, by omega⟩
  simp [ParsePrimary, ParseIdentifierExpr, hs, h1 m (by omega), hc]

theorem ParsePrimary_unknown {s : State} (h1 : s.CurTok ≠ tok_identifier)
    (h2 : s.CurTok ≠ tok_number) (h3 : s.CurTok ≠ 40) :
    Returns (fun n => ParsePrimary n s)
      (.error "unknown token when expecting an expression", s) := by
  refine ⟨1, fun n hn => ?_⟩
  obtain ⟨m, rfl⟩ : ∃ k, n = k + 1 := ⟨n - 1, by omega⟩
  simp [ParsePrimary, h1, h2, h3]

theorem ParsePrimary_paren {s s1 s2 s3 : State} {V : ExprAST} (hs : s.CurTok = 40)
    (h1 : Returns (fun n => getNextToken n s) s1)
    (h2 : Returns (fun n => ParseExpression n s1) (.ok V, s2)) (hc : s2.CurTok = 41)
    (h3 : Returns (fun n => getNextToken n s2) s3) :
    Returns (fun n => ParsePrimary n s) (.ok V, s3) := by
  obtain ⟨n1, h1⟩ := h1
  obtain ⟨n2, h2⟩ := h2
  obtain ⟨n3, h3⟩ := h3
  refine ⟨n1 + n2 + n3 + 2, fun n hn => ?_⟩
  obtain ⟨m, rfl⟩ : ∃ k, n = k + 2 := ⟨n - 2, by omega⟩
  simp [ParsePrimary, ParseParenExpr, hs, tok_number, tok_identifier, h1 m (by omega),
    h2 m (by omega), hc, h3 m (by omega)]

theorem ParsePrimary_paren_unclosed {s s1 s2 : State} {V : ExprAST} (hs : s.CurTok = 40)
    (h1 : Returns (fun n => getNextToken n s) s1)
    (h2 : Returns (fun n => ParseExpression n s1) (.ok V, s2)) (hc : s2.CurTok ≠ 41) :
    Returns (fun n => ParsePrimary n s) (.error "expected ')'", s2) := by
  obtain ⟨n1, h1⟩ := h1
  obtain ⟨n2, h2⟩ := h2
  refine ⟨n1 + n2 + 2, fun n hn => ?_⟩
  obtain ⟨m, rfl⟩ : ∃ k, n = k + 2 := ⟨n - 2, by omega⟩
  simp [ParsePrimary, ParseParenExpr, hs, tok_number, tok_identifier, h1 m (by omega),
    h2 m (by omega), hc]

theorem ParseArgs_last {s s1 : State} {Args : List ExprAST} {A : ExprAST}
    (h1 : Returns (fun n => ParseExpression n s) (.ok A, s1)) (hc : s1.CurTok = 41) :
    Returns (fun n => ParseArgs n Args s) (.ok (Args ++ [A]), s1) := by
  obtain ⟨n1, h1⟩ := h1
  refine ⟨n1 + 1, fun n hn => ?_⟩
  obtain ⟨m, rfl⟩ : ∃ k, n = k + 1 := ⟨n - 1, by omega⟩
  simp [ParseArgs, h1 m (by omega), hc]

theorem ParseArgs_more {s s1 s2 : State} {a : List ExprAST} {A : ExprAST}
    {r : Parsed (List ExprAST) × State}
    (h1 : Returns (fun n => ParseExpression n s) (.ok A, s1)) (hc : s1.CurTok = 44)
    (h2 : Returns (fun n => getNextToken n s1) s2)
    (h3 : Returns (fun n => ParseArgs n (a ++ [A]) s2) r) :
    Returns (fun n => ParseArgs n a s) r := by
  obtain ⟨n1, h1⟩ := h1
  obtain ⟨n2, h2⟩ := h2
  obtain ⟨n3, h3⟩ := h3
  refine ⟨n1 + n2 + n3 + 1, fun n hn => ?_⟩
  obtain ⟨m, rfl⟩ : ∃ k, n = k + 1 := ⟨n - 1, by omega⟩
  simp [ParseArgs, h1 m (by omega), hc, h2 m (by omega), h3 m (by omega)]

theorem ParseArgs_error {s s1 : State} {Args : List ExprAST} {e : String}
    (h1 : Returns (fun n => ParseExpression n s) (.error e, s1)) :
    Returns (fun n => ParseArgs n Args s) (.error e, s1) := by
  obtain ⟨n1, h1⟩ := h1
  refine ⟨n1 + 1, fun n hn => ?_⟩
  obtain ⟨m, rfl⟩ : ∃ k, n = k + 1 := ⟨n - 1, by omega⟩
  simp [ParseArgs, h1 m (by omega)]

theorem ParseIdentifierExpr_call {s s1 s2 s3 s4 : State} {Args : List ExprAST}
    (h1 : Returns (fun n => getNextToken n s) s1) (hc : s1.CurTok = 40)
    (h2 : Returns (fun n => getNextToken n s1) s2) (hd : s2.CurTok ≠ 41)
    (h3 : Returns (fun n => ParseArgs n [] s2) (.ok Args, s3))
    (h4 : Returns (fun n => getNextToken n s3) s4) :
    Returns (fun n => ParseIdentifierExpr n s) (.ok (.Call s.IdentifierStr Args), s4) := by
  obtain ⟨n1, h1⟩ := h1
  obtain ⟨n2, h2⟩ := h2
  obtain ⟨n3, h3⟩ := h3
  obtain ⟨n4, h4⟩ := h4
  refine ⟨n1 + n2 + n3 + n4 + 1, fun n hn => ?_⟩
  obtain ⟨m, rfl⟩ : ∃ k, n = k + 1 := ⟨n - 1, by omega⟩
  simp [ParseIdentifierExpr, h1 m (by omega), hc, h2 m (by omega), hd, h3 m (by omega),
    h4 m (by omega)]

theorem ParseIdentifierExpr_call_error {s s1 s2 s3 : State} {e : String}
    (h1 : Returns (fun n => getNextToken n s) s1) (hc : s1.CurTok = 40)
    (h2 : Returns (fun n => getNextToken n s1) s2) (hd : s2.CurTok ≠ 41)
    (h3 : Returns (fun n => ParseArgs n [] s2) (.error e, s3)) :
    Returns (fun n => ParseIdentifierExpr n s) (.error e, s3) := by
  obtain ⟨n1, h1⟩ := h1
  obtain ⟨n2, h2⟩ := h2
  obtain ⟨n3, h3⟩ := h3
  refine ⟨n1 + n2 + n3 + 1, fun n hn => ?_⟩
  obtain ⟨m, rfl⟩ : ∃ k, n = k + 1 := ⟨n - 1, by omega⟩
  simp [ParseIdentifierExpr, h1 m (by omega), hc, h2 m (by omega), hd, h3 m (by omega)]

theorem ParseIdentifierExpr_call_empty {s s1 s2 s4 : State}
    (h1 : Returns (fun n => getNextToken n s) s1) (hc : s1.CurTok = 40)
    (h2 : Returns (fun n => getNextToken n s1) s2) (hd : s2.CurTok = 41)
    (h4 : Returns (fun n => getNextToken n s2) s4) :
    Returns (fun n => ParseIdentifierExpr n s) (.ok (.Call s.IdentifierStr []), s4) := by
  obtain ⟨n1, h1⟩ := h1
  obtain ⟨n2, h2⟩ := h2
  obtain ⟨n4, h4⟩ := h4
  refine ⟨n1 + n2 + n4 + 1, fun n hn => ?_⟩
  obtain ⟨m, rfl⟩ : ∃ k, n = k + 1 := ⟨n - 1, by omega⟩
  simp [ParseIdentifierExpr, h1 m (by omega), hc, h2 m (by omega), hd, h4 m (by omega)]

theorem ParsePrimary_identifier {s : State} {r : Parsed ExprAST × State}
    (hs : s.CurTok = tok_identifier) (h : Returns (fun n => ParseIdentifierExpr n s) r) :
    Returns (fun n => ParsePrimary n s) r := by
  obtain ⟨n1, h1⟩ := h
  refine ⟨n1 + 1, fun n hn => ?_⟩
  obtain ⟨m, rfl⟩ : ∃ k, n = k + 1 := ⟨n - 1, by omega⟩
  simp [ParsePrimary, hs, h1 m (by omega)]

theorem ParseBinOpRHS_stop {s : State} {p : Int} {L : ExprAST}
    (h : GetTokPrecendence s < p) :
    Returns (fun n => ParseBinOpRHS n p L s) (.ok L, s) := by
  refine ⟨1, fun n hn => ?_⟩
  obtain ⟨m, rfl⟩ : ∃ k, n = k + 1 := ⟨n - 1, by omega⟩
  simp [ParseBinOpRHS, h]

theorem ParseBinOpRHS_step {s s1 s2 : State} {p : Int} {L R : ExprAST}
    {r : Parsed ExprAST × State} (hp : p ≤ GetTokPrecendence s)
    (h1 : Returns (fun n => getNextToken n s) s1)
    (h2 : Returns (fun n => ParsePrimary n s1) (.ok R, s2))
    (hq : GetTokPrecendence s2 ≤ GetTokPrecendence s)
    (h3 : Returns (fun n => ParseBinOpRHS n p (.Binary s.CurTok L R) s2) r) :
    Returns (fun n => ParseBinOpRHS n p L s) r := by
  obtain ⟨n1, h1⟩ := h1
  obtain ⟨n2, h2⟩ := h2
  obtain ⟨n3, h3⟩ := h3
  refine ⟨n1 + n2 + n3 + 1, fun n hn => ?_⟩
  obtain ⟨m, rfl⟩ : ∃ k, n = k + 1 := ⟨n - 1, by omega⟩
  simp [ParseBinOpRHS, not_lt.mpr hp, h1 m (by omega), h2 m (by omega), not_lt.mpr hq,
    h3 m (by omega)]

theorem ParseBinOpRHS_climb {s s1 s2 s3 : State} {p : Int} {L R R1 : ExprAST}
    {r : Parsed ExprAST × State} (hp : p ≤ GetTokPrecendence s)
    (h1 : Returns (fun n => getNextToken n s) s1)
    (h2 : Returns (fun n => ParsePrimary n s1) (.ok R, s2))
    (hq : GetTokPrecendence s < GetTokPrecendence s2)
    (h3 : Returns (fun n => ParseBinOpRHS n (GetTokPrecendence s + 1) R s2) (.ok R1, s3))
    (h4 : Returns (fun n => ParseBinOpRHS n p (.Binary s.CurTok L R1) s3) r) :
    Returns (fun n => ParseBinOpRHS n p L s) r := by
  obtain ⟨n1, h1⟩ := h1
  obtain ⟨n2, h2⟩ := h2
  obtain ⟨n3, h3⟩ := h3
  obtain ⟨n4, h4⟩ := h4
  refine ⟨n1 + n2 + n3 + n4 + 1, fun n hn => ?_⟩
  obtain ⟨m, rfl⟩ : ∃ k, n = k + 1 := ⟨n - 1, by omega⟩
  simp [ParseBinOpRHS, not_lt.mpr hp, h1 m (by omega), h2 m (by omega), hq,
    h3 m (by omega), h4 m (by omega)]

theorem ParseBinOpRHS_error {s s1 s2 : State} {p : Int} {L : ExprAST} {e : String}
    (hp : p ≤ GetTokPrecendence s)
    (h1 : Returns (fun n => getNextToken n s) s1)
    (h2 : Returns (fun n => ParsePrimary n s1) (.error e, s2)) :
    Returns (fun n => ParseBinOpRHS n p L s) (.error e, s2) := by
  obtain ⟨n1, h1⟩ := h1
  obtain ⟨n2, h2⟩ := h2
  refine ⟨n1 + n2 + 1, fun n hn => ?_⟩
  obtain ⟨m, rfl⟩ : ∃ k, n = k + 1 := ⟨n - 1, by omega⟩
  simp [ParseBinOpRHS, not_lt.mpr hp, h1 m (by omega), h2 m (by omega)]

theorem ParseExpression_of {s s1 : State} {L : ExprAST} {r : Parsed ExprAST × State}
    (h1 : Returns (fun n => ParsePrimary n s) (.ok L, s1))
    (h2 : Returns (fun n => ParseBinOpRHS n 0 L s1) r) :
    Returns (fun n => ParseExpression n s) r := by
  obtain ⟨n1, h1⟩ := h1
  obtain ⟨n2, h2⟩ := h2
  refine ⟨n1 + n2 + 1, fun n hn => ?_⟩
  obtain ⟨m, rfl⟩ : ∃ k, n = k + 1 := ⟨n - 1, by omega⟩
  simp [ParseExpression, h1 m (by omega), h2 m (by omega)]

theorem ParseExpression_error {s s1 : State} {e : String}
    (h1 : Returns (fun n => ParsePrimary n s) (.error e, s1)) :
    Returns (fun n => ParseExpression n s) (.error e, s1) := by
  obtain ⟨n1, h1⟩ := h1
  refine ⟨n1 + 1, fun n hn => ?_⟩
  obtain ⟨m, rfl⟩ : ∃ k, n = k + 1 := ⟨n - 1, by omega⟩
  simp [ParseExpression, h1 m (by omega)]

/-! ## Operands and operators -/

theorem binop_cases {x : Int} (h : 0 < BinopPrecendence x) :
    x = 60 ∨ x = 43 ∨ x = 45 ∨ x = 42 ∨ x = 47 := by
  unfold BinopPrecendence at h
  simp only [beq_iff_eq] at h
  by_cases h1 : x = 60; · exact Or.inl h1
  by_cases h2 : x = 43; · exact Or.inr (Or.inl h2)
  by_cases h3 : x = 45; · exact Or.inr (Or.inr (Or.inl h3))
  by_cases h4 : x = 42; · exact Or.inr (Or.inr (Or.inr (Or.inl h4)))
  by_cases h5 : x = 47; · exact Or.inr (Or.inr (Or.inr (Or.inr h5)))
  simp [h1, h2, h3, h4, h5] at h

theorem prec_binop {s : State} {o : Byte} (hs : Shows s (.sym o)) (ho : isBinop o = true) :
    GetTokPrecendence s = BinopPrecendence (o.val : Int) := by
  have hc : s.CurTok = (o.val : Int) := hs.1
  simp only [isBinop, decide_eq_true_eq] at ho
  rcases binop_cases ho with h | h | h | h | h <;>
    simp [GetTokPrecendence, hc, h, isascii, BinopPrecendence]

theorem prec_eof {s : State} (hs : Shows s .eof) : GetTokPrecendence s = -1 := by
  have hc : s.CurTok = tok_eof := hs.1
  simp [GetTokPrecendence, hc, tok_eof, isascii]

theorem prec_sym_other {s : State} {c : Byte} (hs : Shows s (.sym c)) (hc : isBinop c = false) :
    GetTokPrecendence s = -1 := by
  have e : s.CurTok = (c.val : Int) := hs.1
  simp only [isBinop, decide_eq_false_iff_not, not_lt] at hc
  simp only [GetTokPrecendence, e]
  split
  · rfl
  · simp [hc]

theorem binop_pos {o : Byte} (ho : isBinop o = true) : 0 < BinopPrecendence (o.val : Int) := by
  simpa [isBinop] using ho

theorem isSymbol_of_isBinop {o : Byte} (ho : isBinop o = true) : isSymbol o = true := by
  rcases binop_cases (binop_pos ho) with h | h | h | h | h <;>
    simp [isSymbol, h, isspace, isalnum, isalpha, isdigit]

theorem binop_ne_paren {o : Byte} (ho : isBinop o = true) : (Token.sym o).code ≠ 40 := by
  rcases binop_cases (binop_pos ho) with h | h | h | h | h <;> simp [Token.code, h]

theorem ParsePrimary_operand {s : State} (a : Operand) (t : Token) (ts : List Token)
    (hs : Reads s (a.token :: t :: ts)) (ht : t.code ≠ 40) :
    ∃ s1, Returns (fun n => ParsePrimary n s) (.ok a.ast, s1) ∧ Reads s1 (t :: ts) := by
  obtain ⟨hsh, s1, h1, h2, h3⟩ := hs
  refine ⟨s1, ?_, h2, h3⟩
  cases a with
  | lit ds =>
    have e : s.NumVal = ds := hsh.2
    have := ParsePrimary_number hsh.1 h1
    rwa [e] at this
  | var w =>
    have e : s.IdentifierStr = w := hsh.2
    have := ParsePrimary_variable hsh.1 h1 (by rw [h2.1]; exact ht)
    rwa [e] at this

/-- A run of operators of one precedence `p`, read with a threshold that `p`
reaches, folds into the left-nested tree. -/
theorem ParseBinOpRHS_chain (p ExprPrec : Int) (hp : ExprPrec ≤ p) (e : Token)
    (ts : List Token) (he : ∀ s, Shows s e → GetTokPrecendence s < ExprPrec)
    (he2 : e.code ≠ 40) (pairs : List (Byte × Operand))
    (hops : ∀ x ∈ pairs, isBinop x.1 = true ∧ BinopPrecendence (x.1.val : Int) = p)
    (L : ExprAST) (s : State) (hs : Reads s (chainTokens pairs ++ e :: ts)) :
    ∃ s1, Returns (fun n => ParseBinOpRHS n ExprPrec L s) (.ok (leftNested L pairs), s1) ∧
      Reads s1 (e :: ts) := by
  induction pairs generalizing L s with
  | nil => exact ⟨s, ParseBinOpRHS_stop (he s hs.1), hs⟩
  | cons x r ih =>
    obtain ⟨o, a⟩ := x
    have ho := hops (o, a) (List.mem_cons_self _ _)
    obtain ⟨hsh, s1, h1, h2, h3⟩ := hs
    have hprec : GetTokPrecendence s = p := by rw [prec_binop hsh ho.1]; exact ho.2
    have hnext : ∃ t ts1, chainTokens r ++ e :: ts = t :: ts1 ∧ t.code ≠ 40 ∧
        ∀ s, Shows s t → GetTokPrecendence s ≤ p := by
      cases r with
      | nil => exact ⟨e, ts, rfl, he2, fun s hs => le_of_lt (lt_of_lt_of_le (he s hs) hp)⟩
      | cons y r1 =>
        have hy := hops y (List.mem_cons_of_mem _ (List.mem_cons_self _ _))
        exact ⟨.sym y.1, _, rfl, binop_ne_paren hy.1,
          fun s hs => by rw [prec_binop hs hy.1, hy.2]⟩
    obtain ⟨t, ts1, et, ht, hle⟩ := hnext
    have hr : Reads s1 (a.token :: t :: ts1) := by
      refine ⟨h2, ?_⟩
      have : Feeds s1 (chainTokens r ++ e :: ts) := h3
      rwa [et] at this
    obtain ⟨s2, hp2, hr2⟩ := ParsePrimary_operand a t ts1 hr ht
    have hr2' : Reads s2 (chainTokens r ++ e :: ts) := by rw [et]; exact hr2
    obtain ⟨s3, h4, h5⟩ := ih (fun y hy => hops y (List.mem_cons_of_mem _ hy))
      (.Binary s.CurTok L a.ast) s2 hr2'
    refine ⟨s3, ?_, h5⟩
    have hcur : s.CurTok = (o.val : Int) := hsh.1
    rw [hcur] at h4
    have := ParseBinOpRHS_step (L := L) (p := ExprPrec) (by rw [hprec]; exact hp) h1 hp2
      (by rw [hprec]; exact hle s2 hr2.1) (by rw [hcur]; exact h4)
    exact this

/-! ## Texts of expressions -/

theorem delim_of_isspace {x : Int} (h : isspace x = true) : delim x = true := by
  simp [isspace] at h
  simp [delim, isalnum, isalpha, isdigit]
  omega

theorem delim_next_blank {ws : List Byte} (h : blank ws = true) : delim (next ws) = true := by
  cases ws with
  | nil => decide
  | cons b r =>
    simp only [blank, List.all_cons, Bool.and_eq_true] at h
    exact delim_of_isspace h.1

theorem delim_of_isSymbol {c : Byte} (h : isSymbol c = true) : delim (c.val : Int) = true := by
  simp only [isSymbol, Bool.and_eq_true, Bool.not_eq_true', bne_iff_ne, ne_eq] at h
  simp [delim, h.1.1.2, h.1.2]

theorem delim_next_append {ws rest : List Byte} (h : blank ws = true)
    (hr : delim (next rest) = true) : delim (next (ws ++ rest)) = true := by
  cases ws with
  | nil => exact hr
  | cons b r =>
    simp only [blank, List.all_cons, Bool.and_eq_true] at h
    exact delim_of_isspace h.1

theorem boundary_of_delim (t : Token) {rest : List Byte} (h : delim (next rest) = true) :
    boundary t rest = true := by
  cases t <;> simp [boundary, h]

theorem boundary_sym (c : Byte) (rest : List Byte) : boundary (.sym c) rest = true := rfl

theorem boundary_sym_next (t : Token) (ws : List Byte) (c : Byte)
    (r : List (List Byte × Token)) (tail : List Byte) (hws : blank ws = true)
    (hc : isSymbol c = true) : boundary t (render ((ws, .sym c) :: r) tail) = true :=
  boundary_of_delim t (delim_next_append hws (delim_of_isSymbol hc))

theorem boundary_tail (t : Token) (tail : List Byte) (h : blank tail = true) :
    boundary t (render [] tail) = true :=
  boundary_of_delim t (delim_next_blank h)

theorem render_linksItems (links : List Link) (tail : List Byte) :
    render (linksItems links) tail = linksText links ++ tail := by
  induction links with
  | nil => rfl
  | cons l r ih => simp [linksItems, render, linksText, ih, Operand.text, Token.text]

theorem linksItems_tokens (links : List Link) :
    (linksItems links).map (fun p => p.2) = chainTokens (links.map Link.pair) := by
  induction links with
  | nil => rfl
  | cons l r ih => simp [linksItems, chainTokens, ih, Link.pair]

theorem wellSpaced_links (links : List Link) (tail : List Byte)
    (hl : ∀ l ∈ links, l.wf = true) (ht : blank tail = true) :
    wellSpaced (linksItems links) tail = true ∧
      ∀ t, boundary t (render (linksItems links) tail) = true := by
  induction links with
  | nil => exact ⟨ht, fun t => boundary_tail t tail ht⟩
  | cons l r ih =>
    have hw := hl l (List.mem_cons_self _ _)
    simp only [Link.wf, Bool.and_eq_true] at hw
    obtain ⟨⟨⟨h1, h2⟩, h3⟩, h4⟩ := hw
    obtain ⟨ih1, ih2⟩ := ih (fun x hx => hl x (List.mem_cons_of_mem _ hx))
    have hsym := isSymbol_of_isBinop h3
    refine ⟨?_, fun t => boundary_sym_next t _ _ _ _ h1 hsym⟩
    simp only [linksItems, wellSpaced, Bool.and_eq_true]
    exact ⟨⟨⟨h1, hsym⟩, rfl⟩, ⟨⟨h2, h4⟩, ih2 _⟩, ih1⟩

theorem feeds_chain (w0 : List Byte) (a0 : Operand) (links : List Link) (tail : List Byte)
    (hw0 : blank w0 = true) (ha0 : a0.wf = true) (hl : ∀ l ∈ links, l.wf = true)
    (ht : blank tail = true) :
    Feeds (init (w0 ++ chainText a0 links ++ tail))
      (a0.token :: chainTokens (links.map Link.pair) ++ [Token.eof]) := by
  obtain ⟨h1, h2⟩ := wellSpaced_links links tail hl ht
  have hw : wellSpaced ((w0, a0.token) :: linksItems links) tail = true := by
    simp only [wellSpaced, Bool.and_eq_true]
    exact ⟨⟨⟨hw0, ha0⟩, h2 _⟩, h1⟩
  have := feeds_init _ _ hw
  simpa [render, render_linksItems, linksItems_tokens, chainText, Operand.text] using this

theorem ParseExpression_chain (p : Int) (hp : 0 ≤ p) (e : Token) (ts : List Token)
    (he : ∀ s, Shows s e → GetTokPrecendence s < 0) (he2 : e.code ≠ 40) (a0 : Operand)
    (pairs : List (Byte × Operand))
    (hops : ∀ x ∈ pairs, isBinop x.1 = true ∧ BinopPrecendence (x.1.val : Int) = p)
    (s : State) (hs : Reads s (a0.token :: chainTokens pairs ++ e :: ts)) :
    ∃ s1, Returns (fun n => ParseExpression n s) (.ok (leftNested a0.ast pairs), s1) ∧
      Reads s1 (e :: ts) := by
  have hnext : ∃ t ts1, chainTokens pairs ++ e :: ts = t :: ts1 ∧ t.code ≠ 40 := by
    cases pairs with
    | nil => exact ⟨e, ts, rfl, he2⟩
    | cons y r => exact ⟨.sym y.1, _, rfl, binop_ne_paren (hops y (List.mem_cons_self _ _)).1⟩
  obtain ⟨t, ts1, et, ht⟩ := hnext
  have hs' : Reads s (a0.token :: t :: ts1) := by
    have : Reads s (a0.token :: (chainTokens pairs ++ e :: ts)) := hs
    rwa [et] at this
  obtain ⟨s1, h1, h2⟩ := ParsePrimary_operand a0 t ts1 hs' ht
  rw [← et] at h2
  obtain ⟨s2, h3, h4⟩ := ParseBinOpRHS_chain p 0 hp e ts he he2 pairs hops a0.ast s1 h2
  exact ⟨s2, ParseExpression_of h1 h3, h4⟩

theorem ParseExpression_climb (a b c : Operand) (o1 o2 : Byte) (h1 : isBinop o1 = true)
    (hlt : BinopPrecendence (o1.val : Int) < BinopPrecendence (o2.val : Int)) (s : State)
    (hs : Reads s [a.token, .sym o1, b.token, .sym o2, c.token, .eof]) :
    ∃ s1, Returns (fun n => ParseExpression n s)
        (.ok (.Binary (o1.val : Int) a.ast (.Binary (o2.val : Int) b.ast c.ast)), s1) ∧
      Reads s1 [.eof] := by
  have h2 : isBinop o2 = true := by
    simp only [isBinop, decide_eq_true_eq]
    exact lt_trans (binop_pos h1) hlt
  obtain ⟨s1, hp1, hr1⟩ := ParsePrimary_operand a (.sym o1) _ hs (binop_ne_paren h1)
  obtain ⟨hsh1, s2, hn2, hsh2, hf2⟩ := hr1
  obtain ⟨s3, hp3, hr3⟩ := ParsePrimary_operand b (.sym o2) _ ⟨hsh2, hf2⟩ (binop_ne_paren h2)
  have e1 : GetTokPrecendence s1 = BinopPrecendence (o1.val : Int) := prec_binop hsh1 h1
  have e3 : GetTokPrecendence s3 = BinopPrecendence (o2.val : Int) := prec_binop hr3.1 h2
  obtain ⟨s5, hc5, hr5⟩ := ParseBinOpRHS_chain (BinopPrecendence (o2.val : Int))
    (GetTokPrecendence s1 + 1) (by rw [e1]; omega) .eof []
    (fun s hs => by rw [prec_eof hs, e1]; have := binop_pos h1; omega) (by decide)
    [(o2, c)] (fun x hx => by simp at hx; subst hx; exact ⟨h2, rfl⟩) b.ast s3 hr3
  have hstop : Returns (fun n => ParseBinOpRHS n 0
      (.Binary s1.CurTok a.ast (leftNested b.ast [(o2, c)])) s5)
      (.ok (.Binary s1.CurTok a.ast (leftNested b.ast [(o2, c)])), s5) :=
    ParseBinOpRHS_stop (by rw [prec_eof hr5.1]; decide)
  have hclimb := ParseBinOpRHS_climb (L := a.ast) (p := 0)
    (by rw [e1]; exact le_of_lt (binop_pos h1)) hn2 hp3 (by rw [e1, e3]; exact hlt) hc5 hstop
  have hcur : s1.CurTok = (o1.val : Int) := hsh1.1
  rw [hcur] at hclimb
  exact ⟨s5, ParseExpression_of hp1 hclimb, hr5⟩

theorem cur_eof {s : State} {ts : List Token} (h : Reads s (.eof :: ts)) :
    s.CurTok = tok_eof := h.1.1

theorem prec_close_paren {s : State} (hs : Shows s (.sym 41)) : GetTokPrecendence s < 0 := by
  rw [prec_sym_other hs (by decide)]; decide

theorem ParseExpression_paren_left (a b c : Operand) (o1 o2 : Byte) (h1 : isBinop o1 = true)
    (h2 : isBinop o2 = true) (s : State)
    (hs : Reads s [.sym 40, a.token, .sym o1, b.token, .sym 41, .sym o2, c.token, .eof]) :
    ∃ s1, Returns (fun n => ParseExpression n s)
        (.ok (.Binary (o2.val : Int) (.Binary (o1.val : Int) a.ast b.ast) c.ast), s1) ∧
      Reads s1 [.eof] := by
  obtain ⟨hsh, s1, hn1, hsh1, hf1⟩ := hs
  obtain ⟨s2, hr2, hsh2, hf2⟩ := ParseExpression_chain (BinopPrecendence (o1.val : Int))
    (le_of_lt (binop_pos h1)) (.sym 41) [.sym o2, c.token, .eof]
    (fun s hs => prec_close_paren hs) (by decide) a [(o1, b)]
    (fun x hx => by simp at hx; subst hx; exact ⟨h1, rfl⟩) s1 ⟨hsh1, hf1⟩
  obtain ⟨s3, hn3, hsh3, hf3⟩ := hf2
  have hprim := ParsePrimary_paren hsh.1 hn1 hr2 hsh2.1 hn3
  obtain ⟨s4, hr4, hrd4⟩ := ParseBinOpRHS_chain (BinopPrecendence (o2.val : Int)) 0
    (le_of_lt (binop_pos h2)) .eof [] (fun s hs => by rw [prec_eof hs]; decide) (by decide)
    [(o2, c)] (fun x hx => by simp at hx; subst hx; exact ⟨h2, rfl⟩)
    (leftNested a.ast [(o1, b)]) s3 ⟨hsh3, hf3⟩
  exact ⟨s4, ParseExpression_of hprim hr4, hrd4⟩

theorem ParseExpression_paren_right (a b c : Operand) (o1 o2 : Byte) (h1 : isBinop o1 = true)
    (h2 : isBinop o2 = true) (s : State)
    (hs : Reads s [a.token, .sym o1, .sym 40, b.token, .sym o2, c.token, .sym 41, .eof]) :
    ∃ s1, Returns (fun n => ParseExpression n s)
        (.ok (.Binary (o1.val : Int) a.ast (.Binary (o2.val : Int) b.ast c.ast)), s1) ∧
      Reads s1 [.eof] := by
  obtain ⟨s1, hp1, hr1⟩ := ParsePrimary_operand a (.sym o1) _ hs (binop_ne_paren h1)
  obtain ⟨hsh1, s2, hn2, hsh2, hf2⟩ := hr1
  obtain ⟨s3, hn3, hsh3, hf3⟩ := hf2
  obtain ⟨s4, hr4, hsh4, hf4⟩ := ParseExpression_chain (BinopPrecendence (o2.val : Int))
    (le_of_lt (binop_pos h2)) (.sym 41) [.eof]
    (fun s hs => prec_close_paren hs) (by decide) b [(o2, c)]
    (fun x hx => by simp at hx; subst hx; exact ⟨h2, rfl⟩) s3 ⟨hsh3, hf3⟩
  obtain ⟨s5, hn5, hsh5, -⟩ := hf4
  have hprim := ParsePrimary_paren hsh2.1 hn3 hr4 hsh4.1 hn5
  have e1 : GetTokPrecendence s1 = BinopPrecendence (o1.val : Int) := prec_binop hsh1 h1
  have hstop : Returns (fun n => ParseBinOpRHS n 0
      (.Binary s1.CurTok a.ast (leftNested b.ast [(o2, c)])) s5)
      (.ok (.Binary s1.CurTok a.ast (leftNested b.ast [(o2, c)])), s5) :=
    ParseBinOpRHS_stop (by rw [prec_eof hsh5]; decide)
  have hstep := ParseBinOpRHS_step (L := a.ast) (p := 0)
    (by rw [e1]; exact le_of_lt (binop_pos h1)) hn2 hprim
    (by rw [e1, prec_eof hsh5]; have := binop_pos h1; omega) hstop
  have hcur : s1.CurTok = (o1.val : Int) := hsh1.1
  rw [hcur] at hstep
  exact ⟨s5, ParseExpression_of hp1 hstep, ⟨hsh5, trivial⟩⟩

/-! ## Argument lists -/

theorem prec_comma {s : State} (hs : Shows s (.sym 44)) : GetTokPrecendence s < 0 := by
  rw [prec_sym_other hs (by decide)]; decide

theorem ParseExpression_operand (a : Operand) (e : Token) (ts : List Token)
    (he : ∀ s, Shows s e → GetTokPrecendence s < 0) (he2 : e.code ≠ 40) (s : State)
    (hs : Reads s (a.token :: e :: ts)) :
    ∃ s1, Returns (fun n => ParseExpression n s) (.ok a.ast, s1) ∧ Reads s1 (e :: ts) :=
  ParseExpression_chain 0 (le_refl _) e ts he he2 a [] (fun _ h => by simp at h) s hs

theorem ParseArgs_list (r : List Operand) (x : Operand) (acc : List ExprAST) (ts : List Token)
    (s : State) (hs : Reads s (x.token :: moreTokens r ++ .sym 41 :: ts)) :
    ∃ s1, Returns (fun n => ParseArgs n acc s) (.ok (acc ++ (x :: r).map Operand.ast), s1) ∧
      Reads s1 (.sym 41 :: ts) := by
  induction r generalizing x acc s with
  | nil =>
    obtain ⟨s1, h1, h2⟩ := ParseExpression_operand x (.sym 41) ts
      (fun s hs => prec_close_paren hs) (by decide) s hs
    exact ⟨s1, ParseArgs_last h1 h2.1.1, h2⟩
  | cons y r ih =>
    obtain ⟨s1, h1, h2, s2, h3, h4, h5⟩ := ParseExpression_operand x (.sym 44)
      (y.token :: moreTokens r ++ .sym 41 :: ts) (fun s hs => prec_comma hs) (by decide) s hs
    obtain ⟨s3, h6, h7⟩ := ih y (acc ++ [x.ast]) s2 ⟨h4, h5⟩
    refine ⟨s3, ?_, h7⟩
    have := ParseArgs_more (a := acc) h1 h2.1 h3 h6
    simpa using this

theorem ParseArgs_trailing (r : List Operand) (x : Operand) (acc : List ExprAST)
    (ts : List Token) (s : State)
    (hs : Reads s (x.token :: moreTokens r ++ .sym 44 :: .sym 41 :: ts)) :
    ∃ s1, Returns (fun n => ParseArgs n acc s)
        (.error "unknown token when expecting an expression", s1) ∧
      Reads s1 (.sym 41 :: ts) := by
  induction r generalizing x acc s with
  | nil =>
    obtain ⟨s1, h1, h2, s2, h3, h4, h5⟩ := ParseExpression_operand x (.sym 44)
      (.sym 41 :: ts) (fun s hs => prec_comma hs) (by decide) s hs
    have hc : s2.CurTok = 41 := h4.1
    have hu := ParsePrimary_unknown (s := s2) (by rw [hc]; decide) (by rw [hc]; decide)
      (by rw [hc]; decide)
    exact ⟨s2, ParseArgs_more (a := acc) h1 h2.1 h3 (ParseArgs_error (ParseExpression_error hu)),
      h4, h5⟩
  | cons y r ih =>
    obtain ⟨s1, h1, h2, s2, h3, h4, h5⟩ := ParseExpression_operand x (.sym 44)
      (y.token :: moreTokens r ++ .sym 44 :: .sym 41 :: ts) (fun s hs => prec_comma hs)
      (by decide) s hs
    obtain ⟨s3, h6, h7⟩ := ih y (acc ++ [x.ast]) s2 ⟨h4, h5⟩
    exact ⟨s3, ParseArgs_more (a := acc) h1 h2.1 h3 h6, h7⟩

theorem render_moreItems (r : List (List Byte × Operand)) (rest : List (List Byte × Token))
    (tail : List Byte) :
    render (moreItems r ++ rest) tail = moreText r ++ render rest tail := by
  induction r with
  | nil => rfl
  | cons y r ih => simp [moreItems, render, moreText, ih, Operand.text, Token.text]

theorem moreItems_tokens (r : List (List Byte × Operand)) :
    (moreItems r).map (fun p => p.2) = moreTokens (r.map (fun x => x.2)) := by
  induction r with
  | nil => rfl
  | cons y r ih => simp [moreItems, moreTokens, ih]

theorem wellSpaced_more (r : List (List Byte × Operand)) (w : List Byte) (c : Byte)
    (rest : List (List Byte × Token)) (tail : List Byte)
    (hr : ∀ y ∈ r, blank y.1 = true ∧ y.2.wf = true) (hw : blank w = true)
    (hc : isSymbol c = true) (hrest : wellSpaced ((w, .sym c) :: rest) tail = true) :
    wellSpaced (moreItems r ++ (w, .sym c) :: rest) tail = true ∧
      ∀ t, boundary t (render (moreItems r ++ (w, .sym c) :: rest) tail) = true := by
  induction r with
  | nil => exact ⟨hrest, fun t => boundary_sym_next t w c rest tail hw hc⟩
  | cons y r ih =>
    obtain ⟨ih1, ih2⟩ := ih (fun z hz => hr z (List.mem_cons_of_mem _ hz))
    obtain ⟨hy1, hy2⟩ := hr y (List.mem_cons_self _ _)
    have hcomma : isSymbol 44 = true := by decide
    refine ⟨?_, fun t => boundary_sym_next t [] 44 _ tail rfl hcomma⟩
    simp only [moreItems, List.cons_append, wellSpaced, Bool.and_eq_true]
    exact ⟨⟨⟨rfl, hcomma⟩, rfl⟩, ⟨⟨hy1, hy2⟩, ih2 _⟩, ih1⟩

/-- The tokens `f ( x1 , ... , xn closing` are what the lexer returns on the
text of a call whose argument list is closed by the symbols `closing`. -/
theorem feeds_call (f : List Byte) (args : List (List Byte × Operand))
    (w0 w1 w2 : List Byte) (c : Byte) (rest : List (List Byte × Token)) (tail : List Byte)
    (hf : isIdentifier f = true) (hargs : ∀ y ∈ args, blank y.1 = true ∧ y.2.wf = true)
    (hw0 : blank w0 = true) (hw1 : blank w1 = true) (hw2 : blank w2 = true)
    (hc : isSymbol c = true) (hrest : wellSpaced ((w2, .sym c) :: rest) tail = true) :
    Feeds (init (w0 ++ f ++ w1 ++ [40] ++ argsText args ++ render ((w2, .sym c) :: rest) tail))
      (.ident f :: .sym 40 :: (argsItems args ++ (w2, .sym c) :: rest).map (fun p => p.2)
        ++ [Token.eof]) := by
  have hopen : isSymbol 40 = true := by decide
  have hwell : wellSpaced ((w0, .ident f) :: (w1, .sym 40) ::
      (argsItems args ++ (w2, .sym c) :: rest)) tail = true := by
    simp only [wellSpaced, Bool.and_eq_true]
    refine ⟨⟨⟨hw0, hf⟩, boundary_sym_next _ w1 40 _ tail hw1 hopen⟩, ⟨⟨hw1, hopen⟩, rfl⟩, ?_⟩
    cases args with
    | nil => exact hrest
    | cons x r =>
      obtain ⟨h1, h2⟩ := wellSpaced_more r w2 c rest tail
        (fun z hz => hargs z (List.mem_cons_of_mem _ hz)) hw2 hc hrest
      obtain ⟨hx1, hx2⟩ := hargs x (List.mem_cons_self _ _)
      simp only [argsItems, List.cons_append, wellSpaced, Bool.and_eq_true]
      exact ⟨⟨⟨hx1, hx2⟩, h2 _⟩, h1⟩
  have := feeds_init _ _ hwell
  have e : render ((w0, .ident f) :: (w1, .sym 40) :: (argsItems args ++ (w2, .sym c) :: rest))
      tail = w0 ++ f ++ w1 ++ [40] ++ argsText args ++ render ((w2, .sym c) :: rest) tail := by
    cases args with
    | nil => simp [render, argsItems, argsText, Token.text]
    | cons x r =>
      simp [render, argsItems, argsText, Token.text, Operand.text]
      have := render_moreItems r ((w2, .sym c) :: rest) tail
      simp only [render, Token.text] at this
      simpa using this
  rw [e] at this
  exact this

theorem operand_not_close {s : State} {x : Operand} (h : Shows s x.token) :
    s.CurTok ≠ 41 := by
  have := h.1
  cases x <;> simp [Operand.token, Token.code, tok_number, tok_identifier] at this <;>
    rw [this] <;> decide

theorem ParseIdentifierExpr_operands (f : List Byte) (args : List Operand) (t : Token)
    (ts : List Token) (s : State)
    (hs : Reads s (.ident f :: .sym 40 ::
      (match args with
        | [] => .sym 41 :: t :: ts
        | x :: r => x.token :: moreTokens r ++ .sym 41 :: t :: ts))) :
    ∃ s1, Returns (fun n => ParseIdentifierExpr n s) (.ok (.Call f (args.map Operand.ast)), s1) ∧
      Reads s1 (t :: ts) := by
  cases args with
  | nil =>
    obtain ⟨hsh, s1, h1, hsh1, s2, h2, hr2⟩ := hs
    have hf : s.IdentifierStr = f := hsh.2
    obtain ⟨hsh2, s4, h4, hr4⟩ := hr2
    have := ParseIdentifierExpr_call_empty h1 hsh1.1 h2 hsh2.1 h4
    rw [hf] at this
    exact ⟨s4, this, hr4⟩
  | cons x r =>
    obtain ⟨hsh, s1, h1, hsh1, s2, h2, hr2⟩ := hs
    have hf : s.IdentifierStr = f := hsh.2
    obtain ⟨s3, h3, hsh3, s4, h4, hr4⟩ := ParseArgs_list r x [] (t :: ts) s2 hr2
    have := ParseIdentifierExpr_call h1 hsh1.1 h2 (operand_not_close hr2.1) h3 h4
    rw [hf] at this
    exact ⟨s4, by simpa using this, hr4⟩

theorem ParseExpression_primary_eof {s s1 : State} {L : ExprAST}
    (h : Returns (fun n => ParsePrimary n s) (.ok L, s1)) (he : Shows s1 .eof) :
    Returns (fun n => ParseExpression n s) (.ok L, s1) :=
  ParseExpression_of h (ParseBinOpRHS_stop (by rw [prec_eof he]; decide))

theorem returns_of_eval {α : Type} {f : Nat → Option α}
    (hmono : ∀ n m r, f n = some r → n ≤ m → f m = some r) {n : Nat} {r : α}
    (h : f n = some r) : Returns f r :=
  ⟨n, fun m hm => hmono n m r h hm⟩

theorem eval_unique {α : Type} {f : Nat → Option α}
    (hmono : ∀ n m r, f n = some r → n ≤ m → f m = some r) {n1 n2 : Nat} {r1 r2 : α}
    (h1 : f n1 = some r1) (h2 : f n2 = some r2) : r1 = r2 :=
  Returns.unique (returns_of_eval hmono h1) (returns_of_eval hmono h2)

theorem onText_mono {α : Type} {parse : Nat → State → Option (Parsed α × State)}
    (hparse : ∀ n m s r, parse n s = some r → n ≤ m → parse m s = some r)
    (text : List Byte) (n m : Nat) (r : Parsed α × State)
    (h : onText parse n text = some r) (hnm : n ≤ m) : onText parse m text = some r := by
  unfold onText at h ⊢
  cases h1 : getNextToken n (init text) with
  | none => rw [h1] at h; simp at h
  | some s1 =>
    rw [getNextToken_mono h1 hnm]; rw [h1] at h
    exact hparse n m s1 r h hnm

theorem readArgNames_mono {n m : Nat} {a : List (List Byte)} {s : State}
    {r : List (List Byte) × State} (h : readArgNames n a s = some r) (hnm : n ≤ m) :
    readArgNames m a s = some r := by
  induction n generalizing m a s with
  | zero => simp [readArgNames] at h
  | succ n ih =>
    obtain ⟨m, rfl⟩ : ∃ k, m = k + 1 := ⟨m - 1, by omega⟩
    have hle : n ≤ m := by omega
    rw [readArgNames] at h ⊢
    cases h1 : getNextToken n s with
    | none => rw [h1] at h; simp at h
    | some s1 =>
      rw [getNextToken_mono h1 hle]; rw [h1] at h; dsimp only at h ⊢
      by_cases hc : (s1.CurTok == tok_identifier) = true
      · rw [if_pos hc] at h ⊢; exact ih h hle
      · rw [if_neg hc] at h ⊢; exact h

theorem ParsePrototype_mono {n m : Nat} {s : State} {r : Parsed PrototypeAST × State}
    (h : ParsePrototype n s = some r) (hnm : n ≤ m) : ParsePrototype m s = some r := by
  unfold ParsePrototype at h ⊢
  by_cases hc : (s.CurTok != tok_identifier) = true
  · rw [if_pos hc] at h ⊢; exact h
  · rw [if_neg hc] at h ⊢
    dsimp only at h ⊢
    cases h1 : getNextToken n s with
    | none => rw [h1] at h; simp at h
    | some s1 =>
      rw [getNextToken_mono h1 hnm]; rw [h1] at h; dsimp only at h ⊢
      by_cases hd : (s1.CurTok != 40) = true
      · rw [if_pos hd] at h ⊢; exact h
      · rw [if_neg hd] at h ⊢
        cases h2 : readArgNames n [] s1 with
        | none => rw [h2] at h; simp at h
        | some r2 =>
          rw [readArgNames_mono h2 hnm]; rw [h2] at h
          obtain ⟨ArgNames, s2⟩ := r2
          dsimp only at h ⊢
          by_cases he : (s2.CurTok != 41) = true
          · rw [if_pos he] at h ⊢; exact h
          · rw [if_neg he] at h ⊢
            cases h3 : getNextToken n s2 with
            | none => rw [h3] at h; simp at h
            | some s3 => rw [getNextToken_mono h3 hnm]; rw [h3] at h; exact h

theorem ParseDefinition_mono {n m : Nat} {s : State} {r : Parsed FunctionAST × State}
    (h : ParseDefinition n s = some r) (hnm : n ≤ m) : ParseDefinition m s = some r := by
  unfold ParseDefinition at h ⊢
  cases h1 : getNextToken n s with
  | none => rw [h1] at h; simp at h
  | some s1 =>
    rw [getNextToken_mono h1 hnm]; rw [h1] at h; dsimp only at h ⊢
    cases h2 : ParsePrototype n s1 with
    | none => rw [h2] at h; simp at h
    | some r2 =>
      rw [ParsePrototype_mono h2 hnm]; rw [h2] at h
      obtain ⟨res, s2⟩ := r2
      cases res with
      | error e => exact h
      | ok Proto =>
        dsimp only at h ⊢
        cases h3 : ParseExpression n s2 with
        | none => rw [h3] at h; simp at h
        | some r3 =>
          rw [ParseExpression_mono h3 hnm]; rw [h3] at h
          exact h

theorem argsItems_tokens (args : List (List Byte × Operand))
    (items : List (List Byte × Token)) :
    (argsItems args ++ items).map (fun p => p.2) =
      match args.map (fun x => x.2) with
      | [] => items.map (fun p => p.2)
      | x :: r => x.token :: moreTokens r ++ items.map (fun p => p.2) := by
  cases args with
  | nil => rfl
  | cons x r => simp [argsItems, moreItems_tokens]

theorem ParseExpression_mono' (s : State) :
    ∀ n m r, ParseExpression n s = some r → n ≤ m → ParseExpression m s = some r :=
  fun _ _ _ h hnm => ParseExpression_mono h hnm

theorem ParsePrimary_onText_mono (text : List Byte) :
    ∀ n m r, onText ParsePrimary n text = some r → n ≤ m → onText ParsePrimary m text = some r :=
  @onText_mono _ ParsePrimary (fun _ _ _ _ h hnm => ParsePrimary_mono h hnm) text

theorem ParseExpression_onText_mono (text : List Byte) :
    ∀ n m r, onText ParseExpression n text = some r → n ≤ m →
      onText ParseExpression m text = some r :=
  @onText_mono _ ParseExpression (fun _ _ _ _ h hnm => ParseExpression_mono h hnm) text

theorem ParseDefinition_onText_mono (text : List Byte) :
    ∀ n m r, onText ParseDefinition n text = some r → n ≤ m →
      onText ParseDefinition m text = some r :=
  @onText_mono _ ParseDefinition (fun _ _ _ _ h hnm => ParseDefinition_mono h hnm) text

theorem getNextToken_mono' (s : State) :
    ∀ n m r, getNextToken n s = some r → n ≤ m → getNextToken m s = some r :=
  fun _ _ _ h hnm => getNextToken_mono h hnm

/-! ## Numbers with a decimal point -/

theorem skipNonDigits_true_isdigit {n : Nat} {s s2 : State}
    (h : skipNonDigits n true s = some s2) : isdigit s2.LastChar = true := by
  induction n generalizing s with
  | zero => simp [skipNonDigits] at h
  | succ n ih =>
    rw [skipNonDigits] at h
    by_cases hc : (!isdigit s.LastChar && true) = true
    · rw [if_pos hc] at h; exact ih h
    · rw [if_neg hc] at h
      simp only [Option.some.injEq] at h
      subst h
      simpa using hc

/-- Once `decimal` is set the loop of the number branch never ends: the inner
loop stops only on a digit, and a digit makes the outer loop go on. -/
theorem readNumber_decimal (n : Nat) (str : List Byte) (s : State) :
    readNumber n str true s = none := by
  induction n generalizing str s with
  | zero => rfl
  | succ n ih =>
    rw [readNumber]
    try dsimp only
    have e : (if (!isdigit s.LastChar) = true then true else true) = true := by split <;> rfl
    rw [e]
    cases h : skipNonDigits n true (readChar s) with
    | none => rfl
    | some s2 =>
      try dsimp only
      rw [skipNonDigits_true_isdigit h, Bool.true_or, if_pos rfl]
      exact ih _ _

theorem readNumber_point (n : Nat) (str : List Byte) (s : State)
    (h : isdigit s.LastChar = false) : readNumber n str false s = none := by
  cases n with
  | zero => rfl
  | succ n =>
    rw [readNumber]
    try dsimp only
    rw [h]
    simp only [Bool.not_false, if_true]
    cases h2 : skipNonDigits n true (readChar s) with
    | none => rfl
    | some s2 =>
      try dsimp only
      rw [skipNonDigits_true_isdigit h2, Bool.true_or, if_pos rfl]
      exact readNumber_decimal _ _ _

theorem readNumber_digits_point (s : State) (ds rest : List Byte)
    (hds : ds.all (fun b => isdigit (b.val : Int)) = true) (n : Nat) (acc : List Byte) :
    readNumber n acc false (s.atText (ds ++ 46 :: rest)) = none := by
  induction ds generalizing n acc with
  | nil => exact readNumber_point n acc _ rfl
  | cons d ds ih =>
    simp only [List.all_cons, Bool.and_eq_true] at hds
    cases n with
    | zero => rfl
    | succ n =>
      rw [readNumber]
      try dsimp only
      have e : (s.atText (d :: ds ++ 46 :: rest)).LastChar = (d.val : Int) := rfl
      rw [e, hds.1]
      simp only [Bool.not_true, Bool.false_eq_true, if_false]
      have e2 : readChar (s.atText (d :: ds ++ 46 :: rest)) = s.atText (ds ++ 46 :: rest) :=
        readChar_atText s d _
      rw [e2]
      cases n with
      | zero => rfl
      | succ n =>
        have hcond : (isdigit (s.atText (ds ++ 46 :: rest)).LastChar ||
            (s.atText (ds ++ 46 :: rest)).LastChar == 46) = true := by
          cases ds with
          | nil => rfl
          | cons x xs =>
            simp only [List.all_cons, Bool.and_eq_true] at hds
            show (isdigit (x.val : Int) || _) = true
            rw [hds.2.1]; rfl
        simp only [skipNonDigits, Bool.and_false, Bool.false_eq_true, if_false]
        rw [if_pos hcond]
        exact ih hds.2 _ _

/-- A number written with a decimal point: whitespace, digits, a point.  On
such a text `gettok` does not return. -/
theorem gettok_decimal_diverges (s : State) (ws ds rest : List Byte)
    (hws : blank ws = true) (hds : ds.all (fun b => isdigit (b.val : Int)) = true) :
    Diverges (fun n => gettok n (s.atText (ws ++ (ds ++ 46 :: rest)))) := by
  intro n
  cases n with
  | zero => rfl
  | succ n =>
    have hfirst : isspace (next (ds ++ 46 :: rest)) = false ∧
        isalpha (next (ds ++ 46 :: rest)) = false ∧
        (isdigit (next (ds ++ 46 :: rest)) || next (ds ++ 46 :: rest) == 46) = true := by
      cases ds with
      | nil => exact ⟨rfl, rfl, rfl⟩
      | cons d ds =>
        simp only [List.all_cons, Bool.and_eq_true] at hds
        exact ⟨isdigit_not_isspace hds.1, isdigit_not_isalpha hds.1, by
          show (isdigit (d.val : Int) || _) = true
          rw [hds.1]; rfl⟩
    show gettok (n + 1) _ = none
    rw [gettok]
    cases h1 : skipSpaces n (s.atText (ws ++ (ds ++ 46 :: rest))) with
    | none => rfl
    | some s1 =>
      have h2 := skipSpaces_blank s ws (ds ++ 46 :: rest) hws hfirst.1 (max n (ws.length + 1))
        (by omega)
      have h3 := skipSpaces_mono h1 (le_max_left n (ws.length + 1))
      rw [h2] at h3
      have h4 : s1 = s.atText (ds ++ 46 :: rest) := (Option.some.inj h3).symm
      subst h4
      try dsimp only
      have e : (s.atText (ds ++ 46 :: rest)).LastChar = next (ds ++ 46 :: rest) := rfl
      rw [e, hfirst.2.1, hfirst.2.2]
      simp only [Bool.false_eq_true, if_false, if_true]
      rw [readNumber_digits_point s ds rest hds]

theorem gettok_eof_LastChar {n : Nat} {s s1 : State} (h : gettok n s = some (tok_eof, s1)) :
    s1.LastChar = EOF := by
  induction n generalizing s with
  | zero => simp [gettok] at h
  | succ n ih =>
    rw [gettok] at h
    cases h1 : skipSpaces n s with
    | none => rw [h1] at h; simp at h
    | some s0 =>
      rw [h1] at h
      dsimp only at h
      by_cases ha : isalpha s0.LastChar = true
      · rw [if_pos ha] at h
        cases h2 : readIdentifier n { s0 with IdentifierStr := [toChar s0.LastChar] } with
        | none => rw [h2] at h; simp at h
        | some s2 =>
          rw [h2] at h
          dsimp only at h
          split at h
          · simp [tok_def, tok_eof] at h
          · split at h
            · simp [ tok_extern, tok_eof] at h
            · simp [tok_identifier, tok_eof] at h
      · rw [if_neg ha] at h
        by_cases hd : (isdigit s0.LastChar || s0.LastChar == 46) = true
        · rw [if_pos hd] at h
          cases h2 : readNumber n [] false s0 with
          | none => rw [h2] at h; simp at h
          | some r2 => rw [h2] at h; simp [tok_number, tok_eof] at h
        · rw [if_neg hd] at h
          have tail : ∀ s2 : State, gettokTail s2 = (tok_eof, s1) → s1.LastChar = EOF := by
            intro s2 ht
            unfold gettokTail at ht
            by_cases he : (s2.LastChar == EOF) = true
            · rw [if_pos he] at ht
              simp only [Prod.mk.injEq, true_and] at ht
              subst ht
              simpa using he
            · rw [if_neg he] at ht
              simp only [Prod.mk.injEq] at ht
              exact absurd (by simpa [tok_eof, EOF] using ht.1) (by simpa [EOF] using he)
          by_cases hc : (s0.LastChar == 35) = true
          · rw [if_pos hc] at h
            cases h2 : skipComment n s0 with
            | none => rw [h2] at h; simp at h
            | some s2 =>
              rw [h2] at h
              dsimp only at h
              by_cases he : (s2.LastChar != EOF) = true
              · rw [if_pos he] at h; exact ih h
              · rw [if_neg he] at h; exact tail s2 (Option.some.inj h)
          · rw [if_neg hc] at h; exact tail s0 (Option.some.inj h)

theorem gettok_at_eof (s : State) (h : s.LastChar = EOF) (n : Nat) (hn : 2 ≤ n) :
    gettok n s = some (tok_eof, s) := by
  obtain ⟨n, rfl⟩ : ∃ k, n = k + 2 := ⟨n - 2, by omega⟩
  have h1 : skipSpaces (n + 1) s = some s := by rw [skipSpaces, h]; rfl
  rw [gettok_step_other h1 (by rw [h]; rfl) (by rw [h]; rfl) (by rw [h]; rfl)]
  simp [gettokTail, h]

/-! ## The claims -/

/-- C1. Precedence: for simple operands `a`, `b`, `c` and operators `o1`, `o2`
of the precedence table with `o2` of higher precedence than `o1`,
`ParseExpression` on the text `a o1 b o2 c` (any whitespace around the tokens,
none included) returns `Binary o1 a (Binary o2 b c)` and stops at
end-of-input. -/
theorem precedence_climbing (a b c : Operand) (o1 o2 : Byte) (w0 w1 w2 w3 w4 w5 : List Byte)
    (ha : a.wf = true) (hb : b.wf = true) (hc : c.wf = true)
    (hw : (blank w0 && blank w1 && blank w2 && blank w3 && blank w4 && blank w5) = true)
    (h1 : isBinop o1 = true)
    (hlt : BinopPrecendence (o1.val : Int) < BinopPrecendence (o2.val : Int)) :
    ∃ s1, Returns (fun n => onText ParseExpression n
        (w0 ++ a.text ++ w1 ++ [o1] ++ w2 ++ b.text ++ w3 ++ [o2] ++ w4 ++ c.text ++ w5))
        (.ok (.Binary (o1.val : Int) a.ast (.Binary (o2.val : Int) b.ast c.ast)), s1) ∧
      s1.CurTok = tok_eof := by
  simp only [Bool.and_eq_true] at hw
  obtain ⟨⟨⟨⟨⟨hw0, hw1⟩, hw2⟩, hw3⟩, hw4⟩, hw5⟩ := hw
  have h2 : isBinop o2 = true := by
    simp only [isBinop, decide_eq_true_eq]
    exact lt_trans (binop_pos h1) hlt
  have hf := feeds_chain w0 a [⟨w1, o1, w2, b⟩, ⟨w3, o2, w4, c⟩] w5 hw0 ha
    (by simp [Link.wf, hw1, hw2, hw3, hw4, h1, h2, hb, hc]) hw5
  simp only [chainText, linksText, List.append_assoc, List.append_nil, List.map, Link.pair,
    chainTokens, List.cons_append, List.nil_append] at hf
  obtain ⟨s, hn, hsh, hfs⟩ := hf
  obtain ⟨s1, hr, hr1⟩ := ParseExpression_climb a b c o1 o2 h1 hlt s ⟨hsh, hfs⟩
  refine ⟨s1, ?_, cur_eof hr1⟩
  have := onText_returns hn hr
  simpa only [List.append_assoc, List.cons_append, List.nil_append] using this

/-- C1 at `1+2*3`. -/
theorem precedence_climbing_witness :
    ∃ s1, Returns (fun n => onText ParseExpression n (bytes "1+2*3"))
        (.ok (.Binary 43 (.Number (bytes "1")) (.Binary 42 (.Number (bytes "2"))
          (.Number (bytes "3")))), s1) ∧ s1.CurTok = tok_eof :=
  precedence_climbing (.lit (bytes "1")) (.lit (bytes "2")) (.lit (bytes "3")) 43 42
    [] [] [] [] [] [] (by decide) (by decide) (by decide) (by decide) (by decide) (by decide)

/-- C2. Left-associativity: for a chain `a0 o1 a1 ... on an` of simple operands
whose operators all have one precedence in the table, `ParseExpression`
returns the left-nested tree `Binary on (... (Binary o1 a0 a1) ...) an` and
stops at end-of-input. -/
theorem left_associativity (p : Int) (w0 : List Byte) (a0 : Operand) (links : List Link)
    (tail : List Byte) (hw0 : blank w0 = true) (ha0 : a0.wf = true)
    (hl : ∀ l ∈ links, l.wf = true) (ht : blank tail = true)
    (hp : ∀ l ∈ links, BinopPrecendence (l.op.val : Int) = p) :
    ∃ s1, Returns (fun n => onText ParseExpression n (w0 ++ chainText a0 links ++ tail))
        (.ok (leftNested a0.ast (links.map Link.pair)), s1) ∧ s1.CurTok = tok_eof := by
  obtain ⟨s, hn, hsh, hfs⟩ := feeds_chain w0 a0 links tail hw0 ha0 hl ht
  have hops : ∀ x ∈ links.map Link.pair,
      isBinop x.1 = true ∧ BinopPrecendence (x.1.val : Int) = p := by
    intro x hx
    obtain ⟨l, hl1, rfl⟩ := List.mem_map.mp hx
    have hw := hl l hl1
    simp only [Link.wf, Bool.and_eq_true] at hw
    exact ⟨hw.1.2, hp l hl1⟩
  have hp0 : 0 ≤ max p 0 := le_max_right _ _
  have hops' : ∀ x ∈ links.map Link.pair,
      isBinop x.1 = true ∧ BinopPrecendence (x.1.val : Int) = max p 0 := by
    intro x hx
    obtain ⟨h1, h2⟩ := hops x hx
    refine ⟨h1, ?_⟩
    have := binop_pos h1
    rw [h2] at this ⊢
    exact (max_eq_left (le_of_lt this)).symm
  obtain ⟨s1, hr, hr1⟩ := ParseExpression_chain (max p 0) hp0 .eof []
    (fun s hs => by rw [prec_eof hs]; decide) (by decide) a0 (links.map Link.pair) hops' s
    ⟨hsh, hfs⟩
  exact ⟨s1, onText_returns hn hr, cur_eof hr1⟩

/-- C2 at `1-2-3`. -/
theorem left_associativity_witness :
    ∃ s1, Returns (fun n => onText ParseExpression n (bytes "1-2-3"))
        (.ok (.Binary 45 (.Binary 45 (.Number (bytes "1")) (.Number (bytes "2")))
          (.Number (bytes "3"))), s1) ∧ s1.CurTok = tok_eof :=
  left_associativity 20 [] (.lit (bytes "1"))
    [⟨[], 45, [], .lit (bytes "2")⟩, ⟨[], 45, [], .lit (bytes "3")⟩] []
    (by decide) (by decide) (by decide) (by decide) (by decide)

/-- C3. Parenthesization: for simple operands and operators of the precedence
table, whatever their precedences, `(a o1 b) o2 c` parses to
`Binary o2 (Binary o1 a b) c` and `a o1 (b o2 c)` to
`Binary o1 a (Binary o2 b c)`; the parentheses leave no node. -/
theorem parenthesization (a b c : Operand) (o1 o2 : Byte)
    (w0 w1 w2 w3 w4 w5 w6 w7 : List Byte)
    (ha : a.wf = true) (hb : b.wf = true) (hc : c.wf = true)
    (hw : (blank w0 && blank w1 && blank w2 && blank w3 && blank w4 && blank w5 && blank w6
      && blank w7) = true)
    (h1 : isBinop o1 = true) (h2 : isBinop o2 = true) :
    (∃ s1, Returns (fun n => onText ParseExpression n
        (w0 ++ [40] ++ w1 ++ a.text ++ w2 ++ [o1] ++ w3 ++ b.text ++ w4 ++ [41] ++ w5 ++ [o2]
          ++ w6 ++ c.text ++ w7))
        (.ok (.Binary (o2.val : Int) (.Binary (o1.val : Int) a.ast b.ast) c.ast), s1) ∧
      s1.CurTok = tok_eof) ∧
    (∃ s1, Returns (fun n => onText ParseExpression n
        (w0 ++ a.text ++ w1 ++ [o1] ++ w2 ++ [40] ++ w3 ++ b.text ++ w4 ++ [o2] ++ w5
          ++ c.text ++ w6 ++ [41] ++ w7))
        (.ok (.Binary (o1.val : Int) a.ast (.Binary (o2.val : Int) b.ast c.ast)), s1) ∧
      s1.CurTok = tok_eof) := by
  simp only [Bool.and_eq_true] at hw
  obtain ⟨⟨⟨⟨⟨⟨⟨hw0, hw1⟩, hw2⟩, hw3⟩, hw4⟩, hw5⟩, hw6⟩, hw7⟩ := hw
  have hs1 := isSymbol_of_isBinop h1
  have hs2 := isSymbol_of_isBinop h2
  have hopen : isSymbol 40 = true := by decide
  have hclose : isSymbol 41 = true := by decide
  have hwf1 : (Token.sym o1).wf = true := hs1
  have hwf2 : (Token.sym o2).wf = true := hs2
  have hwfo : (Token.sym 40).wf = true := hopen
  have hwfc : (Token.sym 41).wf = true := hclose
  simp only [Operand.wf] at ha hb hc
  constructor
  · have hwell : wellSpaced [(w0, .sym 40), (w1, a.token), (w2, .sym o1), (w3, b.token),
        (w4, .sym 41), (w5, .sym o2), (w6, c.token)] w7 = true := by
      simp [wellSpaced, boundary_sym, boundary_sym_next, boundary_tail, hw0, hw1, hw2, hw3,
        hw4, hw5, hw6, hw7, ha, hb, hc, hs1, hs2, hopen, hclose, hwf1, hwf2, hwfo, hwfc]
    obtain ⟨s, hn, hsh, hfs⟩ := feeds_init _ _ hwell
    obtain ⟨s1, hr, hr1⟩ := ParseExpression_paren_left a b c o1 o2 h1 h2 s ⟨hsh, hfs⟩
    refine ⟨s1, ?_, cur_eof hr1⟩
    have := onText_returns hn hr
    simpa [render, Token.text, Operand.text] using this
  · have hwell : wellSpaced [(w0, a.token), (w1, .sym o1), (w2, .sym 40), (w3, b.token),
        (w4, .sym o2), (w5, c.token), (w6, .sym 41)] w7 = true := by
      simp [wellSpaced, boundary_sym, boundary_sym_next, boundary_tail, hw0, hw1, hw2, hw3,
        hw4, hw5, hw6, hw7, ha, hb, hc, hs1, hs2, hopen, hclose, hwf1, hwf2, hwfo, hwfc]
    obtain ⟨s, hn, hsh, hfs⟩ := feeds_init _ _ hwell
    obtain ⟨s1, hr, hr1⟩ := ParseExpression_paren_right a b c o1 o2 h1 h2 s ⟨hsh, hfs⟩
    refine ⟨s1, ?_, cur_eof hr1⟩
    have := onText_returns hn hr
    simpa [render, Token.text, Operand.text] using this

/-- C3 at `(1+2)*3` and `1+(2*3)`. -/
theorem parenthesization_witness :
    (∃ s1, Returns (fun n => onText ParseExpression n (bytes "(1+2)*3"))
        (.ok (.Binary 42 (.Binary 43 (.Number (bytes "1")) (.Number (bytes "2")))
          (.Number (bytes "3"))), s1) ∧ s1.CurTok = tok_eof) ∧
    (∃ s1, Returns (fun n => onText ParseExpression n (bytes "1+(2*3)"))
        (.ok (.Binary 43 (.Number (bytes "1")) (.Binary 42 (.Number (bytes "2"))
          (.Number (bytes "3")))), s1) ∧ s1.CurTok = tok_eof) :=
  parenthesization (.lit (bytes "1")) (.lit (bytes "2")) (.lit (bytes "3")) 43 42
    [] [] [] [] [] [] [] [] (by decide) (by decide) (by decide) (by decide) (by decide)
    (by decide)

/-- C4. Call argument order: for an identifier `f` and identifiers `x1 .. xn`
(`n` may be zero), parsing the text `f(x1, ..., xn)` returns the call of `f`
with the arguments `Variable x1, ..., Variable xn` in the order of the text,
and the current token is then the one after the closing parenthesis, here
end-of-input.  This holds of `ParseIdentifierExpr` and of `ParseExpression`. -/
theorem call_argument_order (f : List Byte) (xs : List (List Byte × List Byte))
    (w0 w1 w2 tail : List Byte) (hf : isIdentifier f = true)
    (hxs : ∀ x ∈ xs, blank x.1 = true ∧ isIdentifier x.2 = true)
    (hw : (blank w0 && blank w1 && blank w2 && blank tail) = true) :
    ∃ s1,
      Returns (fun n => onText ParseIdentifierExpr n
        (w0 ++ f ++ w1 ++ [40] ++ argsText (xs.map (fun x => (x.1, Operand.var x.2))) ++ w2
          ++ [41] ++ tail))
        (.ok (.Call f (xs.map (fun x => ExprAST.Variable x.2))), s1) ∧
      Returns (fun n => onText ParseExpression n
        (w0 ++ f ++ w1 ++ [40] ++ argsText (xs.map (fun x => (x.1, Operand.var x.2))) ++ w2
          ++ [41] ++ tail))
        (.ok (.Call f (xs.map (fun x => ExprAST.Variable x.2))), s1) ∧
      s1.CurTok = tok_eof := by
  simp only [Bool.and_eq_true] at hw
  obtain ⟨⟨⟨hw0, hw1⟩, hw2⟩, hw3⟩ := hw
  have hclose : isSymbol 41 = true := by decide
  have hargs : ∀ y ∈ xs.map (fun x => (x.1, Operand.var x.2)),
      blank y.1 = true ∧ y.2.wf = true := by
    intro y hy
    obtain ⟨x, hx, rfl⟩ := List.mem_map.mp hy
    exact hxs x hx
  have hfeed := feeds_call f (xs.map (fun x => (x.1, Operand.var x.2))) w0 w1 w2 41 [] tail hf
    hargs hw0 hw1 hw2 hclose (by simp [wellSpaced, hw2, hw3, Token.wf, hclose, boundary_sym])
  rw [argsItems_tokens] at hfeed
  obtain ⟨s, hn, hsh, hfs⟩ := hfeed
  have hast : (xs.map (fun x => (x.1, Operand.var x.2))).map (fun y => y.2.ast) =
      xs.map (fun x => ExprAST.Variable x.2) := by
    simp [Operand.ast]
  have hr : Reads s (.ident f :: .sym 40 ::
      (match (xs.map (fun x => (x.1, Operand.var x.2))).map (fun y => y.2) with
        | [] => .sym 41 :: Token.eof :: []
        | x :: r => x.token :: moreTokens r ++ .sym 41 :: Token.eof :: [])) := by
    refine ⟨hsh, ?_⟩
    cases hx : (xs.map (fun x => (x.1, Operand.var x.2))).map (fun y => y.2) with
    | nil => rw [hx] at hfs; simpa using hfs
    | cons x r => rw [hx] at hfs; simpa using hfs
  obtain ⟨s1, h1, h2⟩ := ParseIdentifierExpr_operands f _ .eof [] s hr
  rw [List.map_map] at h1
  have h1' : Returns (fun n => ParseIdentifierExpr n s)
      (.ok (.Call f (xs.map (fun x => ExprAST.Variable x.2))), s1) := by
    have e : (Operand.ast ∘ fun y : List Byte × Operand => y.2) ∘
        (fun x : List Byte × List Byte => (x.1, Operand.var x.2)) =
        fun x => ExprAST.Variable x.2 := rfl
    rw [List.map_map, e] at h1
    exact h1
  have h3 := ParseExpression_primary_eof (ParsePrimary_identifier hsh.1 h1') h2.1
  have e : w0 ++ f ++ w1 ++ [40] ++ argsText (xs.map (fun x => (x.1, Operand.var x.2))) ++
      render [(w2, Token.sym 41)] tail =
      w0 ++ f ++ w1 ++ [40] ++ argsText (xs.map (fun x => (x.1, Operand.var x.2))) ++ w2
          ++ [41] ++ tail := by
    simp [render, Token.text]
  rw [e] at hn
  exact ⟨s1, onText_returns hn h1', onText_returns hn h3, cur_eof h2⟩

/-- C4 at `f(a, b, c)`. -/
theorem call_argument_order_witness :
    ∃ s1,
      Returns (fun n => onText ParseIdentifierExpr n (bytes "f(a, b, c)"))
        (.ok (.Call (bytes "f")
          [.Variable (bytes "a"), .Variable (bytes "b"), .Variable (bytes "c")]), s1) ∧
      Returns (fun n => onText ParseExpression n (bytes "f(a, b, c)"))
        (.ok (.Call (bytes "f")
          [.Variable (bytes "a"), .Variable (bytes "b"), .Variable (bytes "c")]), s1) ∧
      s1.CurTok = tok_eof :=
  call_argument_order (bytes "f") [([], bytes "a"), ([32], bytes "b"), ([32], bytes "c")]
    [] [] [] [] (by decide) (by decide) (by decide)

/-- C5, as the claim states it, fails: on the text of the `fib` definition no
budget makes `ParseDefinition` return a function whose body is a `Binary`
node. -/
theorem fib_definition_body_not_binary :
    ¬ ∃ n p op l r s, onText ParseDefinition n
        (bytes "def fib(x)\n if x < 3 then 1 else fib(x-1)+fib(x-2)") =
      some (.ok ⟨p, .Binary op l r⟩, s) := by
  rintro ⟨n, p, op, l, r, s, h⟩
  have h0 : onText ParseDefinition 20
      (bytes "def fib(x)\n if x < 3 then 1 else fib(x-1)+fib(x-2)") =
      some (.ok ⟨⟨bytes "fib", [bytes "x"]⟩, .Variable (bytes "if")⟩,
        ⟨32, bytes "< 3 then 1 else fib(x-1)+fib(x-2)", bytes "x", [], tok_identifier⟩) := by
    decide!
  have h3 := eval_unique (ParseDefinition_onText_mono _) h h0
  have h4 : ExprAST.Binary op l r = ExprAST.Variable (bytes "if") :=
    congrArg (fun x => match x with
      | (Except.ok f, _) => f.Body
      | (Except.error _, _) => ExprAST.Binary op l r) h3
  cases h4

/-- C5, amended. `ParseDefinition` on the text of the `fib` definition returns
a function whose prototype has the name `fib` and the parameters `[x]`; its
body is the variable `if`, and the parser stops with the identifier `x` as
current token and the text from `<` on unread. -/
theorem fib_definition_parses :
    Returns (fun n => onText ParseDefinition n
        (bytes "def fib(x)\n if x < 3 then 1 else fib(x-1)+fib(x-2)"))
      (.ok ⟨⟨bytes "fib", [bytes "x"]⟩, .Variable (bytes "if")⟩,
        ⟨32, bytes "< 3 then 1 else fib(x-1)+fib(x-2)", bytes "x", [], tok_identifier⟩) :=
  returns_of_eval (n := 20) (ParseDefinition_onText_mono _) (by decide!)

/-- C6, as the claim states it, fails: parsing `f(a,)` ends with the message
of `ParsePrimary`, not with the message of the argument list. -/
theorem trailing_comma_not_argument_list_error :
    (∃ s, Returns (fun n => onText ParseExpression n (bytes "f(a,)"))
      (.error "unknown token when expecting an expression", s)) ∧
    ¬ ∃ s, Returns (fun n => onText ParseExpression n (bytes "f(a,)"))
      (.error "Expected ')' or ',' in argument list", s) := by
  have h0 : Returns (fun n => onText ParseExpression n (bytes "f(a,)"))
      (.error "unknown token when expecting an expression",
        ⟨-1, [], bytes "a", [], 41⟩) :=
    returns_of_eval (n := 20) (ParseExpression_onText_mono _) (by decide!)
  refine ⟨⟨_, h0⟩, ?_⟩
  rintro ⟨s, h⟩
  have h3 := Returns.unique h h0
  have h4 : "Expected ')' or ',' in argument list" =
      "unknown token when expecting an expression" :=
    congrArg (fun x => match x with
      | (Except.error e, _) => e
      | (Except.ok _, _) => "") h3
  exact absurd h4 (by decide)

/-- C6, amended. A call whose argument list ends in a comma, `f(a1, ..., an,)`
with `n ≥ 1` simple arguments, fails to parse: `ParseIdentifierExpr` and
`ParseExpression` return no node, and the message is the one of
`ParsePrimary`, "unknown token when expecting an expression", raised at the
closing parenthesis. -/
theorem trailing_comma_unknown_token (f : List Byte) (args : List (List Byte × Operand))
    (w0 w1 w2 w3 tail : List Byte) (hne : args ≠ []) (hf : isIdentifier f = true)
    (hargs : ∀ y ∈ args, blank y.1 = true ∧ y.2.wf = true)
    (hw : (blank w0 && blank w1 && blank w2 && blank w3 && blank tail) = true) :
    ∃ s1,
      Returns (fun n => onText ParseIdentifierExpr n
        (w0 ++ f ++ w1 ++ [40] ++ argsText args ++ w2 ++ [44] ++ w3 ++ [41] ++ tail))
        (.error "unknown token when expecting an expression", s1) ∧
      Returns (fun n => onText ParseExpression n
        (w0 ++ f ++ w1 ++ [40] ++ argsText args ++ w2 ++ [44] ++ w3 ++ [41] ++ tail))
        (.error "unknown token when expecting an expression", s1) ∧
      s1.CurTok = 41 := by
  simp only [Bool.and_eq_true] at hw
  obtain ⟨⟨⟨⟨hw0, hw1⟩, hw2⟩, hw3⟩, hw4⟩ := hw
  have hclose : isSymbol 41 = true := by decide
  have hcomma : isSymbol 44 = true := by decide
  have hfeed := feeds_call f args w0 w1 w2 44 [(w3, .sym 41)] tail hf hargs hw0 hw1 hw2 hcomma
    (by simp [wellSpaced, hw2, hw3, hw4, Token.wf, hclose, hcomma, boundary_sym])
  rw [argsItems_tokens] at hfeed
  have e : w0 ++ f ++ w1 ++ [40] ++ argsText args ++
      render [(w2, Token.sym 44), (w3, Token.sym 41)] tail =
      w0 ++ f ++ w1 ++ [40] ++ argsText args ++ w2 ++ [44] ++ w3 ++ [41] ++ tail := by
    simp [render, Token.text]
  rw [e] at hfeed
  cases args with
  | nil => exact absurd rfl hne
  | cons x r =>
    obtain ⟨s, hn, hsh, s1, h1, hsh1, s2, h2, hsh2, hfs2⟩ := hfeed
    have hr2 : Reads s2 (x.2.token :: moreTokens (r.map (fun y => y.2)) ++
        .sym 44 :: .sym 41 :: [Token.eof]) := by
      refine ⟨hsh2, ?_⟩
      simpa using hfs2
    obtain ⟨s3, h3, h4⟩ := ParseArgs_trailing _ x.2 [] [Token.eof] s2 hr2
    have hid := ParseIdentifierExpr_call_error h1 hsh1.1 h2 (operand_not_close hsh2) h3
    have hex := ParseExpression_error (ParsePrimary_identifier hsh.1 hid)
    exact ⟨s3, onText_returns hn hid, onText_returns hn hex, h4.1.1⟩

/-- C6, amended, at `f(a,)`. -/
theorem trailing_comma_unknown_token_witness :
    ∃ s1,
      Returns (fun n => onText ParseIdentifierExpr n (bytes "f(a,)"))
        (.error "unknown token when expecting an expression", s1) ∧
      Returns (fun n => onText ParseExpression n (bytes "f(a,)"))
        (.error "unknown token when expecting an expression", s1) ∧
      s1.CurTok = 41 :=
  trailing_comma_unknown_token (bytes "f") [([], .var (bytes "a"))] [] [] [] [] []
    (by decide) (by decide) (by decide) (by decide)

/-- C7. Missing close parenthesis: when the current token is `(`, the
expression after it parses, and the token that follows the expression is not
`)`, `ParsePrimary` returns no node and the message is "expected ')'". -/
theorem missing_close_paren (s s1 s2 : State) (V : ExprAST) (hs : s.CurTok = 40)
    (h1 : Returns (fun n => getNextToken n s) s1)
    (h2 : Returns (fun n => ParseExpression n s1) (.ok V, s2)) (hc : s2.CurTok ≠ 41) :
    Returns (fun n => ParsePrimary n s) (.error "expected ')'", s2) :=
  ParsePrimary_paren_unclosed hs h1 h2 hc

/-- C7 at `(1+2`: the expression `1+2` parses and end-of-input follows it. -/
theorem missing_close_paren_witness :
    Returns (fun n => onText ParsePrimary n (bytes "(1+2"))
      (.error "expected ')'", ⟨-1, [], [], bytes "2", tok_eof⟩) :=
  onText_returns (s := ⟨49, bytes "+2", [], [], 40⟩)
    (returns_of_eval (n := 20) (getNextToken_mono' _) (by decide!))
    (missing_close_paren ⟨49, bytes "+2", [], [], 40⟩ ⟨43, bytes "2", [], bytes "1", tok_number⟩
      ⟨-1, [], [], bytes "2", tok_eof⟩
      (.Binary 43 (.Number (bytes "1")) (.Number (bytes "2"))) rfl
      (returns_of_eval (n := 20) (getNextToken_mono' _) (by decide!))
      (returns_of_eval (n := 20) (ParseExpression_mono' _) (by decide!)) (by decide))

/-- C8 fails on the code: on the input `1.5` the first call of `gettok`
exhausts every budget, so it does not return. -/
theorem tokenization_diverges_on_decimal :
    Diverges (fun n => gettok n (init (bytes "1.5"))) :=
  gettok_decimal_diverges (init []) [32] [49] [53] (by decide) (by decide)

/-- C9. End-of-input is sticky: once a call of `gettok` has returned the
end-of-input token, a later call (with any budget from 2 on) returns
end-of-input again and leaves the state as it was. -/
theorem end_of_input_sticky (n : Nat) (s s1 : State) (h : gettok n s = some (tok_eof, s1)) :
    ∀ m, 2 ≤ m → gettok m s1 = some (tok_eof, s1) :=
  fun m hm => gettok_at_eof s1 (gettok_eof_LastChar h) m hm

/-- C9 at the input `1`, after the number has been read. -/
theorem end_of_input_sticky_witness :
    gettok 5 ⟨-1, [], [], bytes "1", tok_number⟩ =
        some (tok_eof, ⟨-1, [], [], bytes "1", tok_number⟩) ∧
      ∀ m, 2 ≤ m → gettok m ⟨-1, [], [], bytes "1", tok_number⟩ =
        some (tok_eof, ⟨-1, [], [], bytes "1", tok_number⟩) :=
  ⟨by decide, end_of_input_sticky 5 ⟨-1, [], [], bytes "1", tok_number⟩ _ (by decide)⟩

/-- C10 fails on the code: on the input `1.5+2` the first call of `gettok`
does not return, so no number token `1.5` is produced and no token starts at
`+`. -/
theorem numeric_literal_diverges :
    Diverges (fun n => gettok n (init (bytes "1.5+2"))) :=
  gettok_decimal_diverges (init []) [32] [49] [53, 43, 50] (by decide) (by decide)

/-! ## Whitespace between tokens -/

theorem gettok_token (s : State) (ws : List Byte) (t : Token) (rest : List Byte)
    (hws : blank ws = true) (ht : t.wf = true) (hb : boundary t rest = true) (n : Nat)
    (hn : ws.length + t.text.length + 2 < n) :
    gettok n (s.atText (ws ++ (t.text ++ rest))) = some (t.code, scanned t s rest) := by
  cases t with
  | eof => simp [Token.wf] at ht
  | kwDef =>
    have h := gettok_word s ws 100 [101, 102] rest hws (by decide) (by decide)
      (delim_not_isalnum hb) n (by simp [Token.text, bytes] at hn ⊢; omega)
    have e : (Token.kwDef).text ++ rest = 100 :: [101, 102] ++ rest := rfl
    rw [e, h]
    rfl
  | kwExtern =>
    have h := gettok_word s ws 101 [120, 116, 101, 114, 110] rest hws (by decide) (by decide)
      (delim_not_isalnum hb) n (by simp [Token.text, bytes] at hn ⊢; omega)
    have e : (Token.kwExtern).text ++ rest = 101 :: [120, 116, 101, 114, 110] ++ rest := rfl
    rw [e, h]
    rfl
  | ident w =>
    cases w with
    | nil => simp [Token.wf, isIdentifier] at ht
    | cons c cs =>
      simp only [Token.wf, isIdentifier, Bool.and_eq_true, decide_eq_true_eq] at ht
      obtain ⟨⟨⟨h1, h2⟩, h3⟩, h4⟩ := ht
      have h := gettok_word s ws c cs rest hws h1 h2 (delim_not_isalnum hb) n
        (by simp [Token.text] at hn ⊢; omega)
      simp only [Token.text]
      rw [h]
      simp [classify, h3, h4, scanned, lexed, State.atText, Token.code, Token.text]
  | number ds =>
    cases ds with
    | nil => simp [Token.wf, isIntLiteral] at ht
    | cons d ds =>
      simp only [Token.wf, isIntLiteral, List.all_cons, Bool.and_eq_true] at ht
      have h := gettok_number s ws d ds rest hws ht.2.1 ht.2.2 hb n
        (by simp [Token.text] at hn ⊢; omega)
      simp only [Token.text]
      rw [h]
      rfl
  | sym c =>
    have h := gettok_symbol s ws c rest hws ht n (by simp [Token.text] at hn ⊢; omega)
    simp only [Token.text, List.singleton_append]
    rw [h]
    rfl

theorem carries_scanned (t : Token) (s : State) (rest : List Byte) :
    Carries (scanned t s rest) t := by
  cases t <;> simp [Carries, scanned, lexed, Token.text]

theorem lexes_render (items : List (List Byte × Token)) (tail : List Byte)
    (hw : wellSpaced items tail = true) (s : State) :
    Lexes (s.atText (render items tail)) (items.map (fun p => p.2) ++ [Token.eof]) := by
  induction items generalizing s with
  | nil =>
    refine ⟨s.atText [], ⟨tail.length + 2, fun n hn => ?_⟩, trivial, trivial⟩
    exact gettok_eof s tail hw n (by omega)
  | cons p r ih =>
    obtain ⟨ws, t⟩ := p
    simp only [wellSpaced, Bool.and_eq_true] at hw
    obtain ⟨⟨⟨h1, h2⟩, h3⟩, h4⟩ := hw
    refine ⟨scanned t s (render r tail), ⟨ws.length + t.text.length + 3, fun n hn => ?_⟩,
      carries_scanned _ _ _, ?_⟩
    · exact gettok_token s ws t (render r tail) h1 h2 h3 n (by omega)
    · exact ih h4 (scanned t s (render r tail))

theorem lexes_init (items : List (List Byte × Token)) (tail : List Byte)
    (hw : wellSpaced items tail = true) :
    Lexes (init (render items tail)) (items.map (fun p => p.2) ++ [Token.eof]) := by
  cases items with
  | nil => exact lexes_render [] (32 :: tail) hw (init [])
  | cons p r =>
    obtain ⟨ws, t⟩ := p
    exact lexes_render ((32 :: ws, t) :: r) tail hw (init [])

theorem delim_next_cons_blank {ws rest : List Byte} (h : blank ws = true) (hne : ws ≠ []) :
    delim (next (ws ++ rest)) = true := by
  cases ws with
  | nil => exact absurd rfl hne
  | cons b r =>
    simp only [blank, List.all_cons, Bool.and_eq_true] at h
    exact delim_of_isspace h.1

theorem wellSpaced_of_spaced (items : List (List Byte × Token)) (tail : List Byte)
    (hb : items.all (fun p => blank p.1 && p.2.wf) = true) (ht : blank tail = true)
    (hs : spaced items = true) : wellSpaced items tail = true := by
  induction items with
  | nil => exact ht
  | cons p r ih =>
    obtain ⟨ws, t⟩ := p
    simp only [List.all_cons, Bool.and_eq_true] at hb
    obtain ⟨⟨hb1, hb2⟩, hb3⟩ := hb
    have hr : spaced r = true := by
      cases r with
      | nil => rfl
      | cons q r2 =>
        obtain ⟨ws2, t2⟩ := q
        simp only [spaced, Bool.and_eq_true] at hs
        exact hs.2
    simp only [wellSpaced, Bool.and_eq_true]
    refine ⟨⟨⟨hb1, hb2⟩, ?_⟩, ih hb3 hr⟩
    cases r with
    | nil => exact boundary_tail t tail ht
    | cons q r2 =>
      obtain ⟨ws2, t2⟩ := q
      simp only [List.all_cons, Bool.and_eq_true] at hb3
      obtain ⟨⟨hq1, hq2⟩, -⟩ := hb3
      simp only [spaced, Bool.and_eq_true, Bool.or_eq_true, Bool.not_eq_true',
        List.isEmpty_eq_false] at hs
      rcases hs.1 with (h | h) | h
      · cases t <;> simp [Token.isSym] at h
        exact boundary_sym _ _
      · cases t2 <;> simp [Token.isSym] at h
        exact boundary_sym_next t ws2 _ r2 tail hq1 hq2
      · exact boundary_of_delim t (delim_next_cons_blank hq1 h)

/-- C11. Whitespace-insensitivity: for every list of keywords, identifiers,
integer literals and single-character symbols, written with any runs of
whitespace before, between and after them (a run may be empty in front of the
first token, at the end, and next to a symbol), repeated calls of `gettok` on
the text return exactly these tokens, each with its identifier or number
text, and then end-of-input. -/
theorem whitespace_insensitivity (items : List (List Byte × Token)) (tail : List Byte)
    (hb : items.all (fun p => blank p.1 && p.2.wf) = true) (ht : blank tail = true)
    (hs : spaced items = true) :
    Lexes (init (render items tail)) (items.map (fun p => p.2) ++ [Token.eof]) :=
  lexes_init items tail (wellSpaced_of_spaced items tail hb ht hs)

/-- C11 at `1+2` and ` 1 + 2 `: the same tokens. -/
theorem whitespace_insensitivity_witness :
    Lexes (init (bytes "1+2"))
        [.number (bytes "1"), .sym 43, .number (bytes "2"), .eof] ∧
      Lexes (init (bytes " 1 + 2 "))
        [.number (bytes "1"), .sym 43, .number (bytes "2"), .eof] :=
  ⟨whitespace_insensitivity
      [([], .number (bytes "1")), ([], .sym 43), ([], .number (bytes "2"))] []
      (by decide) (by decide) (by decide),
    whitespace_insensitivity
      [([32], .number (bytes "1")), ([32], .sym 43), ([32], .number (bytes "2"))] [32]
      (by decide) (by decide) (by decide)⟩

/-! ## Comments -/

theorem gettok_mono' (s : State) :
    ∀ n m r, gettok n s = some r → n ≤ m → gettok m s = some r :=
  fun _ _ _ h hnm => gettok_mono h hnm

theorem skipComment_body (s : State) (c : Byte) (body : List Byte) (nl : Byte)
    (rest : List Byte) (hbody : body.all (fun b => !isNewline (b.val : Int)) = true)
    (hnl : isNewline (nl.val : Int) = true) (n : Nat) (hn : body.length < n) :
    skipComment n (s.atText (c :: (body ++ nl :: rest))) = some (s.atText (nl :: rest)) := by
  induction body generalizing c n with
  | nil =>
    obtain ⟨n, rfl⟩ : ∃ k, n = k + 1 := ⟨n - 1, by simp at hn; omega⟩
    rw [skipComment]
    try dsimp only
    rw [List.nil_append, readChar_atText]
    have e : (s.atText (nl :: rest)).LastChar = (nl.val : Int) := rfl
    simp only [isNewline, Bool.or_eq_true, beq_iff_eq] at hnl
    rw [e]
    rcases hnl with h | h <;> simp [h, EOF]
  | cons b bs ih =>
    obtain ⟨n, rfl⟩ : ∃ k, n = k + 1 := ⟨n - 1, by simp at hn; omega⟩
    simp only [List.all_cons, Bool.and_eq_true, Bool.not_eq_true'] at hbody
    rw [skipComment]
    try dsimp only
    rw [List.cons_append, readChar_atText]
    have e : (s.atText (b :: (bs ++ nl :: rest))).LastChar = (b.val : Int) := rfl
    have hb := hbody.1
    simp only [isNewline, Bool.or_eq_false_iff, beq_eq_false_iff_ne, ne_eq] at hb
    have h1 : ((b.val : Int) != EOF) = true := by
      simp only [EOF, bne_iff_ne, ne_eq]; omega
    have h2 : ((b.val : Int) != 10) = true := by simpa using hb.1
    have h3 : ((b.val : Int) != 13) = true := by simpa using hb.2
    rw [e, h1, h2, h3]
    simp only [Bool.and_self, if_true]
    exact ih b (by simpa using hbody.2) n (by simp at hn; omega)

theorem skipComment_to_end (s : State) (c : Byte) (body : List Byte)
    (hbody : body.all (fun b => !isNewline (b.val : Int)) = true) (n : Nat)
    (hn : body.length < n) :
    skipComment n (s.atText (c :: body)) = some (s.atText []) := by
  induction body generalizing c n with
  | nil =>
    obtain ⟨n, rfl⟩ : ∃ k, n = k + 1 := ⟨n - 1, by simp at hn; omega⟩
    rfl
  | cons b bs ih =>
    obtain ⟨n, rfl⟩ : ∃ k, n = k + 1 := ⟨n - 1, by simp at hn; omega⟩
    simp only [List.all_cons, Bool.and_eq_true, Bool.not_eq_true'] at hbody
    rw [skipComment]
    try dsimp only
    rw [readChar_atText]
    have e : (s.atText (b :: bs)).LastChar = (b.val : Int) := rfl
    have hb := hbody.1
    simp only [isNewline, Bool.or_eq_false_iff, beq_eq_false_iff_ne, ne_eq] at hb
    have h1 : ((b.val : Int) != EOF) = true := by
      simp only [EOF, bne_iff_ne, ne_eq]; omega
    have h2 : ((b.val : Int) != 10) = true := by simpa using hb.1
    have h3 : ((b.val : Int) != 13) = true := by simpa using hb.2
    rw [e, h1, h2, h3]
    simp only [Bool.and_self, if_true]
    exact ih b (by simpa using hbody.2) n (by simp at hn; omega)

theorem gettok_step_comment {n : Nat} {s s1 s2 : State} (h1 : skipSpaces n s = some s1)
    (hc : s1.LastChar = 35) (h2 : skipComment n s1 = some s2) :
    gettok (n + 1) s = if s2.LastChar != EOF then gettok n s2 else some (gettokTail s2) := by
  rw [gettok, h1]
  simp [hc, h2, isalpha, isdigit]

theorem gettok_comment_line (s : State) (ws body : List Byte) (nl : Byte) (rest : List Byte)
    (hws : blank ws = true) (hbody : body.all (fun b => !isNewline (b.val : Int)) = true)
    (hnl : isNewline (nl.val : Int) = true) (n : Nat)
    (hn : ws.length + body.length < n) :
    gettok (n + 1) (s.atText (ws ++ 35 :: (body ++ nl :: rest))) =
      gettok n (s.atText (nl :: rest)) := by
  have h1 := skipSpaces_blank s ws (35 :: (body ++ nl :: rest)) hws rfl n (by omega)
  have h2 := skipComment_body s 35 body nl rest hbody hnl n (by omega)
  rw [gettok_step_comment h1 rfl h2]
  have e : (s.atText (nl :: rest)).LastChar = (nl.val : Int) := rfl
  have h3 : ((nl.val : Int) != EOF) = true := by
    simp only [EOF, bne_iff_ne, ne_eq]; omega
  rw [e, h3, if_pos rfl]

theorem gettok_comment_end (s : State) (ws body : List Byte)
    (hws : blank ws = true) (hbody : body.all (fun b => !isNewline (b.val : Int)) = true)
    (n : Nat) (hn : ws.length + body.length < n) :
    gettok (n + 1) (s.atText (ws ++ 35 :: body)) = some (tok_eof, s.atText []) := by
  have h1 := skipSpaces_blank s ws (35 :: body) hws rfl n (by omega)
  have h2 := skipComment_to_end s 35 body hbody n (by omega)
  rw [gettok_step_comment h1 rfl h2]
  rfl

/-- C12. Comment stripping: a call of `gettok` in front of a comment (after any
whitespace: `#`, a body without `'\n'` and `'\r'`, a newline, the text `rest`)
returns exactly what a call in front of that newline and `rest` returns, token
and state alike; and when the comment runs to the end of the input the call
returns end-of-input. -/
theorem comment_stripping (s : State) (ws body : List Byte) (nl : Byte) (rest : List Byte)
    (hws : blank ws = true) (hbody : body.all (fun b => !isNewline (b.val : Int)) = true)
    (hnl : isNewline (nl.val : Int) = true) :
    (∀ r, Returns (fun n => gettok n (s.atText (ws ++ 35 :: (body ++ nl :: rest)))) r ↔
      Returns (fun n => gettok n (s.atText (nl :: rest))) r) ∧
    Returns (fun n => gettok n (s.atText (ws ++ 35 :: body))) (tok_eof, s.atText []) := by
  refine ⟨fun r => ⟨?_, ?_⟩, ?_⟩
  · rintro ⟨n0, h⟩
    have h1 := h (max n0 (ws.length + body.length + 1) + 1) (by omega)
    dsimp only at h1
    rw [gettok_comment_line s ws body nl rest hws hbody hnl _ (by omega)] at h1
    exact returns_of_eval (gettok_mono' _) h1
  · rintro ⟨n0, h⟩
    refine ⟨max n0 (ws.length + body.length + 1) + 1, fun n hn => ?_⟩
    obtain ⟨m, rfl⟩ : ∃ k, n = k + 1 := ⟨n - 1, by omega⟩
    dsimp only
    rw [gettok_comment_line s ws body nl rest hws hbody hnl m (by omega)]
    exact h m (by omega)
  · refine ⟨ws.length + body.length + 2, fun n hn => ?_⟩
    obtain ⟨m, rfl⟩ : ∃ k, n = k + 1 := ⟨n - 1, by omega⟩
    exact gettok_comment_end s ws body hws hbody m (by omega)

/-- C12 at `1 # comment\n+2`: it gives the tokens of `1\n+2`. -/
theorem comment_stripping_witness :
    Lexes (init (bytes "1 # comment\n+2"))
        [.number (bytes "1"), .sym 43, .number (bytes "2"), .eof] ∧
      Lexes (init (bytes "1\n+2"))
        [.number (bytes "1"), .sym 43, .number (bytes "2"), .eof] :=
  ⟨⟨⟨32, bytes "# comment\n+2", [], bytes "1", 0⟩,
      returns_of_eval (n := 20) (gettok_mono' _) (by decide!), rfl,
      ⟨50, [], [], bytes "1", 0⟩,
      ((comment_stripping ⟨32, bytes "# comment\n+2", [], bytes "1", 0⟩ [32] (bytes " comment")
        10 (bytes "+2") (by decide) (by decide) (by decide)).1 _).mpr
        (returns_of_eval (n := 20) (gettok_mono' _) (by decide!)),
      trivial,
      ⟨-1, [], [], bytes "2", 0⟩,
      returns_of_eval (n := 20) (gettok_mono' _) (by decide!), rfl,
      ⟨-1, [], [], bytes "2", 0⟩,
      returns_of_eval (n := 20) (gettok_mono' _) (by decide!), trivial, trivial⟩,
    lexes_init [([], .number (bytes "1")), ([10], .sym 43), ([], .number (bytes "2"))] []
      (by decide)⟩

/-! ## Keywords and identifiers -/

/-- C13. Keyword and identifier classification: when the current character is
a letter, `gettok` reads the maximal run `w` of letters and digits, leaves the
cursor on the first character after it and `w` in `IdentifierStr`; the token
is `tok_def` exactly when `w` is `def`, `tok_extern` exactly when `w` is
`extern`, and `tok_identifier` otherwise. -/
theorem keyword_identifier_classification (s : State) (c : Byte) (cs rest : List Byte)
    (hc : isalpha (c.val : Int) = true)
    (hcs : cs.all (fun b => isalnum (b.val : Int)) = true)
    (hr : isalnum (next rest) = false) :
    ∃ t, Returns (fun n => gettok n (s.atText (c :: cs ++ rest)))
        (t, { s with IdentifierStr := c :: cs }.atText rest) ∧
      (t = tok_def ↔ c :: cs = bytes "def") ∧
      (t = tok_extern ↔ c :: cs = bytes "extern") ∧
      (c :: cs ≠ bytes "def" → c :: cs ≠ bytes "extern" → t = tok_identifier) := by
  refine ⟨classify (c :: cs), ⟨cs.length + 3, fun n hn => ?_⟩, ?_, ?_, ?_⟩
  · exact gettok_word s [] c cs rest rfl hc hcs hr n (by simp; omega)
  · unfold classify
    constructor
    · intro h
      by_contra hne
      rw [if_neg hne] at h
      split at h <;> simp [tok_def, tok_identifier, tok_extern] at h
    · intro h; rw [if_pos h]
  · unfold classify
    constructor
    · intro h
      by_contra hne
      rw [if_neg hne] at h
      split at h <;> simp [tok_def, tok_identifier, tok_extern] at h
    · intro h
      rw [if_pos h, if_neg (by rw [h]; decide)]
  · intro h1 h2
    unfold classify
    rw [if_neg h1, if_neg h2]

/-- C13 at `define`, followed by `(x)`: an identifier, not the keyword. -/
theorem keyword_identifier_classification_witness :
    ∃ t, Returns (fun n => gettok n ((init []).atText (bytes "define(x)")))
        (t, { init [] with IdentifierStr := bytes "define" }.atText (bytes "(x)")) ∧
      (t = tok_def ↔ bytes "define" = bytes "def") ∧
      (t = tok_extern ↔ bytes "define" = bytes "extern") ∧
      (bytes "define" ≠ bytes "def" → bytes "define" ≠ bytes "extern" → t = tok_identifier) :=
  keyword_identifier_classification (init []) 100 (bytes "efine") (bytes "(x)")
    (by decide) (by decide) (by decide)

/-! ## Prototypes -/

theorem Token.code_sym_iff (t : Token) (c : Byte) : t.code = (c.val : Int) ↔ t = .sym c := by
  cases t with
  | sym d =>
    simp only [Token.code, Token.sym.injEq]
    constructor
    · intro h; exact Fin.ext (by exact_mod_cast h)
    · intro h; rw [h]
  | _ =>
    simp only [Token.code, tok_eof, tok_def, tok_extern, tok_identifier, tok_number,
      reduceCtorEq, iff_false]

theorem Token.code_ident_iff (t : Token) : t.code = tok_identifier ↔ ∃ w, t = .ident w := by
  cases t with
  | ident w => simp [Token.code]
  | sym d =>
    simp only [Token.code, tok_identifier, reduceCtorEq, exists_false, iff_false]
  | _ => simp [Token.code, tok_eof, tok_def, tok_extern, tok_identifier, tok_number]

theorem readArgNames_stop {s s1 : State} {a : List (List Byte)}
    (h1 : Returns (fun n => getNextToken n s) s1) (hc : s1.CurTok ≠ tok_identifier) :
    Returns (fun n => readArgNames n a s) (a, s1) := by
  obtain ⟨n1, h1⟩ := h1
  refine ⟨n1 + 1, fun n hn => ?_⟩
  obtain ⟨m, rfl⟩ : ∃ k, n = k + 1 := ⟨n - 1, by omega⟩
  simp [readArgNames, h1 m (by omega), hc]

theorem readArgNames_more {s s1 : State} {a : List (List Byte)}
    {r : List (List Byte) × State}
    (h1 : Returns (fun n => getNextToken n s) s1) (hc : s1.CurTok = tok_identifier)
    (h2 : Returns (fun n => readArgNames n (a ++ [s1.IdentifierStr]) s1) r) :
    Returns (fun n => readArgNames n a s) r := by
  obtain ⟨n1, h1⟩ := h1
  obtain ⟨n2, h2⟩ := h2
  refine ⟨n1 + n2 + 1, fun n hn => ?_⟩
  obtain ⟨m, rfl⟩ : ∃ k, n = k + 1 := ⟨n - 1, by omega⟩
  simp [readArgNames, h1 m (by omega), hc, h2 m (by omega)]

theorem ParsePrototype_no_name {s : State} (hc : s.CurTok ≠ tok_identifier) :
    Returns (fun n => ParsePrototype n s) (.error "Expected function name in prototype", s) :=
  ⟨0, fun n _ => by simp [ParsePrototype, hc]⟩

theorem ParsePrototype_no_open {s s1 : State} (hs : s.CurTok = tok_identifier)
    (h1 : Returns (fun n => getNextToken n s) s1) (hc : s1.CurTok ≠ 40) :
    Returns (fun n => ParsePrototype n s) (.error "Expected '(' in prototype", s1) := by
  obtain ⟨n1, h1⟩ := h1
  refine ⟨n1, fun n hn => ?_⟩
  simp [ParsePrototype, hs, h1 n hn, hc]

theorem ParsePrototype_no_close {s s1 s2 : State} {names : List (List Byte)}
    (hs : s.CurTok = tok_identifier)
    (h1 : Returns (fun n => getNextToken n s) s1) (hc : s1.CurTok = 40)
    (h2 : Returns (fun n => readArgNames n [] s1) (names, s2)) (hd : s2.CurTok ≠ 41) :
    Returns (fun n => ParsePrototype n s) (.error "Expected ')' in prototype", s2) := by
  obtain ⟨n1, h1⟩ := h1
  obtain ⟨n2, h2⟩ := h2
  refine ⟨n1 + n2, fun n hn => ?_⟩
  simp [ParsePrototype, hs, h1 n (by omega), hc, h2 n (by omega), hd]

theorem ParsePrototype_ok {s s1 s2 s3 : State} {names : List (List Byte)}
    (hs : s.CurTok = tok_identifier)
    (h1 : Returns (fun n => getNextToken n s) s1) (hc : s1.CurTok = 40)
    (h2 : Returns (fun n => readArgNames n [] s1) (names, s2)) (hd : s2.CurTok = 41)
    (h3 : Returns (fun n => getNextToken n s2) s3) :
    Returns (fun n => ParsePrototype n s) (.ok ⟨s.IdentifierStr, names⟩, s3) := by
  obtain ⟨n1, h1⟩ := h1
  obtain ⟨n2, h2⟩ := h2
  obtain ⟨n3, h3⟩ := h3
  refine ⟨n1 + n2 + n3, fun n hn => ?_⟩
  simp [ParsePrototype, hs, h1 n (by omega), hc, h2 n (by omega), hd, h3 n (by omega)]

theorem identRun_append_eof (r : List Token) :
    identRun (r ++ [Token.eof]) = ((identRun r).1, (identRun r).2 ++ [Token.eof]) := by
  induction r with
  | nil => rfl
  | cons t r ih => cases t <;> simp [identRun, ih]

theorem readArgNames_run (r : List Token) (acc : List (List Byte)) (s : State)
    (h : Feeds s (r ++ [Token.eof])) :
    ∃ s2, Returns (fun n => readArgNames n acc s) (acc ++ (identRun r).1, s2) ∧
      Reads s2 ((identRun r).2 ++ [Token.eof]) := by
  induction r generalizing acc s with
  | nil =>
    obtain ⟨s1, h1, h2, h3⟩ := h
    refine ⟨s1, ?_, h2, h3⟩
    have := readArgNames_stop (a := acc) h1 (by rw [h2.1]; decide)
    simpa [identRun] using this
  | cons t r ih =>
    obtain ⟨s1, h1, h2, h3⟩ := h
    by_cases ht : ∃ w, t = .ident w
    · obtain ⟨w, rfl⟩ := ht
      have hw : s1.IdentifierStr = w := h2.2
      obtain ⟨s2, h4, h5⟩ := ih (acc ++ [w]) s1 h3
      refine ⟨s2, ?_, by simpa [identRun] using h5⟩
      have := readArgNames_more (a := acc) h1 h2.1 (by rw [hw]; exact h4)
      simpa [identRun] using this
    · have hc : s1.CurTok ≠ tok_identifier := by
        rw [h2.1]; exact fun h => ht ((Token.code_ident_iff t).mp h)
      have e : identRun (t :: r) = ([], t :: r) := by
        cases t <;> first | rfl | exact absurd ⟨_, rfl⟩ ht
      refine ⟨s1, ?_, ?_⟩
      · have := readArgNames_stop (a := acc) h1 hc
        simpa [e] using this
      · rw [e]; exact ⟨h2, h3⟩
theorem prototypeSpec_open (name : List Byte) (r : List Token) :
    prototypeSpec (.ident name :: .sym 40 :: (r ++ [Token.eof])) =
      match (identRun r).2 ++ [Token.eof] with
      | u :: after =>
        if u = .sym 41 then (.ok ⟨name, (identRun r).1⟩, after)
        else (.error "Expected ')' in prototype", u :: after)
      | [] => (.error "Expected ')' in prototype", []) := by
  rw [prototypeSpec, if_pos rfl, identRun_append_eof]

theorem prototypeSpec_other (t : Token) (r : List Token) (ht : ¬ ∃ w, t = .ident w) :
    prototypeSpec (t :: r) = (.error "Expected function name in prototype", t :: r) := by
  cases t with
  | ident w => exact absurd ⟨w, rfl⟩ ht
  | _ => rfl

theorem feeds_next (xs : List Token) (y : Token) (s : State) (h : Feeds s (xs ++ [y])) :
    ∃ s1, Returns (fun n => getNextToken n s) s1 ∧ Reads s1 (xs ++ [y]) := by
  cases xs with
  | nil => obtain ⟨s1, h1, h2, h3⟩ := h; exact ⟨s1, h1, h2, h3⟩
  | cons x r => obtain ⟨s1, h1, h2, h3⟩ := h; exact ⟨s1, h1, h2, h3⟩

/-- C14. Prototype parsing, on the tokens from the current one on (the list
`toks`, then end-of-input): `ParsePrototype` returns what the specification
says, the prototype with the parameters in order when the tokens are an
identifier, `(`, identifiers and `)`, and otherwise the message for the first
token that does not fit; the current token is then the one the specification
names: the one after `)` on success, the offending one on failure. -/
theorem prototype_parsing (toks : List Token) (s : State)
    (h : Reads s (toks ++ [Token.eof])) :
    ∃ s1, Returns (fun n => ParsePrototype n s) ((prototypeSpec (toks ++ [Token.eof])).1, s1) ∧
      Reads s1 (prototypeSpec (toks ++ [Token.eof])).2 := by
  cases toks with
  | nil =>
    refine ⟨s, ?_, h⟩
    exact ParsePrototype_no_name (by rw [h.1.1]; decide)
  | cons t toks1 =>
    by_cases ht : ∃ w, t = .ident w
    · obtain ⟨name, rfl⟩ := ht
      cases toks1 with
      | nil =>
        obtain ⟨hsh, s1, h1, hsh1, hf1⟩ := h
        refine ⟨s1, ?_, ⟨hsh1, hf1⟩⟩
        exact ParsePrototype_no_open hsh.1 h1 (by rw [hsh1.1]; decide)
      | cons t2 r =>
        obtain ⟨hsh, s1, h1, hsh1, hf1⟩ := h
        by_cases h40 : t2 = .sym 40
        · subst h40
          obtain ⟨s2, h2, h3⟩ := readArgNames_run r [] s1 hf1
          rw [List.nil_append] at h2
          show ∃ s1, Returns _ ((prototypeSpec (.ident name :: .sym 40 :: (r ++ [Token.eof]))).1, s1)
            ∧ Reads s1 (prototypeSpec (.ident name :: .sym 40 :: (r ++ [Token.eof]))).2
          rw [prototypeSpec_open]
          cases hrun : (identRun r).2 with
          | nil =>
            rw [hrun] at h3
            refine ⟨s2, ?_, h3⟩
            exact ParsePrototype_no_close hsh.1 h1 hsh1.1 h2 (by rw [h3.1.1]; decide)
          | cons u after =>
            rw [hrun] at h3
            by_cases h41 : u = .sym 41
            · subst h41
              obtain ⟨hsh2, hf2⟩ := h3
              obtain ⟨s3, h4, hr3⟩ := feeds_next after Token.eof s2 hf2
              refine ⟨s3, ?_, hr3⟩
              have := ParsePrototype_ok hsh.1 h1 hsh1.1 h2 hsh2.1 h4
              rw [hsh.2] at this
              simpa using this
            · refine ⟨s2, ?_, by simpa [h41] using h3⟩
              have hd : s2.CurTok ≠ 41 := by
                rw [h3.1.1]
                exact fun hc => h41 ((Token.code_sym_iff u 41).mp hc)
              simpa [h41] using ParsePrototype_no_close hsh.1 h1 hsh1.1 h2 hd
        · refine ⟨s1, ?_, ?_⟩
          · have hd : s1.CurTok ≠ 40 := by
              rw [hsh1.1]
              exact fun hc => h40 ((Token.code_sym_iff t2 40).mp hc)
            simpa [prototypeSpec, h40] using ParsePrototype_no_open hsh.1 h1 hd
          · simpa [prototypeSpec, h40] using (⟨hsh1, hf1⟩ : Reads s1 (t2 :: (r ++ [Token.eof])))
    · have hc : s.CurTok ≠ tok_identifier := by
        rw [h.1.1]; exact fun hc => ht ((Token.code_ident_iff t).mp hc)
      show ∃ s1, Returns _ ((prototypeSpec (t :: (toks1 ++ [Token.eof]))).1, s1)
        ∧ Reads s1 (prototypeSpec (t :: (toks1 ++ [Token.eof]))).2
      rw [prototypeSpec_other t _ ht]
      exact ⟨s, ParsePrototype_no_name hc, h⟩

/-- C14 at `fib(x y)`. -/
theorem prototype_parsing_witness :
    ∃ s1, Returns (fun n => onText ParsePrototype n (bytes "fib(x y)"))
        (.ok ⟨bytes "fib", [bytes "x", bytes "y"]⟩, s1) ∧ s1.CurTok = tok_eof := by
  obtain ⟨s, hn, hsh, hfs⟩ := feeds_init
    [([], .ident (bytes "fib")), ([], .sym 40), ([], .ident (bytes "x")),
      ([32], .ident (bytes "y")), ([], .sym 41)] [] (by decide)
  obtain ⟨s1, hr, hrd⟩ := prototype_parsing
    [.ident (bytes "fib"), .sym 40, .ident (bytes "x"), .ident (bytes "y"), .sym 41] s
    ⟨hsh, hfs⟩
  exact ⟨s1, onText_returns hn hr, hrd.1.1⟩

/-! ## Top-level expressions and the precedence table -/

/-- C15. Top-level expression wrapping: with any budget and in any state,
`ParseTopLevelExpr` returns what `ParseExpression` returns, in the same final
state, with a node wrapped as the body of a function whose prototype has the
empty name and no parameters, and a failure left as it is; it succeeds exactly
when `ParseExpression` does. -/
theorem top_level_wrapping (n : Nat) (s : State) :
    ParseTopLevelExpr n s =
      (ParseExpression n s).map (fun r => (Except.map anonymous r.1, r.2)) := by
  unfold ParseTopLevelExpr
  cases h : ParseExpression n s with
  | none => rfl
  | some r =>
    obtain ⟨res, s1⟩ := r
    cases res <;> rfl

/-! ## The operators of `Binary` nodes -/

theorem opsOkList_append (a : List ExprAST) (x : ExprAST) :
    ExprAST.opsOkList (a ++ [x]) = (ExprAST.opsOkList a && x.opsOk) := by
  induction a with
  | nil => simp [ExprAST.opsOkList]
  | cons y r ih => simp [ExprAST.opsOkList, ih, Bool.and_assoc]

theorem isTableOp_of_prec {s : State} (h : 0 ≤ GetTokPrecendence s) :
    isTableOp s.CurTok = true := by
  unfold GetTokPrecendence at h
  by_cases ha : (!isascii s.CurTok) = true
  · rw [if_pos ha] at h; omega
  · rw [if_neg ha] at h
    dsimp only at h
    by_cases hb : BinopPrecendence s.CurTok ≤ 0
    · rw [if_pos hb] at h; omega
    · rcases binop_cases (not_le.mp hb) with h1 | h1 | h1 | h1 | h1 <;> simp [isTableOp, h1]

theorem parserOpsOk (n : Nat) : ParserOpsOk n := by
  induction n with
  | zero =>
    refine ⟨?_, ?_, ?_, ?_, ?_, ?_⟩ <;> intros <;>
      simp_all [ParseParenExpr, ParseArgs, ParseIdentifierExpr, ParsePrimary, ParseBinOpRHS,
        ParseExpression]
  | succ n ih =>
    obtain ⟨ihParen, ihArgs, ihId, ihPrim, ihRHS, ihExpr⟩ := ih
    refine ⟨?_, ?_, ?_, ?_, ?_, ?_⟩
    · intro s e s1 h
      rw [ParseParenExpr] at h
      cases h1 : getNextToken n s with
      | none => rw [h1] at h; simp at h
      | some t1 =>
        rw [h1] at h; dsimp only at h
        cases h2 : ParseExpression n t1 with
        | none => rw [h2] at h; simp at h
        | some r2 =>
          rw [h2] at h
          obtain ⟨res, t2⟩ := r2
          cases res with
          | error m => simp at h
          | ok V =>
            dsimp only at h
            have hV := ihExpr _ _ _ h2
            by_cases hc : (t2.CurTok != 41) = true
            · rw [if_pos hc] at h; simp at h
            · rw [if_neg hc] at h
              cases h3 : getNextToken n t2 with
              | none => rw [h3] at h; simp at h
              | some t3 =>
                rw [h3] at h
                simp only [Option.some.injEq, Prod.mk.injEq, Except.ok.injEq] at h
                rw [← h.1]; exact hV
    · intro a s l s1 h ha
      rw [ParseArgs] at h
      cases h2 : ParseExpression n s with
      | none => rw [h2] at h; simp at h
      | some r2 =>
        rw [h2] at h
        obtain ⟨res, t1⟩ := r2
        cases res with
        | error m => simp at h
        | ok Arg =>
          dsimp only at h
          have hA := ihExpr _ _ _ h2
          have hl : ExprAST.opsOkList (a ++ [Arg]) = true := by
            rw [opsOkList_append, ha, hA]; rfl
          by_cases hc : (t1.CurTok == 41) = true
          · rw [if_pos hc] at h
            simp only [Option.some.injEq, Prod.mk.injEq, Except.ok.injEq] at h
            rw [← h.1]; exact hl
          · rw [if_neg hc] at h
            by_cases hd : (t1.CurTok != 44) = true
            · rw [if_pos hd] at h; simp at h
            · rw [if_neg hd] at h
              cases h3 : getNextToken n t1 with
              | none => rw [h3] at h; simp at h
              | some t2 =>
                rw [h3] at h
                exact ihArgs _ _ _ _ h hl
    · intro s e s1 h
      rw [ParseIdentifierExpr] at h
      try dsimp only at h
      cases h1 : getNextToken n s with
      | none => rw [h1] at h; simp at h
      | some t1 =>
        rw [h1] at h; dsimp only at h
        by_cases hc : (t1.CurTok != 40) = true
        · rw [if_pos hc] at h
          simp only [Option.some.injEq, Prod.mk.injEq, Except.ok.injEq] at h
          rw [← h.1]; rfl
        · rw [if_neg hc] at h
          cases h2 : getNextToken n t1 with
          | none => rw [h2] at h; simp at h
          | some t2 =>
            rw [h2] at h; dsimp only at h
            by_cases hd : (t2.CurTok != 41) = true
            · rw [if_pos hd] at h
              cases h3 : ParseArgs n [] t2 with
              | none => rw [h3] at h; simp at h
              | some r3 =>
                rw [h3] at h
                obtain ⟨res, t3⟩ := r3
                cases res with
                | error m => simp at h
                | ok Args =>
                  dsimp only at h
                  have hA := ihArgs _ _ _ _ h3 rfl
                  cases h4 : getNextToken n t3 with
                  | none => rw [h4] at h; simp at h
                  | some t4 =>
                    rw [h4] at h
                    simp only [Option.some.injEq, Prod.mk.injEq, Except.ok.injEq] at h
                    rw [← h.1]; exact hA
            · rw [if_neg hd] at h
              cases h4 : getNextToken n t2 with
              | none => rw [h4] at h; simp at h
              | some t4 =>
                rw [h4] at h
                simp only [Option.some.injEq, Prod.mk.injEq, Except.ok.injEq] at h
                rw [← h.1]; rfl
    · intro s e s1 h
      rw [ParsePrimary] at h
      by_cases hc : (s.CurTok == tok_identifier) = true
      · rw [if_pos hc] at h; exact ihId _ _ _ h
      · rw [if_neg hc] at h
        by_cases hd : (s.CurTok == tok_number) = true
        · rw [if_pos hd] at h
          unfold ParseNumberExpr at h
          cases h1 : getNextToken n s with
          | none => rw [h1] at h; simp at h
          | some t1 =>
            rw [h1] at h
            simp only [Option.some.injEq, Prod.mk.injEq, Except.ok.injEq] at h
            rw [← h.1]; rfl
        · rw [if_neg hd] at h
          by_cases he : (s.CurTok == 40) = true
          · rw [if_pos he] at h; exact ihParen _ _ _ h
          · rw [if_neg he] at h; simp at h
    · intro p L s e s1 h hp hL
      rw [ParseBinOpRHS] at h
      try dsimp only at h
      by_cases hc : GetTokPrecendence s < p
      · rw [if_pos hc] at h
        simp only [Option.some.injEq, Prod.mk.injEq, Except.ok.injEq] at h
        rw [← h.1]; exact hL
      · rw [if_neg hc] at h
        have hop : isTableOp s.CurTok = true := isTableOp_of_prec (by omega)
        cases h1 : getNextToken n s with
        | none => rw [h1] at h; simp at h
        | some t1 =>
          rw [h1] at h; dsimp only at h
          cases h2 : ParsePrimary n t1 with
          | none => rw [h2] at h; simp at h
          | some r2 =>
            rw [h2] at h
            obtain ⟨res, t2⟩ := r2
            cases res with
            | error m => simp at h
            | ok RHS =>
              dsimp only at h
              have hR := ihPrim _ _ _ h2
              by_cases hd : GetTokPrecendence s < GetTokPrecendence t2
              · rw [if_pos hd] at h
                cases h3 : ParseBinOpRHS n (GetTokPrecendence s + 1) RHS t2 with
                | none => rw [h3] at h; simp at h
                | some r3 =>
                  rw [h3] at h
                  obtain ⟨res3, t3⟩ := r3
                  cases res3 with
                  | error m => simp at h
                  | ok RHS1 =>
                    dsimp only at h
                    have hR1 := ihRHS _ _ _ _ _ h3 (by omega) hR
                    exact ihRHS _ _ _ _ _ h hp (by simp [ExprAST.opsOk, hop, hL, hR1])
              · rw [if_neg hd] at h
                exact ihRHS _ _ _ _ _ h hp (by simp [ExprAST.opsOk, hop, hL, hR])
    · intro s e s1 h
      rw [ParseExpression] at h
      cases h2 : ParsePrimary n s with
      | none => rw [h2] at h; simp at h
      | some r2 =>
        rw [h2] at h
        obtain ⟨res, t1⟩ := r2
        cases res with
        | error m => simp at h
        | ok LHS =>
          dsimp only at h
          exact ihRHS _ _ _ _ _ h (le_refl _) (ihPrim _ _ _ h2)

/-- C16. Operator invariant: in every tree `ParseExpression` returns, and so in
the body of every function `ParseDefinition` or `ParseTopLevelExpr` returns,
with any budget and in any state, every `Binary` node at every depth (inside
call arguments and parenthesized expressions too) has one of the operators
`<`, `+`, `-`, `*`, `/`. -/
theorem operator_invariant (n : Nat) (s : State) :
    (∀ e s1, ParseExpression n s = some (.ok e, s1) → e.opsOk = true) ∧
    (∀ f s1, ParseDefinition n s = some (.ok f, s1) → f.Body.opsOk = true) ∧
    (∀ f s1, ParseTopLevelExpr n s = some (.ok f, s1) → f.Body.opsOk = true) := by
  refine ⟨fun e s1 h => (parserOpsOk n).2.2.2.2.2 s e s1 h, ?_, ?_⟩
  · intro f s1 h
    unfold ParseDefinition at h
    cases h1 : getNextToken n s with
    | none => rw [h1] at h; simp at h
    | some t1 =>
      rw [h1] at h; dsimp only at h
      cases h2 : ParsePrototype n t1 with
      | none => rw [h2] at h; simp at h
      | some r2 =>
        rw [h2] at h
        obtain ⟨res, t2⟩ := r2
        cases res with
        | error m => simp at h
        | ok Proto =>
          dsimp only at h
          cases h3 : ParseExpression n t2 with
          | none => rw [h3] at h; simp at h
          | some r3 =>
            rw [h3] at h
            obtain ⟨res3, t3⟩ := r3
            cases res3 with
            | error m => simp at h
            | ok E =>
              simp only [Option.some.injEq, Prod.mk.injEq, Except.ok.injEq] at h
              rw [← h.1]
              exact (parserOpsOk n).2.2.2.2.2 t2 E t3 h3
  · intro f s1 h
    unfold ParseTopLevelExpr at h
    cases h3 : ParseExpression n s with
    | none => rw [h3] at h; simp at h
    | some r3 =>
      rw [h3] at h
      obtain ⟨res3, t3⟩ := r3
      cases res3 with
      | error m => simp at h
      | ok E =>
        simp only [Option.some.injEq, Prod.mk.injEq, Except.ok.injEq] at h
        rw [← h.1]
        exact (parserOpsOk n).2.2.2.2.2 s E t3 h3

/-- C16 at `f(1+2)*(3<x)`, in the state `main` reaches after its first
`getNextToken`. -/
theorem operator_invariant_witness :
    ParseExpression 30 ⟨40, bytes "1+2)*(3<x)", bytes "f", [], tok_identifier⟩ =
        some (.ok (.Binary 42
          (.Call (bytes "f") [.Binary 43 (.Number (bytes "1")) (.Number (bytes "2"))])
          (.Binary 60 (.Number (bytes "3")) (.Variable (bytes "x")))),
          ⟨-1, [], bytes "x", bytes "3", tok_eof⟩) ∧
      ExprAST.opsOk (.Binary 42
          (.Call (bytes "f") [.Binary 43 (.Number (bytes "1")) (.Number (bytes "2"))])
          (.Binary 60 (.Number (bytes "3")) (.Variable (bytes "x")))) = true :=
  ⟨by decide!,
    (operator_invariant 30 ⟨40, bytes "1+2)*(3<x)", bytes "f", [], tok_identifier⟩).1 _
      ⟨-1, [], bytes "x", bytes "3", tok_eof⟩ (by decide!)⟩

/-- C17. Precedence table: `GetTokPrecendence` returns 10 when the current
token is `<`, 20 for `+` and `-`, 40 for `*` and `/`, and -1 for every other
current token. -/
theorem precedence_table (s : State) :
    GetTokPrecendence s =
      if s.CurTok = 60 then 10
      else if s.CurTok = 43 ∨ s.CurTok = 45 then 20
      else if s.CurTok = 42 ∨ s.CurTok = 47 then 40
      else -1 := by
  unfold GetTokPrecendence BinopPrecendence isascii
  by_cases h1 : s.CurTok = 60
  · simp [h1]
  by_cases h2 : s.CurTok = 43
  · simp [h2]
  by_cases h3 : s.CurTok = 45
  · simp [h3]
  by_cases h4 : s.CurTok = 42
  · simp [h4]
  by_cases h5 : s.CurTok = 47
  · simp [h5]
  simp [h1, h2, h3, h4, h5]

/-! ## The parser returns on every token stream -/

theorem left_next {k : Nat} {s : State} (h : Left k s) :
    ∃ s1, Returns (fun n => getNextToken n s) s1 ∧ Left (k - 1) s1 := by
  cases k with
  | zero =>
    refine ⟨s, ⟨2, fun n hn => ?_⟩, h⟩
    obtain ⟨h1, h2⟩ := h
    simp only [getNextToken, gettok_at_eof s h2 n hn]
    rw [← h1]
  | succ k => exact h

theorem left_pos {k : Nat} {s : State} (h : Left k s) (hc : s.CurTok ≠ tok_eof) : 0 < k := by
  cases k with
  | zero => exact absurd h.1 hc
  | succ k => exact Nat.succ_pos k

theorem ParsePrimary_paren_error {s s1 s2 : State} {e : String} (hs : s.CurTok = 40)
    (h1 : Returns (fun n => getNextToken n s) s1)
    (h2 : Returns (fun n => ParseExpression n s1) (.error e, s2)) :
    Returns (fun n => ParsePrimary n s) (.error e, s2) := by
  obtain ⟨n1, h1⟩ := h1
  obtain ⟨n2, h2⟩ := h2
  refine ⟨n1 + n2 + 2, fun n hn => ?_⟩
  obtain ⟨m, rfl⟩ : ∃ k, n = k + 2 := ⟨n - 2, by omega⟩
  simp [ParsePrimary, ParseParenExpr, hs, tok_number, tok_identifier, h1 m (by omega),
    h2 m (by omega)]

theorem ParseArgs_bad {s s1 : State} {a : List ExprAST} {A : ExprAST}
    (h1 : Returns (fun n => ParseExpression n s) (.ok A, s1)) (hc : s1.CurTok ≠ 41)
    (hd : s1.CurTok ≠ 44) :
    Returns (fun n => ParseArgs n a s) (.error "Expected ')' or ',' in argument list", s1) := by
  obtain ⟨n1, h1⟩ := h1
  refine ⟨n1 + 1, fun n hn => ?_⟩
  obtain ⟨m, rfl⟩ : ∃ k, n = k + 1 := ⟨n - 1, by omega⟩
  simp [ParseArgs, h1 m (by omega), hc, hd]

theorem ParseBinOpRHS_climb_error {s s1 s2 s3 : State} {p : Int} {L R : ExprAST} {e : String}
    (hp : p ≤ GetTokPrecendence s)
    (h1 : Returns (fun n => getNextToken n s) s1)
    (h2 : Returns (fun n => ParsePrimary n s1) (.ok R, s2))
    (hq : GetTokPrecendence s < GetTokPrecendence s2)
    (h3 : Returns (fun n => ParseBinOpRHS n (GetTokPrecendence s + 1) R s2) (.error e, s3)) :
    Returns (fun n => ParseBinOpRHS n p L s) (.error e, s3) := by
  obtain ⟨n1, h1⟩ := h1
  obtain ⟨n2, h2⟩ := h2
  obtain ⟨n3, h3⟩ := h3
  refine ⟨n1 + n2 + n3 + 1, fun n hn => ?_⟩
  obtain ⟨m, rfl⟩ : ∃ k, n = k + 1 := ⟨n - 1, by omega⟩
  simp [ParseBinOpRHS, not_lt.mpr hp, h1 m (by omega), h2 m (by omega), hq, h3 m (by omega)]

theorem ParseIdentifierExpr_variable {s s1 : State}
    (h1 : Returns (fun n => getNextToken n s) s1) (hc : s1.CurTok ≠ 40) :
    Returns (fun n => ParseIdentifierExpr n s) (.ok (.Variable s.IdentifierStr), s1) := by
  obtain ⟨n1, h1⟩ := h1
  refine ⟨n1 + 1, fun n hn => ?_⟩
  obtain ⟨m, rfl⟩ : ∃ k, n = k + 1 := ⟨n - 1, by omega⟩
  simp [ParseIdentifierExpr, h1 m (by omega), hc]

theorem prec_nonneg_ne_eof {s : State} (h : 0 ≤ GetTokPrecendence s) : s.CurTok ≠ tok_eof := by
  intro hc
  simp [GetTokPrecendence, hc, tok_eof, isascii] at h
theorem total_rhs (k : Nat) (ih : ∀ j, j < k → ParserTotal j) (s : State) (h : Left k s)
    (p : Int) (L : ExprAST) (hp : 0 ≤ p) : Stops (fun n => ParseBinOpRHS n p L s) k := by
  by_cases hc : GetTokPrecendence s < p
  · exact ⟨.ok L, s, k, ParseBinOpRHS_stop hc, h, le_refl _⟩
  · have hp1 : p ≤ GetTokPrecendence s := not_lt.mp hc
    have hpos : 0 < k := left_pos h (prec_nonneg_ne_eof (by omega))
    obtain ⟨s1, h1, hl1⟩ := left_next h
    obtain ⟨r2, s2, j2, hr2, hl2, hj2, -⟩ := (ih (k - 1) (by omega) s1 hl1).1
    cases r2 with
    | error e => exact ⟨.error e, s2, j2, ParseBinOpRHS_error hp1 h1 hr2, hl2, by omega⟩
    | ok R =>
      by_cases hq : GetTokPrecendence s < GetTokPrecendence s2
      · obtain ⟨r3, s3, j3, hr3, hl3, hj3⟩ :=
          (ih j2 (by omega) s2 hl2).2.2.2 (GetTokPrecendence s + 1) R (by omega)
        cases r3 with
        | error e =>
          exact ⟨.error e, s3, j3, ParseBinOpRHS_climb_error hp1 h1 hr2 hq hr3, hl3, by omega⟩
        | ok R1 =>
          obtain ⟨r4, s4, j4, hr4, hl4, hj4⟩ :=
            (ih j3 (by omega) s3 hl3).2.2.2 p (.Binary s.CurTok L R1) hp
          exact ⟨r4, s4, j4, ParseBinOpRHS_climb hp1 h1 hr2 hq hr3 hr4, hl4, by omega⟩
      · obtain ⟨r4, s4, j4, hr4, hl4, hj4⟩ :=
          (ih j2 (by omega) s2 hl2).2.2.2 p (.Binary s.CurTok L R) hp
        exact ⟨r4, s4, j4, ParseBinOpRHS_step hp1 h1 hr2 (not_lt.mp hq) hr4, hl4, by omega⟩

theorem total_primary (k : Nat) (ih : ∀ j, j < k → ParserTotal j) (s : State)
    (h : Left k s) : StopsAhead (fun n => ParsePrimary n s) k := by
  by_cases hi : s.CurTok = tok_identifier
  · have hpos : 0 < k := left_pos h (by rw [hi]; decide)
    obtain ⟨s1, h1, hl1⟩ := left_next h
    by_cases hc : s1.CurTok = 40
    · obtain ⟨s2, h2, hl2⟩ := left_next hl1
      by_cases hd : s2.CurTok = 41
      · obtain ⟨s4, h4, hl4⟩ := left_next hl2
        exact ⟨.ok (.Call s.IdentifierStr []), s4, k - 1 - 1 - 1,
          ParsePrimary_identifier hi (ParseIdentifierExpr_call_empty h1 hc h2 hd h4), hl4,
          by omega, fun _ _ => by omega⟩
      · obtain ⟨r3, s3, j3, hr3, hl3, hj3, -⟩ := (ih (k - 1 - 1) (by omega) s2 hl2).2.2.1 []
        cases r3 with
        | error e =>
          exact ⟨.error e, s3, j3,
            ParsePrimary_identifier hi (ParseIdentifierExpr_call_error h1 hc h2 hd hr3), hl3,
            by omega, fun v hv => by cases hv⟩
        | ok Args =>
          obtain ⟨s4, h4, hl4⟩ := left_next hl3
          exact ⟨.ok (.Call s.IdentifierStr Args), s4, j3 - 1,
            ParsePrimary_identifier hi (ParseIdentifierExpr_call h1 hc h2 hd hr3 h4), hl4,
            by omega, fun _ _ => by omega⟩
    · exact ⟨.ok (.Variable s.IdentifierStr), s1, k - 1, ParsePrimary_variable hi h1 hc, hl1,
        by omega, fun _ _ => by omega⟩
  · by_cases hn : s.CurTok = tok_number
    · have hpos : 0 < k := left_pos h (by rw [hn]; decide)
      obtain ⟨s1, h1, hl1⟩ := left_next h
      exact ⟨.ok (.Number s.NumVal), s1, k - 1, ParsePrimary_number hn h1, hl1, by omega,
        fun _ _ => by omega⟩
    · by_cases hp : s.CurTok = 40
      · have hpos : 0 < k := left_pos h (by rw [hp]; decide)
        obtain ⟨s1, h1, hl1⟩ := left_next h
        obtain ⟨r2, s2, j2, hr2, hl2, hj2, -⟩ := (ih (k - 1) (by omega) s1 hl1).2.1
        cases r2 with
        | error e =>
          exact ⟨.error e, s2, j2, ParsePrimary_paren_error hp h1 hr2, hl2, by omega,
            fun v hv => by cases hv⟩
        | ok V =>
          by_cases hc : s2.CurTok = 41
          · obtain ⟨s3, h3, hl3⟩ := left_next hl2
            exact ⟨.ok V, s3, j2 - 1, ParsePrimary_paren hp h1 hr2 hc h3, hl3, by omega,
              fun _ _ => by omega⟩
          · exact ⟨.error "expected ')'", s2, j2, ParsePrimary_paren_unclosed hp h1 hr2 hc,
              hl2, by omega, fun v hv => by cases hv⟩
      · exact ⟨.error "unknown token when expecting an expression", s, k,
          ParsePrimary_unknown hi hn hp, h, le_refl _, fun v hv => by cases hv⟩

theorem total_expression (k : Nat) (ih : ∀ j, j < k → ParserTotal j) (s : State)
    (hprim : StopsAhead (fun n => ParsePrimary n s) k) :
    StopsAhead (fun n => ParseExpression n s) k := by
  obtain ⟨r1, s1, j1, hr1, hl1, hj1, hs1⟩ := hprim
  cases r1 with
  | error e =>
    exact ⟨.error e, s1, j1, ParseExpression_error hr1, hl1, hj1, fun v hv => by cases hv⟩
  | ok L =>
    have hlt := hs1 L rfl
    obtain ⟨r2, s2, j2, hr2, hl2, hj2⟩ := (ih j1 hlt s1 hl1).2.2.2 0 L (le_refl _)
    exact ⟨r2, s2, j2, ParseExpression_of hr1 hr2, hl2, by omega, fun _ _ => by omega⟩

theorem total_args (k : Nat) (ih : ∀ j, j < k → ParserTotal j) (s : State)
    (hexpr : StopsAhead (fun n => ParseExpression n s) k) (a : List ExprAST) :
    StopsAhead (fun n => ParseArgs n a s) k := by
  obtain ⟨r1, s1, j1, hr1, hl1, hj1, hs1⟩ := hexpr
  cases r1 with
  | error e =>
    exact ⟨.error e, s1, j1, ParseArgs_error hr1, hl1, hj1, fun v hv => by cases hv⟩
  | ok A =>
    have hlt := hs1 A rfl
    by_cases hc : s1.CurTok = 41
    · exact ⟨.ok (a ++ [A]), s1, j1, ParseArgs_last hr1 hc, hl1, hj1, fun _ _ => hlt⟩
    · by_cases hd : s1.CurTok = 44
      · have hpos : 0 < j1 := left_pos hl1 (by rw [hd]; decide)
        obtain ⟨s2, h2, hl2⟩ := left_next hl1
        obtain ⟨r3, s3, j3, hr3, hl3, hj3, -⟩ :=
          (ih (j1 - 1) (by omega) s2 hl2).2.2.1 (a ++ [A])
        exact ⟨r3, s3, j3, ParseArgs_more hr1 hd h2 hr3, hl3, by omega, fun _ _ => by omega⟩
      · exact ⟨.error "Expected ')' or ',' in argument list", s1, j1, ParseArgs_bad hr1 hc hd,
          hl1, hj1, fun v hv => by cases hv⟩

theorem parserTotal (k : Nat) : ParserTotal k := by
  induction k using Nat.strong_induction_on with
  | _ k ih =>
    intro s h
    have hprim := total_primary k ih s h
    have hexpr := total_expression k ih s hprim
    exact ⟨hprim, hexpr, fun a => total_args k ih s hexpr a,
      fun p L hp => total_rhs k ih s h p L hp⟩

theorem total_readArgNames (k : Nat) (s : State) (a : List (List Byte)) (h : Left k s) :
    ∃ names s1 j, Returns (fun n => readArgNames n a s) (names, s1) ∧ Left j s1 ∧
      j ≤ k - 1 := by
  induction k using Nat.strong_induction_on generalizing s a with
  | _ k ih =>
    obtain ⟨s1, h1, hl1⟩ := left_next h
    by_cases hc : s1.CurTok = tok_identifier
    · have hpos : 0 < k - 1 := left_pos hl1 (by rw [hc]; decide)
      obtain ⟨names, s2, j, h2, hl2, hj⟩ := ih (k - 1) (by omega) s1
        (a ++ [s1.IdentifierStr]) hl1
      exact ⟨names, s2, j, readArgNames_more h1 hc h2, hl2, by omega⟩
    · exact ⟨a, s1, k - 1, readArgNames_stop h1 hc, hl1, le_refl _⟩

theorem total_prototype (k : Nat) (s : State) (h : Left k s) :
    Stops (fun n => ParsePrototype n s) k := by
  by_cases hi : s.CurTok = tok_identifier
  · obtain ⟨s1, h1, hl1⟩ := left_next h
    by_cases hc : s1.CurTok = 40
    · obtain ⟨names, s2, j2, h2, hl2, hj2⟩ := total_readArgNames (k - 1) s1 [] hl1
      by_cases hd : s2.CurTok = 41
      · obtain ⟨s3, h3, hl3⟩ := left_next hl2
        exact ⟨.ok ⟨s.IdentifierStr, names⟩, s3, j2 - 1, ParsePrototype_ok hi h1 hc h2 hd h3,
          hl3, by omega⟩
      · exact ⟨.error "Expected ')' in prototype", s2, j2,
          ParsePrototype_no_close hi h1 hc h2 hd, hl2, by omega⟩
    · exact ⟨.error "Expected '(' in prototype", s1, k - 1, ParsePrototype_no_open hi h1 hc,
        hl1, by omega⟩
  · exact ⟨.error "Expected function name in prototype", s, k, ParsePrototype_no_name hi, h,
      le_refl _⟩

theorem ParseDefinition_error {s s1 s2 : State} {e : String}
    (h1 : Returns (fun n => getNextToken n s) s1)
    (h2 : Returns (fun n => ParsePrototype n s1) (.error e, s2)) :
    Returns (fun n => ParseDefinition n s) (.error e, s2) := by
  obtain ⟨n1, h1⟩ := h1
  obtain ⟨n2, h2⟩ := h2
  refine ⟨n1 + n2, fun n hn => ?_⟩
  simp [ParseDefinition, h1 n (by omega), h2 n (by omega)]

theorem ParseDefinition_of {s s1 s2 s3 : State} {P : PrototypeAST} {r : Parsed ExprAST}
    (h1 : Returns (fun n => getNextToken n s) s1)
    (h2 : Returns (fun n => ParsePrototype n s1) (.ok P, s2))
    (h3 : Returns (fun n => ParseExpression n s2) (r, s3)) :
    Returns (fun n => ParseDefinition n s) (Except.map (fun E => ⟨P, E⟩) r, s3) := by
  obtain ⟨n1, h1⟩ := h1
  obtain ⟨n2, h2⟩ := h2
  obtain ⟨n3, h3⟩ := h3
  refine ⟨n1 + n2 + n3, fun n hn => ?_⟩
  cases r <;>
    simp [ParseDefinition, h1 n (by omega), h2 n (by omega), h3 n (by omega), Except.map]

theorem ParseExtern_of {s s1 : State} {r : Parsed PrototypeAST × State}
    (h1 : Returns (fun n => getNextToken n s) s1)
    (h2 : Returns (fun n => ParsePrototype n s1) r) :
    Returns (fun n => ParseExtern n s) r := by
  obtain ⟨n1, h1⟩ := h1
  obtain ⟨n2, h2⟩ := h2
  refine ⟨n1 + n2, fun n hn => ?_⟩
  simp [ParseExtern, h1 n (by omega), h2 n (by omega)]

theorem ParseTopLevelExpr_of {s s1 : State} {r : Parsed ExprAST}
    (h : Returns (fun n => ParseExpression n s) (r, s1)) :
    Returns (fun n => ParseTopLevelExpr n s) (Except.map anonymous r, s1) := by
  obtain ⟨n1, h1⟩ := h
  refine ⟨n1, fun n hn => ?_⟩
  cases r <;> simp [ParseTopLevelExpr, h1 n hn, Except.map, anonymous]

theorem total_definition (k : Nat) (s : State) (h : Left k s) :
    Stops (fun n => ParseDefinition n s) (k - 1) := by
  obtain ⟨s1, h1, hl1⟩ := left_next h
  obtain ⟨r2, s2, j2, hr2, hl2, hj2⟩ := total_prototype (k - 1) s1 hl1
  cases r2 with
  | error e => exact ⟨.error e, s2, j2, ParseDefinition_error h1 hr2, hl2, hj2⟩
  | ok P =>
    obtain ⟨r3, s3, j3, hr3, hl3, hj3, -⟩ := (parserTotal j2 s2 hl2).2.1
    exact ⟨_, s3, j3, ParseDefinition_of h1 hr2 hr3, hl3, by omega⟩

theorem total_extern (k : Nat) (s : State) (h : Left k s) :
    Stops (fun n => ParseExtern n s) (k - 1) := by
  obtain ⟨s1, h1, hl1⟩ := left_next h
  obtain ⟨r2, s2, j2, hr2, hl2, hj2⟩ := total_prototype (k - 1) s1 hl1
  exact ⟨r2, s2, j2, ParseExtern_of h1 hr2, hl2, hj2⟩

theorem total_topLevel (k : Nat) (s : State) (h : Left k s) :
    StopsAhead (fun n => ParseTopLevelExpr n s) k := by
  obtain ⟨r, s1, j, hr, hl, hj, hs⟩ := (parserTotal k s h).2.1
  refine ⟨_, s1, j, ParseTopLevelExpr_of hr, hl, hj, fun v hv => ?_⟩
  cases r with
  | error e => cases hv
  | ok E => exact hs E rfl

theorem HandleDefinition_total (k : Nat) (s : State) (h : Left k s) :
    ∃ out s1 j, Returns (fun n => HandleDefinition n s) (out, s1) ∧ Left j s1 ∧ j ≤ k - 1 := by
  obtain ⟨r, s1, j, ⟨n1, hr⟩, hl, hj⟩ := total_definition k s h
  cases r with
  | ok f =>
    exact ⟨["Parsed a function definition.\n"], s1, j, ⟨n1, fun n hn => by simp [HandleDefinition, hr n hn]⟩, hl, hj⟩
  | error e =>
    obtain ⟨s2, ⟨n2, h2⟩, hl2⟩ := left_next hl
    exact ⟨[errorLine e], s2, j - 1, ⟨n1 + n2, fun n hn => by
      simp [HandleDefinition, hr n (by omega), h2 n (by omega)]⟩, hl2, by omega⟩

theorem HandleExtern_total (k : Nat) (s : State) (h : Left k s) :
    ∃ out s1 j, Returns (fun n => HandleExtern n s) (out, s1) ∧ Left j s1 ∧ j ≤ k - 1 := by
  obtain ⟨r, s1, j, ⟨n1, hr⟩, hl, hj⟩ := total_extern k s h
  cases r with
  | ok f =>
    exact ⟨["Parsed an extern\n"], s1, j, ⟨n1, fun n hn => by simp [HandleExtern, hr n hn]⟩, hl, hj⟩
  | error e =>
    obtain ⟨s2, ⟨n2, h2⟩, hl2⟩ := left_next hl
    exact ⟨[errorLine e], s2, j - 1, ⟨n1 + n2, fun n hn => by
      simp [HandleExtern, hr n (by omega), h2 n (by omega)]⟩, hl2, by omega⟩

theorem HandleTopLevelExpression_total (k : Nat) (s : State) (h : Left k s) :
    ∃ out s1 j, Returns (fun n => HandleTopLevelExpression n s) (out, s1) ∧ Left j s1 ∧
      j ≤ k - 1 := by
  obtain ⟨r, s1, j, ⟨n1, hr⟩, hl, hj, hs⟩ := total_topLevel k s h
  cases r with
  | ok f =>
    have := hs f rfl
    exact ⟨["Parsed a top-level expr\n"], s1, j, ⟨n1, fun n hn => by simp [HandleTopLevelExpression, hr n hn]⟩, hl,
      by omega⟩
  | error e =>
    obtain ⟨s2, ⟨n2, h2⟩, hl2⟩ := left_next hl
    exact ⟨[errorLine e], s2, j - 1, ⟨n1 + n2, fun n hn => by
      simp [HandleTopLevelExpression, hr n (by omega), h2 n (by omega)]⟩, hl2, by omega⟩

theorem MainLoopCase_total (k : Nat) (s : State) (h : Left k s) (hc : s.CurTok ≠ tok_eof) :
    ∃ out s1 j, Returns (fun n => MainLoopCase n s) (out, s1) ∧ Left j s1 ∧ j < k := by
  have hpos := left_pos h hc
  by_cases h1 : s.CurTok = 59
  · obtain ⟨s1, ⟨n1, hn1⟩, hl1⟩ := left_next h
    exact ⟨[], s1, k - 1, ⟨n1, fun n hn => by simp [MainLoopCase, h1, hn1 n hn]⟩, hl1,
      by omega⟩
  · by_cases h2 : s.CurTok = tok_def
    · obtain ⟨out, s1, j, ⟨n1, hr⟩, hl, hj⟩ := HandleDefinition_total k s h
      exact ⟨out, s1, j, ⟨n1, fun n hn => by
        simp only [MainLoopCase, h2]; simpa [tok_def] using hr n hn⟩, hl, by omega⟩
    · by_cases h3 : s.CurTok = tok_extern
      · obtain ⟨out, s1, j, ⟨n1, hr⟩, hl, hj⟩ := HandleExtern_total k s h
        exact ⟨out, s1, j, ⟨n1, fun n hn => by
          simp only [MainLoopCase, h3]; simpa [ tok_extern, tok_def] using hr n hn⟩, hl,
          by omega⟩
      · obtain ⟨out, s1, j, ⟨n1, hr⟩, hl, hj⟩ := HandleTopLevelExpression_total k s h
        exact ⟨out, s1, j, ⟨n1, fun n hn => by
          simpa [MainLoopCase, h1, h2, h3] using hr n hn⟩, hl, by omega⟩

theorem MainLoop_total (k : Nat) (s : State) (h : Left k s) :
    ∃ out s1, Returns (fun n => MainLoop n s) (out, s1) ∧ s1.CurTok = tok_eof := by
  induction k using Nat.strong_induction_on generalizing s with
  | _ k ih =>
    by_cases hc : s.CurTok = tok_eof
    · refine ⟨["ready> "], s, ⟨1, fun n hn => ?_⟩, hc⟩
      obtain ⟨m, rfl⟩ : ∃ i, n = i + 1 := ⟨n - 1, by omega⟩
      simp [MainLoop, hc]
    · obtain ⟨out, s1, j, ⟨n1, h1⟩, hl1, hj⟩ := MainLoopCase_total k s h hc
      obtain ⟨out2, s2, ⟨n2, h2⟩, he⟩ := ih j hj s1 hl1
      refine ⟨"ready> " :: out ++ out2, s2, ⟨n1 + n2 + 1, fun n hn => ?_⟩, he⟩
      obtain ⟨m, rfl⟩ : ∃ i, n = i + 1 := ⟨n - 1, by omega⟩
      simp [MainLoop, hc, h1 m (by omega), h2 m (by omega)]

theorem getNextToken_eof_LastChar {n : Nat} {s s1 : State} (h : getNextToken n s = some s1)
    (hc : s1.CurTok = tok_eof) : s1.LastChar = EOF := by
  unfold getNextToken at h
  cases h1 : gettok n s with
  | none => rw [h1] at h; simp at h
  | some r =>
    obtain ⟨t, s2⟩ := r
    rw [h1] at h
    simp only [Option.some.injEq] at h
    subst h
    simp only at hc
    subst hc
    exact @gettok_eof_LastChar n s s2 h1

theorem left_of_feeds (ts : List Token) (s : State) (h : Feeds s (ts ++ [Token.eof])) :
    Left (ts.length + 1) s := by
  induction ts generalizing s with
  | nil =>
    obtain ⟨s1, h1, h2, -⟩ := h
    refine ⟨s1, h1, h2.1, ?_⟩
    obtain ⟨n1, hn1⟩ := h1
    exact getNextToken_eof_LastChar (hn1 n1 (le_refl _)) h2.1
  | cons t ts ih =>
    obtain ⟨s1, h1, -, h3⟩ := h
    exact ⟨s1, h1, ih s1 h3⟩

theorem main_returns {text : List Byte} {s s1 : State} {out : List String}
    (h1 : Returns (fun n => getNextToken n (init text)) s)
    (h2 : Returns (fun n => MainLoop n s) (out, s1)) :
    Returns (fun n => main n text) ("ready> " :: out, s1) := by
  obtain ⟨n1, h1⟩ := h1
  obtain ⟨n2, h2⟩ := h2
  refine ⟨n1 + n2, fun n hn => ?_⟩
  simp [main, h1 n (by omega), h2 n (by omega)]

/-- C18. Driver progress: in a state from which the lexer has `k` more tokens
to hand out before end-of-input, a turn of `MainLoop` on a current token other
than end-of-input returns (be it the skip of a `;`, a parsed construct, or a
failure followed by the recovery skip) and leaves fewer than `k` tokens; and
`MainLoop` itself returns, with end-of-input as current token. -/
theorem driver_progress (k : Nat) (s : State) (h : Left k s) :
    (s.CurTok ≠ tok_eof →
      ∃ out s1 j, Returns (fun n => MainLoopCase n s) (out, s1) ∧ Left j s1 ∧ j < k) ∧
    ∃ out s1, Returns (fun n => MainLoop n s) (out, s1) ∧ s1.CurTok = tok_eof :=
  ⟨fun hc => MainLoopCase_total k s h hc, MainLoop_total k s h⟩

/-- C18 at the malformed input `def f(x) x+; ) 4`: `main` returns. -/
theorem driver_progress_witness :
    ∃ out s1, Returns (fun n => main n (bytes "def f(x) x+; ) 4")) (out, s1) ∧
      s1.CurTok = tok_eof := by
  obtain ⟨s, hn, -, hfs⟩ := feeds_init
    [([], .kwDef), ([32], .ident (bytes "f")), ([], .sym 40), ([], .ident (bytes "x")),
      ([], .sym 41), ([32], .ident (bytes "x")), ([], .sym 43), ([], .sym 59),
      ([32], .sym 41), ([32], .number (bytes "4"))] [] (by decide)
  have hl := left_of_feeds
    [.ident (bytes "f"), .sym 40, .ident (bytes "x"), .sym 41, .ident (bytes "x"), .sym 43,
      .sym 59, .sym 41, .number (bytes "4")] s hfs
  obtain ⟨out, s1, hr, he⟩ := (driver_progress _ s hl).2
  exact ⟨_, s1, main_returns hn hr, he⟩

/-! ## The order of operands and operators -/

theorem Operand.inorder_ast (a : Operand) : a.ast.inorder = [.operand a.ast] := by
  cases a <;> rfl

theorem pairEntries_append (p q : List (Byte × Operand)) :
    pairEntries (p ++ q) = pairEntries p ++ pairEntries q := by
  induction p with
  | nil => rfl
  | cons x r ih => simp [pairEntries, ih]

theorem chainTokens_append (p q : List (Byte × Operand)) :
    chainTokens (p ++ q) = chainTokens p ++ chainTokens q := by
  induction p with
  | nil => rfl
  | cons x r ih => simp [chainTokens, ih]

theorem chain_next (r : List (Byte × Operand)) (hops : ∀ x ∈ r, isBinop x.1 = true) :
    ∃ t ts, chainTokens r ++ [Token.eof] = t :: ts ∧ t.code ≠ 40 := by
  cases r with
  | nil => exact ⟨.eof, [], rfl, by decide⟩
  | cons y r1 => exact ⟨.sym y.1, _, rfl, binop_ne_paren (hops y (List.mem_cons_self _ _))⟩

/-- Precedence climbing over any run of table operators: `ParseBinOpRHS` takes
a prefix of the run, returns a tree whose traversal is that of `L` followed by
the prefix, and stops in front of a token of precedence below the threshold. -/
theorem ParseBinOpRHS_inorder (N : Nat) :
    ∀ pairs : List (Byte × Operand), pairs.length ≤ N →
      (∀ x ∈ pairs, isBinop x.1 = true) →
      ∀ (p : Int) (L : ExprAST) (s : State), 0 ≤ p →
        Reads s (chainTokens pairs ++ [Token.eof]) →
        ∃ p1 p2 T s1, pairs = p1 ++ p2 ∧
          Returns (fun n => ParseBinOpRHS n p L s) (.ok T, s1) ∧
          T.inorder = L.inorder ++ pairEntries p1 ∧
          Reads s1 (chainTokens p2 ++ [Token.eof]) ∧ GetTokPrecendence s1 < p := by
  induction N with
  | zero =>
    intro pairs hlen hops p L s hp hs
    have e : pairs = [] := List.length_eq_zero.mp (Nat.le_zero.mp hlen)
    subst e
    have hlt : GetTokPrecendence s < p := by rw [prec_eof hs.1]; omega
    exact ⟨[], [], L, s, rfl, ParseBinOpRHS_stop hlt, by simp [pairEntries], hs, hlt⟩
  | succ N ih =>
    intro pairs hlen hops p L s hp hs
    cases pairs with
    | nil =>
      have hlt : GetTokPrecendence s < p := by rw [prec_eof hs.1]; omega
      exact ⟨[], [], L, s, rfl, ParseBinOpRHS_stop hlt, by simp [pairEntries], hs, hlt⟩
    | cons x r =>
      obtain ⟨o, a⟩ := x
      by_cases hc : GetTokPrecendence s < p
      · exact ⟨[], (o, a) :: r, L, s, rfl, ParseBinOpRHS_stop hc, by simp [pairEntries], hs, hc⟩
      · have hp1 : p ≤ GetTokPrecendence s := not_lt.mp hc
        have hr : ∀ y ∈ r, isBinop y.1 = true := fun y hy => hops y (List.mem_cons_of_mem _ hy)
        have hrlen : r.length ≤ N := by simp at hlen; omega
        obtain ⟨hsh, s1, h1, hsh1, hf1⟩ := hs
        have hcur : s.CurTok = (o.val : Int) := hsh.1
        obtain ⟨t, ts, et, ht⟩ := chain_next r hr
        have hrd1 : Reads s1 (a.token :: t :: ts) := by
          refine ⟨hsh1, ?_⟩
          have : Feeds s1 (chainTokens r ++ [Token.eof]) := hf1
          rwa [et] at this
        obtain ⟨s2, hp2, hr2⟩ := ParsePrimary_operand a t ts hrd1 ht
        rw [← et] at hr2
        by_cases hq : GetTokPrecendence s < GetTokPrecendence s2
        · obtain ⟨q1, q2, R1, s3, e1, hr3, hin3, hrd3, -⟩ :=
            ih r hrlen hr (GetTokPrecendence s + 1) a.ast s2 (by omega) hr2
          have hq2len : q2.length ≤ N := by
            have := congrArg List.length e1
            simp at this
            omega
          have hq2 : ∀ y ∈ q2, isBinop y.1 = true := fun y hy =>
            hr y (by rw [e1]; exact List.mem_append_right _ hy)
          obtain ⟨u1, u2, T, s4, e2, hr4, hin4, hrd4, hlt4⟩ :=
            ih q2 hq2len hq2 p (.Binary s.CurTok L R1) s3 hp hrd3
          refine ⟨(o, a) :: (q1 ++ u1), u2, T, s4, ?_,
            ParseBinOpRHS_climb hp1 h1 hp2 hq hr3 hr4, ?_, hrd4, hlt4⟩
          · rw [e1, e2]; simp
          · rw [hin4, ExprAST.inorder, hin3, Operand.inorder_ast, hcur]
            simp [pairEntries, pairEntries_append]
        · obtain ⟨u1, u2, T, s4, e2, hr4, hin4, hrd4, hlt4⟩ :=
            ih r hrlen hr p (.Binary s.CurTok L a.ast) s2 hp hr2
          refine ⟨(o, a) :: u1, u2, T, s4, by rw [e2]; rfl,
            ParseBinOpRHS_step hp1 h1 hp2 (not_lt.mp hq) hr4, ?_, hrd4, hlt4⟩
          rw [hin4, ExprAST.inorder, Operand.inorder_ast, hcur]
          simp [pairEntries]

theorem ParseExpression_inorder (a0 : Operand) (pairs : List (Byte × Operand))
    (hops : ∀ x ∈ pairs, isBinop x.1 = true) (s : State)
    (hs : Reads s (a0.token :: chainTokens pairs ++ [Token.eof])) :
    ∃ T s1, Returns (fun n => ParseExpression n s) (.ok T, s1) ∧
      T.inorder = .operand a0.ast :: pairEntries pairs ∧ Reads s1 [Token.eof] := by
  obtain ⟨t, ts, et, ht⟩ := chain_next pairs hops
  have hs1 : Reads s (a0.token :: t :: ts) := by
    have : Reads s (a0.token :: (chainTokens pairs ++ [Token.eof])) := hs
    rwa [et] at this
  obtain ⟨s1, h1, h2⟩ := ParsePrimary_operand a0 t ts hs1 ht
  rw [← et] at h2
  obtain ⟨p1, p2, T, s2, e, hr, hin, hrd, hlt⟩ :=
    ParseBinOpRHS_inorder pairs.length pairs (le_refl _) hops 0 a0.ast s1 (le_refl _) h2
  have hp2 : p2 = [] := by
    cases p2 with
    | nil => rfl
    | cons y r =>
      exfalso
      have hy : isBinop y.1 = true := hops y (by rw [e]; simp)
      have := prec_binop hrd.1 hy
      have hpos := binop_pos hy
      omega
  subst hp2
  rw [List.append_nil] at e
  subst e
  refine ⟨T, s2, ParseExpression_of h1 hr, ?_, hrd⟩
  rw [hin, Operand.inorder_ast]
  rfl

/-- C19. Operand order is preserved: for a sequence `a0 o1 a1 ... on an` of
simple operands separated by operators of the precedence table, of any
precedences and with `n` possibly zero, `ParseExpression` returns a tree whose
in-order traversal is exactly `a0, o1, a1, ..., on, an`. -/
theorem operand_order_preserved (w0 : List Byte) (a0 : Operand) (links : List Link)
    (tail : List Byte) (hw0 : blank w0 = true) (ha0 : a0.wf = true)
    (hl : ∀ l ∈ links, l.wf = true) (ht : blank tail = true) :
    ∃ T s1, Returns (fun n => onText ParseExpression n (w0 ++ chainText a0 links ++ tail))
        (.ok T, s1) ∧
      T.inorder = .operand a0.ast :: pairEntries (links.map Link.pair) ∧
      s1.CurTok = tok_eof := by
  obtain ⟨s, hn, hsh, hfs⟩ := feeds_chain w0 a0 links tail hw0 ha0 hl ht
  have hops : ∀ x ∈ links.map Link.pair, isBinop x.1 = true := by
    intro x hx
    obtain ⟨l, hl1, rfl⟩ := List.mem_map.mp hx
    have hw := hl l hl1
    simp only [Link.wf, Bool.and_eq_true] at hw
    exact hw.1.2
  obtain ⟨T, s1, hr, hin, hrd⟩ := ParseExpression_inorder a0 _ hops s ⟨hsh, hfs⟩
  exact ⟨T, s1, onText_returns hn hr, hin, cur_eof hrd⟩

/-- C19 at `a+2*3-4<b`. -/
theorem operand_order_preserved_witness :
    ∃ T s1, Returns (fun n => onText ParseExpression n (bytes "a+2*3-4<b")) (.ok T, s1) ∧
      T.inorder = [.operand (.Variable (bytes "a")), .operator 43,
        .operand (.Number (bytes "2")), .operator 42, .operand (.Number (bytes "3")),
        .operator 45, .operand (.Number (bytes "4")), .operator 60,
        .operand (.Variable (bytes "b"))] ∧
      s1.CurTok = tok_eof :=
  operand_order_preserved [] (.var (bytes "a"))
    [⟨[], 43, [], .lit (bytes "2")⟩, ⟨[], 42, [], .lit (bytes "3")⟩,
      ⟨[], 45, [], .lit (bytes "4")⟩, ⟨[], 60, [], .var (bytes "b")⟩] []
    (by decide) (by decide) (by decide) (by decide)

/-! ## Texts without a decimal point -/

theorem all_takeWhile (p : Byte → Bool) (l : List Byte) : (l.takeWhile p).all p = true := by
  induction l with
  | nil => rfl
  | cons b r ih =>
    by_cases h : p b = true
    · simp [List.takeWhile, h, ih]
    · simp [List.takeWhile, h]

theorem next_dropWhile (q : Int → Bool) (hq : q EOF = false) (l : List Byte) :
    q (next (l.dropWhile (fun b => q (b.val : Int)))) = false := by
  induction l with
  | nil => exact hq
  | cons b r ih =>
    by_cases h : q (b.val : Int) = true
    · simpa [List.dropWhile, h] using ih
    · simp only [Bool.not_eq_true] at h
      simp [List.dropWhile, h, next]

theorem dropWhile_head (p : Byte → Bool) (l : List Byte) (b : Byte) (r : List Byte)
    (h : l.dropWhile p = b :: r) : p b = false := by
  induction l with
  | nil => simp at h
  | cons c l ih =>
    by_cases hc : p c = true
    · simp only [List.dropWhile, hc] at h; exact ih h
    · simp only [Bool.not_eq_true] at hc
      simp only [List.dropWhile, hc, List.cons.injEq] at h
      rw [← h.1]; exact hc

theorem classify_ne_eof (w : List Byte) : classify w ≠ tok_eof := by
  unfold classify
  split
  · decide
  · split <;> decide

theorem gettok_number_run (s : State) (ws : List Byte) (d : Byte) (ds rest : List Byte)
    (hws : blank ws = true) (hd : isdigit (d.val : Int) = true)
    (hds : ds.all (fun b => isdigit (b.val : Int)) = true)
    (hr : isdigit (next rest) = false) (hr2 : next rest ≠ 46) (n : Nat)
    (hn : ws.length + ds.length + 2 < n) :
    gettok n (s.atText (ws ++ (d :: ds ++ rest))) =
      some (tok_number, { s with NumVal := d :: ds }.atText rest) := by
  obtain ⟨n, rfl⟩ : ∃ k, n = k + 1 := ⟨n - 1, by omega⟩
  have h1 := skipSpaces_blank s ws (d :: ds ++ rest) hws (isdigit_not_isspace hd) n (by omega)
  have h3 := readNumber_digits s [] d ds rest hd hds hr hr2 n (by omega)
  have hd2 : (isdigit (s.atText (d :: ds ++ rest)).LastChar ||
      (s.atText (d :: ds ++ rest)).LastChar == 46) = true := by
    rw [show (s.atText (d :: ds ++ rest)).LastChar = (d.val : Int) from rfl, hd]; rfl
  exact gettok_step_number h1 (isdigit_not_isalpha hd) hd2 h3

theorem returns_comment_line (s : State) (ws body : List Byte) (nl : Byte) (rest : List Byte)
    (hws : blank ws = true) (hbody : body.all (fun b => !isNewline (b.val : Int)) = true)
    (hnl : isNewline (nl.val : Int) = true) {r : Int × State}
    (h : Returns (fun n => gettok n (s.atText (nl :: rest))) r) :
    Returns (fun n => gettok n (s.atText (ws ++ 35 :: (body ++ nl :: rest)))) r := by
  obtain ⟨n0, h⟩ := h
  refine ⟨max n0 (ws.length + body.length + 1) + 1, fun n hn => ?_⟩
  obtain ⟨m, rfl⟩ : ∃ k, n = k + 1 := ⟨n - 1, by omega⟩
  dsimp only
  rw [gettok_comment_line s ws body nl rest hws hbody hnl m (by omega)]
  exact h m (by omega)

theorem next_ne_dot (l : List Byte) (h : ∀ b ∈ l, (b.val : Int) ≠ 46) : next l ≠ 46 := by
  cases l with
  | nil => decide
  | cons b r => exact h b (List.mem_cons_self _ _)

/-- One call of `gettok` in front of a text without `.`: it returns, at
end-of-input with the text used up, or with a token after having read at least
one character that is not whitespace. -/
theorem gettok_one (N : Nat) :
    ∀ t : List Byte, t.length ≤ N → (∀ b ∈ t, (b.val : Int) ≠ 46) → ∀ s : State,
      ∃ (tok : Int) (s1 : State) (pre t1 : List Byte), t = pre ++ t1 ∧
        Returns (fun n => gettok n (s.atText t)) (tok, s1.atText t1) ∧
        (tok = tok_eof ∧ t1 = [] ∨
          tok ≠ tok_eof ∧ ∃ b ∈ pre, isspace (b.val : Int) = false) := by
  induction N with
  | zero =>
    intro t hlen _ s
    have e : t = [] := List.length_eq_zero.mp (Nat.le_zero.mp hlen)
    subst e
    exact ⟨tok_eof, s, [], [], rfl, ⟨2, fun n hn => gettok_eof s [] rfl n (by simpa using hn)⟩,
      Or.inl ⟨rfl, rfl⟩⟩
  | succ N ih =>
    intro t hlen hno s
    have e : t = t.takeWhile (fun b => isspace (b.val : Int)) ++
        t.dropWhile (fun b => isspace (b.val : Int)) :=
      (List.takeWhile_append_dropWhile _ _).symm
    have hws : blank (t.takeWhile (fun b => isspace (b.val : Int))) = true :=
      all_takeWhile _ _
    have hu := next_dropWhile isspace rfl t
    generalize t.takeWhile (fun b => isspace (b.val : Int)) = ws at e hws
    generalize t.dropWhile (fun b => isspace (b.val : Int)) = u at e hu
    subst e
    cases u with
    | nil =>
      refine ⟨tok_eof, s, ws, [], rfl, ⟨ws.length + 2, fun n hn => ?_⟩, Or.inl ⟨rfl, rfl⟩⟩
      rw [List.append_nil]
      exact gettok_eof s ws hws n (by omega)
    | cons c r =>
      have hsp : isspace (c.val : Int) = false := hu
      have hc46 : (c.val : Int) ≠ 46 := hno c (by simp)
      have hr46 : ∀ b ∈ r, (b.val : Int) ≠ 46 := fun b hb => hno b (by simp [hb])
      by_cases ha : isalpha (c.val : Int) = true
      · have e2 : r = r.takeWhile (fun b => isalnum (b.val : Int)) ++
            r.dropWhile (fun b => isalnum (b.val : Int)) :=
          (List.takeWhile_append_dropWhile _ _).symm
        have hcs := all_takeWhile (fun b => isalnum (b.val : Int)) r
        have hrest := next_dropWhile isalnum rfl r
        generalize r.takeWhile (fun b => isalnum (b.val : Int)) = cs at e2 hcs
        generalize r.dropWhile (fun b => isalnum (b.val : Int)) = rest at e2 hrest
        subst e2
        refine ⟨classify (c :: cs), { s with IdentifierStr := c :: cs }, ws ++ c :: cs, rest,
          by simp, ⟨ws.length + cs.length + 3, fun n hn => ?_⟩,
          Or.inr ⟨classify_ne_eof _, c, by simp, hsp⟩⟩
        exact gettok_word s ws c cs rest hws ha hcs hrest n (by omega)
      · by_cases hd : isdigit (c.val : Int) = true
        · have e2 : r = r.takeWhile (fun b => isdigit (b.val : Int)) ++
              r.dropWhile (fun b => isdigit (b.val : Int)) :=
            (List.takeWhile_append_dropWhile _ _).symm
          have hds := all_takeWhile (fun b => isdigit (b.val : Int)) r
          have hrest := next_dropWhile isdigit rfl r
          generalize r.takeWhile (fun b => isdigit (b.val : Int)) = ds at e2 hds
          generalize r.dropWhile (fun b => isdigit (b.val : Int)) = rest at e2 hrest
          subst e2
          have hdot : next rest ≠ 46 :=
            next_ne_dot _ (fun b hb => hr46 b (List.mem_append_right _ hb))
          refine ⟨tok_number, { s with NumVal := c :: ds }, ws ++ c :: ds, rest, by simp,
            ⟨ws.length + ds.length + 3, fun n hn => ?_⟩,
            Or.inr ⟨by decide, c, by simp, hsp⟩⟩
          exact gettok_number_run s ws c ds rest hws hd hds hrest hdot n (by omega)
        · by_cases h35 : (c.val : Int) = 35
          · have hc : c = 35 := Fin.ext (by exact_mod_cast h35)
            subst hc
            have e2 : r = r.takeWhile (fun b => !isNewline (b.val : Int)) ++
                r.dropWhile (fun b => !isNewline (b.val : Int)) :=
              (List.takeWhile_append_dropWhile _ _).symm
            have hbody := all_takeWhile (fun b => !isNewline (b.val : Int)) r
            have hhead := dropWhile_head (fun b => !isNewline (b.val : Int)) r
            generalize r.takeWhile (fun b => !isNewline (b.val : Int)) = body at e2 hbody
            generalize r.dropWhile (fun b => !isNewline (b.val : Int)) = rest at e2 hhead
            subst e2
            cases rest with
            | nil =>
              refine ⟨tok_eof, s, ws ++ 35 :: body, [], by simp,
                ⟨ws.length + body.length + 2, fun n hn => ?_⟩, Or.inl ⟨rfl, rfl⟩⟩
              obtain ⟨m, rfl⟩ : ∃ k, n = k + 1 := ⟨n - 1, by omega⟩
              rw [List.append_nil]
              exact gettok_comment_end s ws body hws hbody m (by omega)
            | cons nl rest2 =>
              have hnl : isNewline (nl.val : Int) = true := by
                have := hhead nl rest2 rfl
                simpa using this
              have hlen2 : (nl :: rest2).length ≤ N := by
                simp at hlen ⊢; omega
              obtain ⟨tok, s1, pre, t1, e3, hret, hcase⟩ := ih (nl :: rest2) hlen2
                (fun b hb => hr46 b (List.mem_append_right _ hb)) s
              refine ⟨tok, s1, ws ++ 35 :: body ++ pre, t1, by rw [e3]; simp,
                returns_comment_line s ws body nl rest2 hws hbody hnl hret, ?_⟩
              rcases hcase with h | ⟨h1, b, hb, hb2⟩
              · exact Or.inl h
              · exact Or.inr ⟨h1, b, by simp [hb], hb2⟩
          · have hsym : isSymbol c = true := by
              simp only [Bool.not_eq_true] at ha hd
              simp [isSymbol, hsp, isalnum, ha, hd, hc46, h35]
            refine ⟨(c.val : Int), s, ws ++ [c], r, by simp,
              ⟨ws.length + 2, fun n hn => ?_⟩,
              Or.inr ⟨by simp only [tok_eof, ne_eq]; omega, c, by simp, hsp⟩⟩
            exact gettok_symbol s ws c r hws hsym n (by omega)

theorem drains_zero {s s1 : State} (h : Returns (fun n => gettok n s) (tok_eof, s1)) :
    Drains 0 s := by
  obtain ⟨n0, h0⟩ := h
  exact ⟨s1, ⟨n0, h0⟩,
    ⟨2, fun m hm => gettok_at_eof s1 (gettok_eof_LastChar (h0 n0 (le_refl _))) m hm⟩⟩

theorem nonBlank_append (p q : List Byte) : nonBlank (p ++ q) = nonBlank p + nonBlank q := by
  simp [nonBlank, List.countP_append]

theorem nonBlank_pos (p : List Byte) (b : Byte) (hb : b ∈ p)
    (h : isspace (b.val : Int) = false) : 0 < nonBlank p := by
  unfold nonBlank
  rw [List.countP_pos_iff]
  exact ⟨b, hb, by simp [h]⟩

theorem drains_text (N : Nat) :
    ∀ t : List Byte, t.length ≤ N → (∀ b ∈ t, (b.val : Int) ≠ 46) → ∀ s : State,
      ∃ j, j ≤ nonBlank t ∧ Drains j (s.atText t) := by
  induction N with
  | zero =>
    intro t hlen hno s
    obtain ⟨tok, s1, pre, t1, e, hret, hcase⟩ := gettok_one 0 t hlen hno s
    rcases hcase with ⟨h1, -⟩ | ⟨-, b, hb, -⟩
    · subst h1; exact ⟨0, Nat.zero_le _, drains_zero hret⟩
    · have e0 : t = [] := List.length_eq_zero.mp (Nat.le_zero.mp hlen)
      subst e0
      have hp : pre = [] := by
        cases pre with
        | nil => rfl
        | cons x y => simp at e
      subst hp
      simp at hb
  | succ N ih =>
    intro t hlen hno s
    obtain ⟨tok, s1, pre, t1, e, hret, hcase⟩ := gettok_one (N + 1) t hlen hno s
    rcases hcase with ⟨h1, -⟩ | ⟨hne, b, hb, hb2⟩
    · subst h1; exact ⟨0, Nat.zero_le _, drains_zero hret⟩
    · have hpre : 0 < pre.length := List.length_pos_of_mem hb
      have hlen1 : t1.length ≤ N := by
        have := congrArg List.length e
        simp at this
        omega
      obtain ⟨j, hj, hd⟩ := ih t1 hlen1
        (fun x hx => hno x (by rw [e]; exact List.mem_append_right _ hx)) s1
      refine ⟨j + 1, ?_, tok, s1.atText t1, hret, hne, hd⟩
      rw [e, nonBlank_append]
      have := nonBlank_pos pre b hb hb2
      omega

/-- C20. For every input without the character `.`, every call of `gettok`
returns: repeated calls from the initial state return `j` tokens other than
end-of-input, with `j` at most the number of characters of the input, then
end-of-input, and end-of-input again at every later call. -/
theorem dot_free_tokenization (text : List Byte) (h : (46 : Byte) ∉ text) :
    ∃ j, j ≤ text.length ∧ Drains j (init text) := by
  have hno : ∀ b ∈ (32 : Byte) :: text, (b.val : Int) ≠ 46 := by
    intro b hb hc
    have hb46 : b = 46 := Fin.ext (by exact_mod_cast hc)
    subst hb46
    rcases List.mem_cons.mp hb with h1 | h1
    · exact absurd h1 (by decide)
    · exact h h1
  obtain ⟨j, hj, hd⟩ := drains_text _ ((32 : Byte) :: text) (le_refl _) hno (init [])
  refine ⟨j, ?_, hd⟩
  have e : nonBlank ((32 : Byte) :: text) = nonBlank text := by
    unfold nonBlank
    rw [List.countP_cons_of_neg]
    decide
  rw [e] at hj
  exact le_trans hj (List.countP_le_length _)

/-- C20 at `def f(x) # note` followed by a newline and `x+1`. -/
theorem dot_free_tokenization_witness :
    ∃ j, j ≤ (bytes "def f(x) # note\nx+1").length ∧
      Drains j (init (bytes "def f(x) # note\nx+1")) :=
  dot_free_tokenization (bytes "def f(x) # note\nx+1") (by decide)

end Kaleidoscope
